import Mathlib

/-!
K-BUCKET: a Kademlia-style routing table and content-addressed store.

Shallow embedding of `src/main.go`.

* Go strings are byte sequences: `Str := List (Fin 256)`.
* `int` is the 64-bit two's-complement integer of the usual Go targets; the
  narrowing conversions of the source are written out with `% 2 ^ 64`.
* A `[]byte` value is `Option (List (Fin 256))`, `none` being the nil slice.
* A Go map is an association list with at most one entry per key.
* A call that panics (index out of range) yields `none`.
* A finite `float64` is the rational it denotes; each floating-point operation
  is the exact operation followed by the rounding to 53 significant bits.
-/

namespace KBucket

/-! ## Data model -/

/-- A byte. -/
abbrev Byte := Fin 256

/-- A Go `string`: a sequence of bytes. -/
abbrev Str := List Byte

/-- A Go `[]byte`: `none` is the nil slice, `some bs` a non-nil slice. -/
abbrev Bytes := Option (List Byte)

/-- The bytes of an ASCII string literal. -/
def ascii (s : String) : Str := s.toList.map (fun c => Fin.ofNat c.toNat)

/-- The bytes behind a `[]byte` (`nil` and the empty slice both have none). -/
def Bytes.data : Bytes → List Byte
  | none => []
  | some bs => bs

/-- Go `type Node struct { ID string; Address string }`. -/
structure Node where
  ID : Str
  Address : Str
  deriving DecidableEq, Repr

/-- Go `type Bucket struct { Nodes []*Node }`. -/
structure Bucket where
  Nodes : List Node
  deriving DecidableEq, Repr

/-- Go `type Peer struct`: the peer's id, its 160 buckets, the directory of known
peers (a peer pointer is an address in the network) and the key-value store. -/
structure Peer where
  ID : Str
  KBuckets : Fin 160 → Bucket
  KnownPeers : List (Str × Nat)
  keys : List (Str × Bytes)

/-- The ids held by a bucket, in slice order. -/
def Bucket.ids (b : Bucket) : List Str := b.Nodes.map Node.ID

/-- Go `&Node{ID: nodeID}`: the address field is left at its zero value. -/
def mkNode (nodeID : Str) : Node := ⟨nodeID, []⟩

/-! ## Identity space -/

/-- Go `new(big.Int).SetBytes(b)`: the bytes read as a big-endian unsigned integer. -/
def setBytes (b : List Byte) : Nat := b.foldl (fun acc x => acc * 256 + x.val) 0

/-- Go `int(u)` for a `uint64` value `u`: two's-complement reinterpretation. -/
def toInt64 (u : Nat) : Int := if u < 2 ^ 63 then (u : Int) else (u : Int) - 2 ^ 64

/-- Go `func Distance(id1, id2 string) int`: the XOR of the two ids read as big
integers, narrowed by `xor.Uint64()` to its low 64 bits and converted to `int`. -/
def Distance (id1 id2 : Str) : Int :=
  let b1 := setBytes id1
  let b2 := setBytes id2
  let xor := Nat.xor b1 b2
  toInt64 (xor % 2 ^ 64)

/-- Halving loop behind `ilog2`: the number of times `n` can be halved before
it drops below 2, with `fuel` bounding the number of steps. -/
def ilog2Aux : Nat → Nat → Nat
  | 0, _ => 0
  | fuel + 1, n => if 2 ≤ n then ilog2Aux fuel (n / 2) + 1 else 0

/-- The integer part of the base-2 logarithm of `n ≥ 1`, which is the position
of the highest set bit of `n`. -/
def ilog2 (n : Nat) : Nat := ilog2Aux n n

/-! ## Floating point: `float64(d)`, `math.Log2` and `int(f)`

`InsertNode` and `FindNode` compute `int(math.Log2(float64(distance)))`. A
finite `float64` value is the rational it denotes, and every arithmetic
operation of the library code is the exact operation followed by `rnd`, the
rounding to the nearest value with a 53-bit significand, ties to even. The
exponent range is not bounded: for the arguments that occur, the integers from
`1` to `2 ^ 63`, no intermediate value of `math.Log2` leaves the range of the
normal numbers. The functions `math.Frexp`, `math.Log` and `math.Log2` follow
the Go library (`math/frexp.go`, `math/log.go`, `math/log10.go`), operation by
operation, each product and sum being rounded on its own. -/

/-- The power `2 ^ e` as a rational. -/
def pow2 (e : Int) : ℚ :=
  if 0 ≤ e then ((2 ^ e.toNat : Nat) : ℚ) else 1 / ((2 ^ (-e).toNat : Nat) : ℚ)

/-- The least `k` from the start value on with `n < 2 ^ (2 ^ k)`; the fuel
bounds the number of steps. -/
def bitLogFuel : Nat → Nat → Nat → Nat
  | 0, k, _ => k
  | fuel + 1, k, n => if n < 2 ^ (2 ^ k) then k else bitLogFuel fuel (k + 1) n

/-- Binary search for the position of the highest set bit of `n`: `acc` is a
position known to be at most the result, and the weights `2 ^ (k - 1)`, ...,
`1` are added to it in turn as long as `2 ^ acc ≤ n` is kept. -/
def bitLogAux : Nat → Nat → Nat → Nat
  | 0, acc, _ => acc
  | k + 1, acc, n =>
    if 2 ^ (acc + 2 ^ k) ≤ n then bitLogAux k (acc + 2 ^ k) n else bitLogAux k acc n

/-- The position of the highest set bit of `n ≥ 1`, the same number as
`ilog2 n`, found by binary search. -/
def bitLog (n : Nat) : Nat := bitLogAux (bitLogFuel n 0 n) 0 n

/-- The binary exponent of a positive rational `x`: the `e` with
`2 ^ e ≤ x < 2 ^ (e + 1)`. -/
def flog2 (x : ℚ) : Int :=
  let e0 : Int := (bitLog x.num.toNat : Int) - (bitLog x.den : Int)
  if pow2 e0 ≤ x then e0 else e0 - 1

/-- Rounding of a rational to the nearest integer, ties to even. -/
def roundEven (q : ℚ) : Int :=
  let fl := ⌊q⌋
  let r := q - fl
  if r < 1 / 2 then fl else if 1 / 2 < r then fl + 1 else if fl % 2 = 0 then fl else fl + 1

/-- Rounding to the nearest `float64`: the significand of `x` is rounded to 53
bits, ties to even. This is the conversion `float64(n)` of an integer and the
rounding that ends every floating-point operation. -/
def rnd (x : ℚ) : ℚ :=
  if x = 0 then 0
  else if 0 < x then (roundEven (x / pow2 (flog2 x - 52)) : ℚ) * pow2 (flog2 x - 52)
  else -((roundEven (-x / pow2 (flog2 (-x) - 52)) : ℚ) * pow2 (flog2 (-x) - 52))

/-- Go `Ln2Hi = 6.93147180369123816490e-01` of `math/log.go`. -/
def Ln2Hi : ℚ := rnd (693147180369123816490 / 10 ^ 21)

/-- Go `Ln2Lo = 1.90821492927058770002e-10` of `math/log.go`. -/
def Ln2Lo : ℚ := rnd (190821492927058770002 / 10 ^ 30)

/-- Go `L1 = 6.666666666666735130e-01` of `math/log.go`. -/
def L1 : ℚ := rnd (6666666666666735130 / 10 ^ 19)

/-- Go `L2 = 3.999999999940941908e-01` of `math/log.go`. -/
def L2 : ℚ := rnd (3999999999940941908 / 10 ^ 19)

/-- Go `L3 = 2.857142874366239149e-01` of `math/log.go`. -/
def L3 : ℚ := rnd (2857142874366239149 / 10 ^ 19)

/-- Go `L4 = 2.222219843214978396e-01` of `math/log.go`. -/
def L4 : ℚ := rnd (2222219843214978396 / 10 ^ 19)

/-- Go `L5 = 1.818357216161805012e-01` of `math/log.go`. -/
def L5 : ℚ := rnd (1818357216161805012 / 10 ^ 19)

/-- Go `L6 = 1.531383769920937332e-01` of `math/log.go`. -/
def L6 : ℚ := rnd (1531383769920937332 / 10 ^ 19)

/-- Go `L7 = 1.479819860511658591e-01` of `math/log.go`. -/
def L7 : ℚ := rnd (1479819860511658591 / 10 ^ 19)

/-- Go `Sqrt2/2`, a constant expression: the exact quotient of the constant
`math.Sqrt2` (given to 62 decimals) is rounded once. -/
def Sqrt2Half : ℚ := rnd (141421356237309504880168872420969807856967187537694807317667974 / 10 ^ 62 / 2)

/-- Go `1/Ln2`, a constant expression: the exact quotient with the constant
`math.Ln2` (given to 36 decimals) is rounded once. -/
def InvLn2 : ℚ := rnd (1 / (693147180559945309417232121458176568 / 10 ^ 36))

/-- The lines `s2 := s * s` to `R := t1 + t2` of `math.Log`. -/
def logPoly (s : ℚ) : ℚ :=
  let s2 := rnd (s * s)
  let s4 := rnd (s2 * s2)
  let t1 := rnd (s2 * rnd (L1 + rnd (s4 * rnd (L3 + rnd (s4 * rnd (L5 + rnd (s4 * L7)))))))
  let t2 := rnd (s4 * rnd (L2 + rnd (s4 * rnd (L4 + rnd (s4 * L6)))))
  rnd (t1 + t2)

/-- The part of `math.Log` after the reduction: from `s := f / (2 + f)` to
`return k*Ln2Hi - ((hfsq - (s*(hfsq+R) + k*Ln2Lo)) - f)`, with
`hfsq := 0.5 * f * f`. -/
def logCore (f k : ℚ) : ℚ :=
  let s := rnd (f / rnd (2 + f))
  let R := logPoly s
  let hfsq := rnd (rnd (1 / 2 * f) * f)
  rnd (rnd (k * Ln2Hi) - rnd (rnd (hfsq - rnd (rnd (s * rnd (hfsq + R)) + rnd (k * Ln2Lo))) - f))

/-- Go `math.Frexp(x)` for a positive `x`: the fraction in `[1/2, 1)` and the
exponent with `x = frac * 2 ^ exp`. -/
def Frexp (x : ℚ) : ℚ × Int := (x / pow2 (flog2 x + 1), flog2 x + 1)

/-- Go `math.Log(x)` for a positive `x`: `f1, ki := Frexp(x)`; when
`f1 < Sqrt2/2`, `f1` is doubled and `ki` decremented; then `f := f1 - 1`,
`k := float64(ki)` and the evaluation of `logCore`. -/
def Log (x : ℚ) : ℚ :=
  let f1 := (Frexp x).1
  let ki := (Frexp x).2
  if f1 < Sqrt2Half then logCore (rnd (rnd (f1 * 2) - 1)) (rnd ((ki - 1 : Int) : ℚ))
  else logCore (rnd (f1 - 1)) (rnd ((ki : Int) : ℚ))

/-- Go `math.Log2(x)` for a positive `x`: `frac, exp := Frexp(x)`; the result
is `float64(exp - 1)` when `frac == 0.5`, and
`Log(frac)*(1/Ln2) + float64(exp)` otherwise. -/
def Log2 (x : ℚ) : ℚ :=
  let frac := (Frexp x).1
  let exp := (Frexp x).2
  if frac = 1 / 2 then rnd ((exp - 1 : Int) : ℚ)
  else rnd (rnd (Log frac * InvLn2) + rnd ((exp : Int) : ℚ))

/-- Go `int(f)` for a `float64` within the range of `int`: the fraction is
discarded (truncation towards zero). -/
def truncInt (x : ℚ) : Int := if 0 ≤ x then ⌊x⌋ else -⌊-x⌋

/-- Go `int(math.Log2(float64(distance)))` for a positive `distance`. -/
def log2Index (distance : Int) : Int := truncInt (Log2 (rnd (distance : ℚ)))

/-- Go `bucketIndex := int(math.Log2(float64(distance)))` followed by the
bounds check of `p.KBuckets[bucketIndex]`. For `distance ≥ 1` the index is
the one the floating-point evaluation yields. For `distance ≤ 0` `math.Log2`
yields `-Inf` or `NaN`; the conversion of such a value to `int` is left to the
implementation by the language and is taken as on amd64, where it gives the
minimal integer: the index is out of range and the access panics. -/
def bucketIndex (distance : Int) : Option (Fin 160) :=
  if 0 < distance then
    if h : 0 ≤ log2Index distance ∧ log2Index distance < 160 then
      some ⟨(log2Index distance).toNat, by omega⟩
    else none
  else none

/-! ## Content hash: `crypto/sha1` and `encoding/hex` -/

/-- Rotate a 32-bit word left by `n` bits. -/
def rotl32 (x n : Nat) : Nat := ((x <<< n) ||| (x >>> (32 - n))) % 2 ^ 32

/-- The `k` big-endian bytes of `n`. -/
def beBytes (k n : Nat) : List Nat :=
  (List.range k).map (fun i => (n >>> (8 * (k - 1 - i))) % 256)

/-- The big-endian value of a list of bytes. -/
def beValue (bs : List Nat) : Nat := bs.foldl (fun acc x => acc * 256 + x) 0

/-- SHA-1 padding: a `0x80` byte, zero bytes up to 56 modulo 64, and the bit
length of the message as a 64-bit big-endian integer. -/
def sha1Pad (msg : List Byte) : List Nat :=
  msg.map Fin.val ++ [0x80] ++ List.replicate ((119 - msg.length % 64) % 64) 0
    ++ beBytes 8 (8 * msg.length)

/-- The 80-word message schedule of one 64-byte block. -/
def sha1Schedule (block : List Nat) : List Nat :=
  let w16 := (List.range 16).map (fun j => beValue ((block.drop (4 * j)).take 4))
  (List.range 64).foldl
    (fun w i =>
      w ++ [rotl32 (w.getD (i + 13) 0 ^^^ w.getD (i + 8) 0 ^^^ w.getD (i + 2) 0 ^^^ w.getD i 0) 1])
    w16

/-- The five 32-bit words of the SHA-1 chaining value. -/
structure Sha1State where
  h0 : Nat
  h1 : Nat
  h2 : Nat
  h3 : Nat
  h4 : Nat

/-- One of the 80 rounds of the SHA-1 compression function. -/
def sha1Round (w : List Nat) (s : Sha1State) (i : Nat) : Sha1State :=
  let f :=
    if i < 20 then (s.h1 &&& s.h2) ||| ((s.h1 ^^^ 0xFFFFFFFF) &&& s.h3)
    else if i < 40 then s.h1 ^^^ s.h2 ^^^ s.h3
    else if i < 60 then (s.h1 &&& s.h2) ||| (s.h1 &&& s.h3) ||| (s.h2 &&& s.h3)
    else s.h1 ^^^ s.h2 ^^^ s.h3
  let k :=
    if i < 20 then 0x5A827999 else if i < 40 then 0x6ED9EBA1
    else if i < 60 then 0x8F1BBCDC else 0xCA62C1D6
  ⟨(rotl32 s.h0 5 + f + s.h4 + k + w.getD i 0) % 2 ^ 32, s.h0, rotl32 s.h1 30, s.h2, s.h3⟩

/-- The SHA-1 compression function on one 64-byte block. -/
def sha1Block (s : Sha1State) (block : List Nat) : Sha1State :=
  let t := (List.range 80).foldl (sha1Round (sha1Schedule block)) s
  ⟨(s.h0 + t.h0) % 2 ^ 32, (s.h1 + t.h1) % 2 ^ 32, (s.h2 + t.h2) % 2 ^ 32,
   (s.h3 + t.h3) % 2 ^ 32, (s.h4 + t.h4) % 2 ^ 32⟩

/-- Go `sha1.Sum(data)`: the 20-byte SHA-1 digest. -/
def sha1Sum (data : List Byte) : List Nat :=
  let padded := sha1Pad data
  let blocks := (List.range (padded.length / 64)).map (fun i => (padded.drop (64 * i)).take 64)
  let s := blocks.foldl sha1Block ⟨0x67452301, 0xEFCDAB89, 0x98BADCFE, 0x10325476, 0xC3D2E1F0⟩
  beBytes 4 s.h0 ++ beBytes 4 s.h1 ++ beBytes 4 s.h2 ++ beBytes 4 s.h3 ++ beBytes 4 s.h4

/-- The ASCII code of the lower-case hexadecimal digit `d < 16`. -/
def hexDigit (d : Nat) : Byte := Fin.ofNat (if d < 10 then 48 + d else 87 + d)

/-- Go `hex.EncodeToString(src)`: two lower-case hexadecimal digits per byte. -/
def hexEncodeToString (src : List Nat) : Str :=
  src.flatMap (fun b => [hexDigit (b / 16 % 16), hexDigit (b % 16)])

/-- Go `hex.EncodeToString(hash[:])` for `hash := sha1.Sum(value)`, the key under
which `value` may be stored. A nil slice hashes like the empty slice. -/
def hashStr (value : Bytes) : Str := hexEncodeToString (sha1Sum value.data)

/-! ## Peers and routing tables -/

/-- Go `func NewPeer(id string) *Peer`: 160 empty buckets, no known peer, an
empty store. -/
def NewPeer (id : Str) : Peer :=
  { ID := id, KBuckets := fun _ => ⟨[]⟩, KnownPeers := [], keys := [] }

/-- Go `rand.Intn(n)` for `n > 0`: some value in `[0, n)`, fixed by the state
`seed` of the generator. Every outcome is reached by some seed. -/
def randIntn (seed n : Nat) : Nat := seed % n

/-- The loop `for i, node := range bucket.Nodes { if node.ID == nodeID ... }`
of `InsertNode`: the first index holding `nodeID`, if any. -/
def indexOfID (nodeID : Str) : List Node → Option Nat
  | [] => none
  | node :: nodes =>
    if node.ID = nodeID then some 0 else (indexOfID nodeID nodes).map (· + 1)

/-- The body of `InsertNode` once the bucket is selected (lines 54 to 74):
the new value of `bucket.Nodes`. -/
def insertNodes (seed : Nat) (nodes : List Node) (nodeID : Str) : List Node :=
  if nodes.length = 0 then
    nodes ++ [mkNode nodeID]
  else
    match indexOfID nodeID nodes with
    | some i => [mkNode nodeID] ++ nodes.eraseIdx i
    | none =>
      if nodes.length ≥ 3 then
        nodes.set (randIntn seed nodes.length) (mkNode nodeID)
      else
        nodes ++ [mkNode nodeID]

/-- Go `func (p *Peer) InsertNode(nodeID string)`. The result is `none` when the
call panics on the bucket access; `seed` fixes the outcome of `rand.Intn`. -/
def InsertNode (seed : Nat) (p : Peer) (nodeID : Str) : Option Peer :=
  let distance := Distance p.ID nodeID
  match bucketIndex distance with
  | none => none
  | some i =>
    let bucket := p.KBuckets i
    some { p with KBuckets := Function.update p.KBuckets i ⟨insertNodes seed bucket.Nodes nodeID⟩ }

/-! ## The key-value store -/

/-- Go `m[key]` on a `map[string][]byte`: the stored slice, nil when absent. -/
def mapGet : List (Str × Bytes) → Str → Bytes
  | [], _ => none
  | (k, v) :: m, key => if k = key then v else mapGet m key

/-- Go `m[key] = value` on a `map[string][]byte`. -/
def mapSet (m : List (Str × Bytes)) (key : Str) (value : Bytes) : List (Str × Bytes) :=
  (key, value) :: m.filter (fun e => e.1 ≠ key)

/-- Go `func (p *Peer) SetValue(key string, value []byte) bool`. -/
def SetValue (p : Peer) (key : Str) (value : Bytes) : Peer × Bool :=
  let hash_str := hashStr value
  if key ≠ hash_str then (p, false)
  else if mapGet p.keys key ≠ none then (p, true)
  else ({ p with keys := mapSet p.keys key value }, true)

/-- Go `func (s *Peer) GetValue(key string) []byte`: the peer is returned with the
result, as the method has a pointer receiver. -/
def GetValue (s : Peer) (key : Str) : Peer × Bytes :=
  if mapGet s.keys key ≠ none then
    let hash_str := hashStr (mapGet s.keys key)
    if key ≠ hash_str then (s, none)
    else (s, mapGet s.keys key)
  else (s, none)

/-- Peers reachable from `NewPeer id` by calls of `InsertNode` that return
(with any outcome of the random choice) and calls of `SetValue`. -/
inductive Reachable (id : Str) : Peer → Prop
  | newPeer : Reachable id (NewPeer id)
  | insertNode {p q : Peer} (seed : Nat) (nodeID : Str) :
      Reachable id p → InsertNode seed p nodeID = some q → Reachable id q
  | setValue {p : Peer} (key : Str) (value : Bytes) :
      Reachable id p → Reachable id (SetValue p key value).1

/-- The routing-table invariant: the peer keeps its id, every bucket holds at
most three contacts with pairwise different ids, and every contact sits in the
bucket that `InsertNode` computes for it. -/
def TableInv (id : Str) (p : Peer) : Prop :=
  p.ID = id ∧ ∀ j, (p.KBuckets j).Nodes.length ≤ 3 ∧ (p.KBuckets j).ids.Nodup ∧
    ∀ x ∈ (p.KBuckets j).ids, bucketIndex (Distance id x) = some j

/-- The store invariant: every non-nil value is stored under the hexadecimal
SHA-1 digest of its bytes. -/
def StoreInv (p : Peer) : Prop :=
  ∀ k v, mapGet p.keys k = some v → k = hashStr (some v)

/-- A sequence of `InsertNode` calls, each with the outcome of its random
choice; `none` as soon as one call panics. -/
def insertAll (p : Peer) : List (Nat × Str) → Option Peer
  | [] => some p
  | (seed, nodeID) :: calls => (InsertNode seed p nodeID).bind (fun q => insertAll q calls)

/-- The peer `id` after a sequence of `InsertNode` calls on a fresh peer (the
fresh peer itself if a call panics). -/
def runInserts (id : Str) (calls : List (Nat × Str)) : Peer :=
  (insertAll (NewPeer id) calls).getD (NewPeer id)

/-- The ids held by bucket `i` of a peer that may not exist. -/
def bucketIds (o : Option Peer) (i : Fin 160) : Option (List Str) :=
  o.map (fun p => (p.KBuckets i).ids)

/-! ## Networks of peers -/

/-- The outcome of a call: it returns, it panics, or the fuel that bounds the
depth of the nested calls is used up. -/
inductive Result (α : Type) where
  | ok (a : α)
  | panic
  | outOfFuel
  deriving DecidableEq, Repr

/-- The peers in memory. A `*Peer` is an index into this list; an index
outside of it is a nil pointer. -/
abbrev Network := List Peer

/-- Go `peer, ok := p.KnownPeers[id]`: the pointer stored under `id`, if any. -/
def knownGet : List (Str × Nat) → Str → Option Nat
  | [], _ => none
  | (k, a) :: m, id => if k = id then some a else knownGet m id

/-- The scan of all buckets in `FindNode` (lines 96 to 102): whether some
bucket holds a node with the given id. -/
def holdsID (p : Peer) (nodeID : Str) : Bool :=
  (List.finRange 160).any (fun i => decide (nodeID ∈ (p.KBuckets i).ids))

/-- The peers reachable from the peer at address `a` through `KnownPeers`: the
peer itself, and every peer found under some id in the `KnownPeers` map of a
peer that is reachable. -/
inductive KnownReach (net : Network) (a : Nat) : Nat → Prop
  | self : KnownReach net a a
  | step {b c : Nat} {p : Peer} (id : Str) :
      KnownReach net a b → net[b]? = some p → knownGet p.KnownPeers id = some c →
      KnownReach net a c

/-- Go `func (p *Peer) FindNode(nodeID string) bool`, called on the peer at
address `self`. The first argument bounds the depth of the nested calls;
`seeds k` fixes the random choice of the `k`-th call of `InsertNode` and the
counter `n` is the number of such calls made so far. The result carries the
network and the counter after the call. -/
def FindNode : Nat → (Nat → Nat) → Nat → Network → Nat → Str → Result (Network × Nat × Bool)
  | 0, _, _, _, _, _ => Result.outOfFuel
  | fuel + 1, seeds, n, net, self, nodeID =>
    match net[self]? with
    | none => Result.panic
    | some p =>
      match InsertNode (seeds n) p nodeID with
      | none => Result.panic
      | some q =>
        let net1 := net.set self q
        if holdsID q nodeID then Result.ok (net1, n + 1, true)
        else
          let distance := Distance q.ID nodeID
          match bucketIndex distance with
          | none => Result.panic
          | some i =>
            let bucket := q.KBuckets i
            let peers := (bucket.Nodes.take 2).filterMap
              (fun node => knownGet q.KnownPeers node.ID)
            peers.foldl
              (fun acc peer =>
                match acc with
                | Result.ok (net2, m, false) => FindNode fuel seeds m net2 peer nodeID
                | other => other)
              (Result.ok (net1, n + 1, false))

/-- The loop `for _, peer := range knownPeersCopy { peer.InsertNode(newPeer.ID) }`
of `Broadcast`, the entries being visited in the order of the list. -/
def broadcastLoop (seeds : Nat → Nat) (newPeer : Nat) :
    List (Str × Nat) → Nat → Network → Result (Network × Nat)
  | [], n, net => Result.ok (net, n)
  | (_, addr) :: rest, n, net =>
    match net[addr]?, net[newPeer]? with
    | some peer, some np =>
      match InsertNode (seeds n) peer np.ID with
      | none => Result.panic
      | some q => broadcastLoop seeds newPeer rest (n + 1) (net.set addr q)
    | _, _ => Result.panic

/-- Go `func (p *Peer) Broadcast(newPeer *Peer)`, called on the peer at address
`self`. The order in which Go visits the copied map is left open by the
language: it is the order of the association list. -/
def Broadcast (seeds : Nat → Nat) (n : Nat) (net : Network) (self newPeer : Nat) :
    Result (Network × Nat) :=
  match net[self]? with
  | none => Result.panic
  | some p =>
    let knownPeersCopy := p.KnownPeers
    broadcastLoop seeds newPeer knownPeersCopy n net

/-- What a call returned, without the network. -/
def Result.value {α β : Type} (r : Result (Network × α)) (f : α → β) : Result β :=
  match r with
  | Result.ok (_, a) => Result.ok (f a)
  | Result.panic => Result.panic
  | Result.outOfFuel => Result.outOfFuel

/-- The peer at address `a` after a call, if the call returned. -/
def Result.peerAt {α : Type} (r : Result (Network × α)) (a : Nat) : Option Peer :=
  match r with
  | Result.ok (net, _) => net[a]?
  | _ => none

/-- A sequence of `SetValue` calls: the peer after the calls and what each call
returned. -/
def setAll (p : Peer) : List (Str × Bytes) → Peer × List Bool
  | [] => (p, [])
  | (key, value) :: calls =>
    let r := SetValue p key value
    let rest := setAll r.1 calls
    (rest.1, r.2 :: rest.2)

/-- Go `func GenerateID() string`: the twenty random bytes `b` printed with
`%x`. -/
def GenerateID (b : List Byte) : Str := hexEncodeToString (b.map Fin.val)

/-- Whether a byte is one of the characters `0` to `9` and `a` to `f`. -/
def isHexChar (c : Byte) : Bool :=
  (48 ≤ c.val && c.val ≤ 57) || (97 ≤ c.val && c.val ≤ 102)

/-- Whether a string has the format of `GenerateID`: forty lower-case
hexadecimal characters. -/
def isHexID (s : Str) : Bool := s.length == 40 && s.all isHexChar

/-! ## The distance of the specification -/

/-- The XOR of two bytes. -/
def xorByte (x y : Byte) : Byte :=
  ⟨x.val ^^^ y.val, Nat.xor_lt_two_pow (n := 8) x.isLt y.isLt⟩

/-- The distance as the specification words it: the non-negative integer whose
big-endian byte representation is the bytewise XOR of the two identifiers. -/
def xorValue (a b : Str) : Nat := setBytes (List.zipWith xorByte a b)

/-! ## Concrete identifiers -/

/-- The id `00..00` (forty characters, the format of `GenerateID`). -/
def zeroID : Str := ascii "0000000000000000000000000000000000000000"

/-- The id `00..01`, which differs from `zeroID` in its last character. -/
def oneID : Str := ascii "0000000000000000000000000000000000000001"

/-- An id that differs from `zeroID` in its last character and in the
character 19 bytes above it. -/
def farID : Str := ascii "0000000000000000000010000000000000000001"

/-- An id that differs from `zeroID` only in its first character. -/
def highID : Str := ascii "1000000000000000000000000000000000000000"

/-- The peer `0` after inserting `4`, `5` and `6`: bucket 2 is full. -/
def fullPeer : Peer := runInserts (ascii "0") [(0, ascii "4"), (0, ascii "5"), (0, ascii "6")]

/-- The peer `0` after inserting `4`: bucket 2 holds one contact. -/
def onePeer : Peer := runInserts (ascii "0") [(0, ascii "4")]

/-- A network of one fresh peer `0`. -/
def loneNet : Network := [NewPeer (ascii "0")]

/-- A network of two peers: `00..00`, which knows `00..01`, and `00..01`,
whose routing table holds `10..00`. -/
def pairNet : Network :=
  [{ NewPeer zeroID with KnownPeers := [(oneID, 1)] }, runInserts oneID [(0, highID)]]

/-- A network of three fresh peers with ids of eight bytes; the first knows
the second, whose id has its top bit set. -/
def signNet : Network :=
  [{ NewPeer [0, 0, 0, 0, 0, 0, 0, 1] with KnownPeers := [([128, 0, 0, 0, 0, 0, 0, 0], 1)] },
   NewPeer [128, 0, 0, 0, 0, 0, 0, 0], NewPeer [0, 0, 0, 0, 0, 0, 0, 0]]

/-- A network of three fresh peers `0`, `4` and `5`; the first knows the
second. -/
def smallNet : Network :=
  [{ NewPeer (ascii "0") with KnownPeers := [(ascii "4", 1)] }, NewPeer (ascii "4"),
   NewPeer (ascii "5")]

/-- A network of two peers: `0`, which knows `4`, and `4`, whose routing table
holds `5`. -/
def heldNet : Network :=
  [{ NewPeer (ascii "0") with KnownPeers := [(ascii "4", 1)] },
   runInserts (ascii "4") [(0, ascii "5")]]

/-- The id of eight zero bytes. -/
def zero8 : Str := [0, 0, 0, 0, 0, 0, 0, 0]

/-- The id of eight bytes whose value is `2 ^ 49 - 1`. -/
def nearID : Str := [0, 1, 255, 255, 255, 255, 255, 255]

/-! ## Lemmas on the bucket update -/

theorem indexOfID_eq_none {nodeID : Str} {nodes : List Node} :
    indexOfID nodeID nodes = none ↔ nodeID ∉ nodes.map Node.ID := by
  induction nodes with
  | nil => simp [indexOfID]
  | cons n ns ih =>
    by_cases h : n.ID = nodeID
    · simp [indexOfID, h]
    · have h' : ¬ nodeID = n.ID := fun e => h e.symm
      simp [indexOfID, h, h', ih]

theorem indexOfID_some {nodeID : Str} {nodes : List Node} {i : Nat}
    (h : indexOfID nodeID nodes = some i) :
    i < nodes.length ∧ nodeID ∈ nodes.map Node.ID ∧
      (nodes.eraseIdx i).map Node.ID = (nodes.map Node.ID).erase nodeID := by
  induction nodes generalizing i with
  | nil => simp [indexOfID] at h
  | cons n ns ih =>
    by_cases hn : n.ID = nodeID
    · simp [indexOfID, hn] at h
      subst h
      simp [hn]
    · simp only [indexOfID, hn, if_false, Option.map_eq_some'] at h
      obtain ⟨k, hk, rfl⟩ := h
      obtain ⟨h1, h2, h3⟩ := ih hk
      refine ⟨by simpa using h1, by simp [h2], ?_⟩
      simp [List.eraseIdx_cons_succ, h3, List.erase_cons, hn]

theorem insertNodes_ids (seed : Nat) (nodes : List Node) (nodeID : Str) :
    (insertNodes seed nodes nodeID).map Node.ID =
      if nodeID ∈ nodes.map Node.ID then nodeID :: (nodes.map Node.ID).erase nodeID
      else if 3 ≤ nodes.length then (nodes.map Node.ID).set (seed % nodes.length) nodeID
      else nodes.map Node.ID ++ [nodeID] := by
  unfold insertNodes
  by_cases h0 : nodes.length = 0
  · have : nodes = [] := List.length_eq_zero.mp h0
    subst this
    simp [mkNode]
  · rw [if_neg h0]
    cases hi : indexOfID nodeID nodes with
    | none =>
      have hmem := indexOfID_eq_none.mp hi
      rw [if_neg hmem]
      by_cases h3 : 3 ≤ nodes.length
      · simp [h3, randIntn, mkNode]
      · simp [h3, mkNode]
    | some i =>
      obtain ⟨_, hmem, he⟩ := indexOfID_some hi
      rw [if_pos hmem]
      simp [mkNode, he]

theorem nodup_set_of_not_mem {α : Type} {l : List α} {a : α} (hl : l.Nodup) (ha : a ∉ l)
    (n : Nat) : (l.set n a).Nodup := by
  induction l generalizing n with
  | nil => simp
  | cons x xs ih =>
    rw [List.nodup_cons] at hl
    simp only [List.mem_cons, not_or] at ha
    cases n with
    | zero => simpa [List.nodup_cons] using ⟨ha.2, hl.2⟩
    | succ k =>
      simp only [List.set_cons_succ, List.nodup_cons]
      refine ⟨fun hx => ?_, ih hl.2 ha.2 k⟩
      rcases List.mem_or_eq_of_mem_set hx with h | h
      · exact hl.1 h
      · exact ha.1 h.symm

theorem insertNodes_length_le (seed : Nat) (nodes : List Node) (nodeID : Str)
    (h : nodes.length ≤ 3) : (insertNodes seed nodes nodeID).length ≤ 3 := by
  have e := congrArg List.length (insertNodes_ids seed nodes nodeID)
  rw [List.length_map] at e
  rw [e]
  split_ifs with h1 h2
  · have := List.length_erase_of_mem h1
    simp only [List.length_cons, List.length_map] at this ⊢
    have hpos : 0 < nodes.length := by
      cases nodes with
      | nil => simp at h1
      | cons _ _ => simp
    omega
  · simpa using h
  · simp only [List.length_append, List.length_map, List.length_singleton]
    omega

theorem insertNodes_nodup (seed : Nat) (nodes : List Node) (nodeID : Str)
    (h : (nodes.map Node.ID).Nodup) : ((insertNodes seed nodes nodeID).map Node.ID).Nodup := by
  rw [insertNodes_ids]
  split_ifs with h1 h2
  · rw [List.nodup_cons]
    exact ⟨fun hm => by simpa using (List.Nodup.mem_erase_iff h).mp hm, h.erase _⟩
  · exact nodup_set_of_not_mem h h1 _
  · rw [List.nodup_append]
    refine ⟨h, by simp, ?_⟩
    intro a ha hb
    simp only [List.mem_singleton] at hb
    subst hb
    exact h1 ha

theorem mem_insertNodes_ids (seed : Nat) (nodes : List Node) (nodeID : Str) :
    nodeID ∈ (insertNodes seed nodes nodeID).map Node.ID := by
  rw [insertNodes_ids]
  split_ifs with h1 h2
  · simp
  · have hlt : seed % nodes.length < (nodes.map Node.ID).length := by
      rw [List.length_map]
      exact Nat.mod_lt _ (by omega)
    exact List.mem_set _ _ hlt _
  · simp

/-! ## Lemmas on distances and bucket indices -/

theorem ilog2_eq_log2 (n : Nat) : ilog2 n = Nat.log2 n := by
  unfold ilog2
  suffices h : ∀ fuel m, m ≤ fuel → ilog2Aux fuel m = Nat.log2 m from h n n le_rfl
  intro fuel
  induction fuel with
  | zero =>
    intro m hm
    have : m = 0 := by omega
    subst this
    simp [ilog2Aux, Nat.log2]
  | succ k ih =>
    intro m hm
    rw [ilog2Aux, Nat.log2]
    by_cases h2 : 2 ≤ m
    · simp only [h2, if_true, ge_iff_le]
      rw [ih (m / 2) (by omega)]
    · simp [h2]

theorem ilog2_lt {n k : Nat} (h0 : n ≠ 0) (h : n < 2 ^ k) : ilog2 n < k := by
  rw [ilog2_eq_log2]
  exact (Nat.log2_lt h0).mpr h

theorem toInt64_lt (u : Nat) (h : u < 2 ^ 64) : toInt64 u < 2 ^ 63 := by
  unfold toInt64
  split_ifs with h1
  · exact_mod_cast h1
  · have : (u : Int) < 2 ^ 64 := by exact_mod_cast h
    omega

theorem Distance_lt (a b : Str) : Distance a b < 2 ^ 63 :=
  toInt64_lt _ (Nat.mod_lt _ (by norm_num))

theorem Distance_of_xor_lt {a b : Str} (h : Nat.xor (setBytes a) (setBytes b) < 2 ^ 63) :
    Distance a b = (Nat.xor (setBytes a) (setBytes b) : Nat) := by
  have h64 : Nat.xor (setBytes a) (setBytes b) < 2 ^ 64 := by omega
  simp only [Distance, toInt64, Nat.mod_eq_of_lt h64, h, if_true]

/-! ## Lemmas on rounding and on `math.Log2`

The rounding error of `rnd` is bounded, powers of two and small integers are
rounded to themselves, and the value of `math.Log` is enclosed between bounds
that are tight near 1. From these the index `log2Index` is derived: its
range, its value on powers of two and on distances below `2 ^ 48`, and the
bound 62 for distances below `3 * 2 ^ 61`. -/

section Float64

theorem ilog2_spec {n : Nat} (h : n ≠ 0) : 2 ^ ilog2 n ≤ n ∧ n < 2 ^ (ilog2 n + 1) := by
  rw [ilog2_eq_log2]
  exact ⟨Nat.log2_self_le h, Nat.lt_log2_self⟩

theorem bitLogAux_spec : ∀ (k acc n : Nat), 2 ^ acc ≤ n → n < 2 ^ (acc + 2 ^ k) →
    2 ^ bitLogAux k acc n ≤ n ∧ n < 2 ^ (bitLogAux k acc n + 1) := by
  intro k
  induction k with
  | zero =>
    intro acc n h1 h2
    exact ⟨h1, by simpa using h2⟩
  | succ k ih =>
    intro acc n h1 h2
    rw [bitLogAux]
    split_ifs with h
    · refine ih (acc + 2 ^ k) n h ?_
      have e : acc + 2 ^ k + 2 ^ k = acc + 2 ^ (k + 1) := by
        rw [pow_succ]
        omega
      rw [e]
      exact h2
    · exact ih acc n h1 (not_le.mp h)

theorem bitLogFuel_spec : ∀ (fuel k n : Nat), n ≤ k + fuel →
    n < 2 ^ (2 ^ bitLogFuel fuel k n) := by
  intro fuel
  induction fuel with
  | zero =>
    intro k n h
    rw [bitLogFuel]
    have h1 : n < 2 ^ k := lt_of_le_of_lt (by omega) (Nat.lt_two_pow k)
    have h2 : 2 ^ k ≤ 2 ^ (2 ^ k) :=
      Nat.pow_le_pow_right (by norm_num) (le_of_lt (Nat.lt_two_pow k))
    omega
  | succ fuel ih =>
    intro k n h
    rw [bitLogFuel]
    split_ifs with hc
    · exact hc
    · exact ih (k + 1) n (by omega)

theorem bitLog_spec {n : Nat} (h : n ≠ 0) : 2 ^ bitLog n ≤ n ∧ n < 2 ^ (bitLog n + 1) := by
  unfold bitLog
  refine bitLogAux_spec _ 0 n (by simpa using Nat.pos_of_ne_zero h) ?_
  rw [Nat.zero_add]
  exact bitLogFuel_spec n 0 n (by omega)

theorem pow2_eq (e : ℤ) : pow2 e = (2 : ℚ) ^ e := by
  unfold pow2
  split_ifs with h
  · obtain ⟨n, rfl⟩ := Int.eq_ofNat_of_zero_le h
    simp
  · obtain ⟨n, hn⟩ := Int.exists_eq_neg_ofNat (le_of_lt (not_le.mp h))
    subst hn
    simp

theorem pow2_pos (e : ℤ) : 0 < pow2 e := by
  rw [pow2_eq]
  positivity

theorem pow2_add (a b : ℤ) : pow2 (a + b) = pow2 a * pow2 b := by
  simp only [pow2_eq]
  exact zpow_add₀ (by norm_num) a b

theorem pow2_le {a b : ℤ} (h : a ≤ b) : pow2 a ≤ pow2 b := by
  simp only [pow2_eq]
  exact zpow_le_zpow_right₀ (by norm_num) h

theorem pow2_lt {a b : ℤ} (h : a < b) : pow2 a < pow2 b := by
  simp only [pow2_eq]
  exact zpow_lt_zpow_right₀ (by norm_num) h

theorem pow2_succ (a : ℤ) : pow2 (a + 1) = 2 * pow2 a := by
  rw [pow2_add, mul_comm]
  congr 1

theorem pow2_lt_iff {a b : ℤ} : pow2 a < pow2 b ↔ a < b := by
  constructor
  · intro h
    by_contra hc
    exact absurd (pow2_le (not_lt.mp hc)) (not_le.mpr h)
  · exact pow2_lt

theorem pow2_natCast (n : ℕ) : pow2 (n : ℤ) = (2 : ℚ) ^ n := by
  rw [pow2_eq, zpow_natCast]

theorem flog2_spec {x : ℚ} (hx : 0 < x) : pow2 (flog2 x) ≤ x ∧ x < pow2 (flog2 x + 1) := by
  have hnum : 0 < x.num := Rat.num_pos.mpr hx
  obtain ⟨n, hn⟩ := Int.eq_ofNat_of_zero_le (le_of_lt hnum)
  have hn0 : n ≠ 0 := by
    intro h
    rw [h] at hn
    omega
  have hd0 : x.den ≠ 0 := x.den_nz
  obtain ⟨ha1, ha2⟩ := bitLog_spec hn0
  obtain ⟨hb1, hb2⟩ := bitLog_spec hd0
  have hxeq : x = (n : ℚ) / (x.den : ℚ) := by
    have h0 := (Rat.num_div_den x).symm
    rw [hn, Int.cast_natCast] at h0
    exact h0
  have hdpos : (0 : ℚ) < x.den := by exact_mod_cast Nat.pos_of_ne_zero hd0
  have hA1 : (2 : ℚ) ^ bitLog n ≤ n := by exact_mod_cast ha1
  have hA2 : (n : ℚ) < 2 ^ (bitLog n + 1) := by exact_mod_cast ha2
  have hB1 : (2 : ℚ) ^ bitLog x.den ≤ x.den := by exact_mod_cast hb1
  have hB2 : (x.den : ℚ) < 2 ^ (bitLog x.den + 1) := by exact_mod_cast hb2
  have htoNat : x.num.toNat = n := by rw [hn]; rfl
  set a := bitLog n with ha
  set b := bitLog x.den with hb
  have hp : ∀ k : ℕ, (0 : ℚ) < 2 ^ k := fun k => by positivity
  -- bounds on x
  have hup : x < pow2 ((a : ℤ) - b + 1) := by
    have e : pow2 ((a : ℤ) - b + 1) = 2 ^ (a + 1) / 2 ^ b := by
      rw [pow2_eq, show (a : ℤ) - b + 1 = ((a + 1 : ℕ) : ℤ) - (b : ℕ) by push_cast; ring,
        zpow_sub₀ (by norm_num), zpow_natCast, zpow_natCast]
    rw [e, hxeq, div_lt_div_iff₀ hdpos (hp b)]
    nlinarith [hp b, hp (a + 1)]
  have hlo : pow2 ((a : ℤ) - b - 1) < x := by
    have e : pow2 ((a : ℤ) - b - 1) = 2 ^ a / 2 ^ (b + 1) := by
      rw [pow2_eq, show (a : ℤ) - b - 1 = ((a : ℕ) : ℤ) - ((b + 1 : ℕ) : ℤ) by push_cast; ring,
        zpow_sub₀ (by norm_num), zpow_natCast, zpow_natCast]
    rw [e, hxeq, div_lt_div_iff₀ (hp (b + 1)) hdpos]
    nlinarith [hp a, hp (b + 1)]
  unfold flog2
  simp only [htoNat]
  split_ifs with h
  · exact ⟨h, hup⟩
  · refine ⟨le_of_lt hlo, ?_⟩
    rw [sub_add_cancel]
    exact not_le.mp h

theorem flog2_unique {x : ℚ} {e : ℤ} (h1 : pow2 e ≤ x) (h2 : x < pow2 (e + 1)) :
    flog2 x = e := by
  have hx : 0 < x := lt_of_lt_of_le (pow2_pos e) h1
  obtain ⟨h3, h4⟩ := flog2_spec hx
  have a1 : e < flog2 x + 1 := pow2_lt_iff.mp (lt_of_le_of_lt h1 h4)
  have a2 : flog2 x < e + 1 := pow2_lt_iff.mp (lt_of_le_of_lt h3 h2)
  omega

theorem roundEven_spec (q : ℚ) :
    |(roundEven q : ℚ) - q| ≤ 1 / 2 ∧ ⌊q⌋ ≤ roundEven q ∧ roundEven q ≤ ⌊q⌋ + 1 := by
  have h1 := Int.floor_le q
  have h2 := Int.lt_floor_add_one q
  unfold roundEven
  simp only
  split_ifs with a b c
  · refine ⟨?_, le_refl _, by omega⟩
    rw [abs_le]; constructor <;> linarith
  · refine ⟨?_, by omega, le_refl _⟩
    rw [abs_le]; push_cast; constructor <;> linarith
  · refine ⟨?_, le_refl _, by omega⟩
    rw [abs_le]; constructor <;> linarith
  · refine ⟨?_, by omega, le_refl _⟩
    rw [abs_le]; push_cast; constructor <;> linarith

theorem roundEven_intCast (z : ℤ) : roundEven (z : ℚ) = z := by
  unfold roundEven
  simp

theorem le_roundEven {q : ℚ} {z : ℤ} (h : (z : ℚ) ≤ q) : z ≤ roundEven q :=
  le_trans (Int.le_floor.mpr h) (roundEven_spec q).2.1

theorem roundEven_le {q : ℚ} {z : ℤ} (h : q ≤ (z : ℚ)) : roundEven q ≤ z := by
  by_cases hq : q = (⌊q⌋ : ℚ)
  · rw [hq, roundEven_intCast]
    have h2 : (⌊q⌋ : ℚ) ≤ z := le_trans (Int.floor_le q) h
    exact_mod_cast h2
  · have h1 : (⌊q⌋ : ℚ) < q := lt_of_le_of_ne (Int.floor_le q) (Ne.symm hq)
    have h2 : (⌊q⌋ : ℚ) < z := lt_of_lt_of_le h1 h
    have h3 : ⌊q⌋ < z := by exact_mod_cast h2
    have := (roundEven_spec q).2.2
    omega


theorem rnd_zero : rnd 0 = 0 := by simp [rnd]

theorem rnd_of_pos {x : ℚ} (hx : 0 < x) :
    rnd x = (roundEven (x / pow2 (flog2 x - 52)) : ℚ) * pow2 (flog2 x - 52) := by
  simp [rnd, hx, ne_of_gt hx]

theorem rnd_neg (x : ℚ) : rnd (-x) = -rnd x := by
  rcases lt_trichotomy x 0 with h | h | h
  · have h1 : 0 < -x := by linarith
    have h2 : ¬ (0 < x) := by linarith
    rw [rnd_of_pos h1]
    simp [rnd, h2, ne_of_lt h]
  · subst h
    simp [rnd_zero]
  · have h1 : ¬ (0 < -x) := by linarith
    have h2 : -x ≠ 0 := by linarith
    rw [rnd_of_pos h]
    simp [rnd, h1, h2]

theorem rnd_pos_spec {x : ℚ} {e : ℤ} (h1 : pow2 e ≤ x) (h2 : x < pow2 (e + 1)) :
    pow2 e ≤ rnd x ∧ rnd x ≤ pow2 (e + 1) ∧ |rnd x - x| ≤ pow2 (e - 53) := by
  have hx : 0 < x := lt_of_lt_of_le (pow2_pos e) h1
  have he : flog2 x = e := flog2_unique h1 h2
  rw [rnd_of_pos hx, he]
  have hp : 0 < pow2 (e - 52) := pow2_pos _
  have e1 : pow2 e = 2 ^ 52 * pow2 (e - 52) := by
    rw [← pow2_natCast 52, ← pow2_add]
    congr 1
    ring
  have e2 : pow2 (e + 1) = 2 ^ 53 * pow2 (e - 52) := by
    rw [← pow2_natCast 53, ← pow2_add]
    congr 1
    ring
  have e3 : pow2 (e - 53) = 1 / 2 * pow2 (e - 52) := by
    have : pow2 (e - 52) = 2 * pow2 (e - 53) := by
      rw [← pow2_succ]
      congr 1
      ring
    rw [this]
    ring
  have hq : x = x / pow2 (e - 52) * pow2 (e - 52) := by
    field_simp
  set q := x / pow2 (e - 52) with hqdef
  have hq1 : ((2 ^ 52 : ℤ) : ℚ) ≤ q := by
    rw [hqdef, le_div_iff₀ hp]
    have : (((2 ^ 52 : ℤ) : ℚ)) = 2 ^ 52 := by norm_num
    rw [this, ← e1]
    exact h1
  have hq2 : q ≤ ((2 ^ 53 : ℤ) : ℚ) := by
    rw [hqdef, div_le_iff₀ hp]
    have : (((2 ^ 53 : ℤ) : ℚ)) = 2 ^ 53 := by norm_num
    rw [this, ← e2]
    exact le_of_lt h2
  have r1 : ((2 ^ 52 : ℤ) : ℚ) ≤ roundEven q := by exact_mod_cast le_roundEven hq1
  have r2 : (roundEven q : ℚ) ≤ ((2 ^ 53 : ℤ) : ℚ) := by exact_mod_cast roundEven_le hq2
  have r3 := (roundEven_spec q).1
  have c1 : (((2 ^ 52 : ℤ) : ℚ)) = 2 ^ 52 := by norm_num
  have c2 : (((2 ^ 53 : ℤ) : ℚ)) = 2 ^ 53 := by norm_num
  rw [c1] at r1
  rw [c2] at r2
  refine ⟨?_, ?_, ?_⟩
  · rw [e1]
    exact mul_le_mul_of_nonneg_right r1 (le_of_lt hp)
  · rw [e2]
    exact mul_le_mul_of_nonneg_right r2 (le_of_lt hp)
  · rw [e3]
    have : (roundEven q : ℚ) * pow2 (e - 52) - x = ((roundEven q : ℚ) - q) * pow2 (e - 52) := by
      rw [sub_mul, ← hq]
    rw [this, abs_mul, abs_of_pos hp]
    exact mul_le_mul_of_nonneg_right r3 (le_of_lt hp)

theorem rnd_pos_err {x : ℚ} (hx : 0 < x) : |rnd x - x| ≤ x / 2 ^ 53 := by
  obtain ⟨h1, h2⟩ := flog2_spec hx
  obtain ⟨_, _, h3⟩ := rnd_pos_spec h1 h2
  have e : pow2 (flog2 x - 53) = pow2 (flog2 x) / 2 ^ 53 := by
    rw [sub_eq_add_neg, pow2_add, pow2_eq (-53), zpow_neg]
    norm_num
    ring
  rw [e] at h3
  have : pow2 (flog2 x) / 2 ^ 53 ≤ x / 2 ^ 53 := by
    apply div_le_div_of_nonneg_right h1
    positivity
  linarith

theorem rnd_err (x : ℚ) : |rnd x - x| ≤ |x| / 2 ^ 53 := by
  rcases lt_trichotomy x 0 with h | h | h
  · have h1 : 0 < -x := by linarith
    have := rnd_pos_err h1
    rw [rnd_neg] at this
    rw [abs_of_neg h]
    have e : -rnd x - -x = -(rnd x - x) := by ring
    rw [e, abs_neg] at this
    exact this
  · subst h
    simp [rnd_zero]
  · rw [abs_of_pos h]
    exact rnd_pos_err h

theorem rnd_bounds_of_nonneg {x : ℚ} (hx : 0 ≤ x) :
    x * (1 - 1 / 2 ^ 53) ≤ rnd x ∧ rnd x ≤ x * (1 + 1 / 2 ^ 53) := by
  have h := rnd_err x
  rw [abs_of_nonneg hx, abs_le] at h
  constructor <;> linarith [h.1, h.2]

theorem rnd_bounds_of_nonpos {x : ℚ} (hx : x ≤ 0) :
    x * (1 + 1 / 2 ^ 53) ≤ rnd x ∧ rnd x ≤ x * (1 - 1 / 2 ^ 53) := by
  have h := rnd_err x
  rw [abs_of_nonpos hx, abs_le] at h
  constructor <;> linarith [h.1, h.2]

theorem rnd_nonneg {x : ℚ} (hx : 0 ≤ x) : 0 ≤ rnd x := by
  have h := (rnd_bounds_of_nonneg hx).1
  have : 0 ≤ x * (1 - 1 / 2 ^ 53) := mul_nonneg hx (by norm_num)
  linarith

theorem rnd_nonpos {x : ℚ} (hx : x ≤ 0) : rnd x ≤ 0 := by
  have h := rnd_nonneg (x := -x) (by linarith)
  rw [rnd_neg] at h
  linarith

theorem pow2_le_rnd {x : ℚ} {k : ℤ} (h : pow2 k ≤ x) : pow2 k ≤ rnd x := by
  have hx : 0 < x := lt_of_lt_of_le (pow2_pos k) h
  obtain ⟨h1, h2⟩ := flog2_spec hx
  have hk : k ≤ flog2 x := by
    have := pow2_lt_iff.mp (lt_of_le_of_lt h h2)
    omega
  exact le_trans (pow2_le hk) (rnd_pos_spec h1 h2).1

theorem rnd_pow2 (k : ℤ) : rnd (pow2 k) = pow2 k := by
  have h1 : pow2 k ≤ pow2 k := le_refl _
  have h2 : pow2 k < pow2 (k + 1) := pow2_lt (by omega)
  have he : flog2 (pow2 k) = k := flog2_unique h1 h2
  rw [rnd_of_pos (pow2_pos k), he]
  have hp : 0 < pow2 (k - 52) := pow2_pos _
  have e1 : pow2 k = ((2 ^ 52 : ℤ) : ℚ) * pow2 (k - 52) := by
    have : (((2 ^ 52 : ℤ) : ℚ)) = 2 ^ 52 := by norm_num
    rw [this, ← pow2_natCast 52, ← pow2_add]
    congr 1
    ring
  have : pow2 k / pow2 (k - 52) = ((2 ^ 52 : ℤ) : ℚ) := by
    rw [div_eq_iff (ne_of_gt hp)]
    exact e1
  rw [this, roundEven_intCast, ← e1]

theorem rnd_le_pow2 {x : ℚ} {k : ℤ} (hx : 0 < x) (h : x ≤ pow2 k) : rnd x ≤ pow2 k := by
  rcases eq_or_lt_of_le h with h0 | h0
  · rw [h0, rnd_pow2]
  · obtain ⟨h1, h2⟩ := flog2_spec hx
    have hk : flog2 x + 1 ≤ k := by
      have := pow2_lt_iff.mp (lt_of_le_of_lt h1 h0)
      omega
    exact le_trans (rnd_pos_spec h1 h2).2.1 (pow2_le hk)

theorem rnd_err_of_lt {x : ℚ} {k : ℤ} (hx : 0 < x) (h : x < pow2 k) :
    |rnd x - x| ≤ pow2 (k - 54) := by
  obtain ⟨h1, h2⟩ := flog2_spec hx
  have hk : flog2 x - 53 ≤ k - 54 := by
    have := pow2_lt_iff.mp (lt_of_le_of_lt h1 h)
    omega
  exact le_trans (rnd_pos_spec h1 h2).2.2 (pow2_le hk)

theorem rnd_natCast {n : ℕ} (h : n < 2 ^ 53) : rnd (n : ℚ) = n := by
  rcases Nat.eq_zero_or_pos n with h0 | h0
  · subst h0
    simp [rnd_zero]
  · have hx : (0 : ℚ) < n := by exact_mod_cast h0
    obtain ⟨h1, h2⟩ := flog2_spec hx
    have hlt : (n : ℚ) < pow2 53 := by
      have : pow2 53 = 2 ^ 53 := pow2_natCast 53
      rw [this]
      exact_mod_cast h
    have he : flog2 (n : ℚ) ≤ 52 := by
      have := pow2_lt_iff.mp (lt_of_le_of_lt h1 hlt)
      omega
    obtain ⟨m, hm⟩ := Int.eq_ofNat_of_zero_le (show 0 ≤ 52 - flog2 (n : ℚ) by omega)
    rw [rnd_of_pos hx]
    have hp : pow2 (flog2 (n : ℚ) - 52) * pow2 (m : ℤ) = 1 := by
      rw [← pow2_add, ← hm]
      have : flog2 (n : ℚ) - 52 + (52 - flog2 (n : ℚ)) = 0 := by ring
      rw [this]
      simp [pow2]
    have hpp := pow2_pos (flog2 (n : ℚ) - 52)
    have hq : (n : ℚ) / pow2 (flog2 (n : ℚ) - 52) = ((n * 2 ^ m : ℤ) : ℚ) := by
      rw [div_eq_iff (ne_of_gt hpp)]
      push_cast
      rw [← pow2_natCast m, mul_assoc, mul_comm (pow2 (m : ℤ)), hp, mul_one]
    rw [hq, roundEven_intCast]
    push_cast
    rw [← pow2_natCast m, mul_assoc, mul_comm (pow2 (m : ℤ)), hp, mul_one]


theorem rnd_le_one_div_two_pow {x : ℚ} (n : ℕ) (h0 : 0 ≤ x) (h : x ≤ 1 / 2 ^ n) :
    rnd x ≤ 1 / 2 ^ n := by
  rcases eq_or_lt_of_le h0 with h1 | h1
  · rw [← h1, rnd_zero]
    positivity
  · have e : pow2 (-(n : ℤ)) = 1 / 2 ^ n := by
      rw [pow2_eq, zpow_neg, zpow_natCast]
      simp
    rw [← e] at h ⊢
    exact rnd_le_pow2 h1 h

theorem rnd_le_two_pow {x : ℚ} (n : ℕ) (h0 : 0 ≤ x) (h : x ≤ 2 ^ n) : rnd x ≤ 2 ^ n := by
  rcases eq_or_lt_of_le h0 with h1 | h1
  · rw [← h1, rnd_zero]
    positivity
  · rw [← pow2_natCast n] at h ⊢
    exact rnd_le_pow2 h1 h

theorem const_bounds {c : ℚ} (hc : 0 ≤ c) (n : ℕ) (h : c ≤ 1 / 2 ^ n) :
    0 ≤ rnd c ∧ rnd c ≤ 1 / 2 ^ n :=
  ⟨rnd_nonneg hc, rnd_le_one_div_two_pow n hc h⟩

theorem L1_bounds : 0 ≤ L1 ∧ L1 ≤ 1 := by
  have := const_bounds (c := 6666666666666735130 / 10 ^ 19) (by norm_num) 0 (by norm_num)
  simpa [L1] using this

theorem L2_bounds : 0 ≤ L2 ∧ L2 ≤ 1 / 2 := by
  have := const_bounds (c := 3999999999940941908 / 10 ^ 19) (by norm_num) 1 (by norm_num)
  simpa [L2] using this

theorem L3_bounds : 0 ≤ L3 ∧ L3 ≤ 1 / 2 := by
  have := const_bounds (c := 2857142874366239149 / 10 ^ 19) (by norm_num) 1 (by norm_num)
  simpa [L3] using this

theorem L4_bounds : 0 ≤ L4 ∧ L4 ≤ 1 / 4 := by
  have h := const_bounds (c := 2222219843214978396 / 10 ^ 19) (by norm_num) 2 (by norm_num)
  exact ⟨h.1, le_trans h.2 (by norm_num)⟩

theorem L5_bounds : 0 ≤ L5 ∧ L5 ≤ 1 / 4 := by
  have h := const_bounds (c := 1818357216161805012 / 10 ^ 19) (by norm_num) 2 (by norm_num)
  exact ⟨h.1, le_trans h.2 (by norm_num)⟩

theorem L6_bounds : 0 ≤ L6 ∧ L6 ≤ 1 / 4 := by
  have h := const_bounds (c := 1531383769920937332 / 10 ^ 19) (by norm_num) 2 (by norm_num)
  exact ⟨h.1, le_trans h.2 (by norm_num)⟩

theorem L7_bounds : 0 ≤ L7 ∧ L7 ≤ 1 / 4 := by
  have h := const_bounds (c := 1479819860511658591 / 10 ^ 19) (by norm_num) 2 (by norm_num)
  exact ⟨h.1, le_trans h.2 (by norm_num)⟩

/-- Rounded product of two bounded non-negative numbers. -/
theorem rnd_mul_bounds {a b : ℚ} (n m : ℕ) (ha0 : 0 ≤ a) (ha : a ≤ 1 / 2 ^ n) (hb0 : 0 ≤ b)
    (hb : b ≤ 1 / 2 ^ m) : 0 ≤ rnd (a * b) ∧ rnd (a * b) ≤ 1 / 2 ^ (n + m) := by
  refine ⟨rnd_nonneg (mul_nonneg ha0 hb0), rnd_le_one_div_two_pow _ (mul_nonneg ha0 hb0) ?_⟩
  have := mul_le_mul ha hb hb0 (by positivity)
  calc a * b ≤ 1 / 2 ^ n * (1 / 2 ^ m) := this
    _ = 1 / 2 ^ (n + m) := by rw [pow_add]; field_simp

theorem logPoly_bounds {s : ℚ} (hs : s * s ≤ 1 / 2 ^ 4) :
    0 ≤ logPoly s ∧ logPoly s ≤ 1 / 4 := by
  unfold logPoly
  simp only
  have hs2 := const_bounds (mul_self_nonneg s) 4 hs
  obtain ⟨hs4a, hs4b⟩ := rnd_mul_bounds 4 4 hs2.1 hs2.2 hs2.1 hs2.2
  set s2 := rnd (s * s)
  set s4 := rnd (s2 * s2)
  -- t1
  obtain ⟨a7a, a7b⟩ := rnd_mul_bounds 8 2 hs4a hs4b L7_bounds.1 (by simpa using L7_bounds.2)
  have a5a : 0 ≤ rnd (L5 + rnd (s4 * L7)) := rnd_nonneg (add_nonneg L5_bounds.1 a7a)
  have a5b : rnd (L5 + rnd (s4 * L7)) ≤ 1 / 2 ^ 1 :=
    rnd_le_one_div_two_pow 1 (add_nonneg L5_bounds.1 a7a) (by
      have := L5_bounds.2
      norm_num at a7b ⊢
      linarith)
  obtain ⟨b5a, b5b⟩ := rnd_mul_bounds 8 1 hs4a hs4b a5a a5b
  have a3a : 0 ≤ rnd (L3 + rnd (s4 * rnd (L5 + rnd (s4 * L7)))) :=
    rnd_nonneg (add_nonneg L3_bounds.1 b5a)
  have a3b : rnd (L3 + rnd (s4 * rnd (L5 + rnd (s4 * L7)))) ≤ 1 / 2 ^ 0 :=
    rnd_le_one_div_two_pow 0 (add_nonneg L3_bounds.1 b5a) (by
      have := L3_bounds.2
      norm_num at b5b ⊢
      linarith)
  obtain ⟨b3a, b3b⟩ := rnd_mul_bounds 8 0 hs4a hs4b a3a a3b
  have a1a : 0 ≤ rnd (L1 + rnd (s4 * rnd (L3 + rnd (s4 * rnd (L5 + rnd (s4 * L7)))))) :=
    rnd_nonneg (add_nonneg L1_bounds.1 b3a)
  have a1b : rnd (L1 + rnd (s4 * rnd (L3 + rnd (s4 * rnd (L5 + rnd (s4 * L7)))))) ≤ 2 ^ 1 :=
    rnd_le_two_pow 1 (add_nonneg L1_bounds.1 b3a) (by
      have := L1_bounds.2
      norm_num at b3b ⊢
      linarith)
  have t1a : 0 ≤ rnd (s2 * rnd (L1 + rnd (s4 * rnd (L3 + rnd (s4 * rnd (L5 + rnd (s4 * L7))))))) :=
    rnd_nonneg (mul_nonneg hs2.1 a1a)
  have t1b : rnd (s2 * rnd (L1 + rnd (s4 * rnd (L3 + rnd (s4 * rnd (L5 + rnd (s4 * L7))))))) ≤
      1 / 2 ^ 3 :=
    rnd_le_one_div_two_pow 3 (mul_nonneg hs2.1 a1a) (by
      have h1 := hs2.2
      have := mul_le_mul h1 a1b a1a (by positivity)
      norm_num at this ⊢
      linarith)
  -- t2
  obtain ⟨a6a, a6b⟩ := rnd_mul_bounds 8 2 hs4a hs4b L6_bounds.1 (by simpa using L6_bounds.2)
  have a4a : 0 ≤ rnd (L4 + rnd (s4 * L6)) := rnd_nonneg (add_nonneg L4_bounds.1 a6a)
  have a4b : rnd (L4 + rnd (s4 * L6)) ≤ 1 / 2 ^ 1 :=
    rnd_le_one_div_two_pow 1 (add_nonneg L4_bounds.1 a6a) (by
      have := L4_bounds.2
      norm_num at a6b ⊢
      linarith)
  obtain ⟨b4a, b4b⟩ := rnd_mul_bounds 8 1 hs4a hs4b a4a a4b
  have a2a : 0 ≤ rnd (L2 + rnd (s4 * rnd (L4 + rnd (s4 * L6)))) :=
    rnd_nonneg (add_nonneg L2_bounds.1 b4a)
  have a2b : rnd (L2 + rnd (s4 * rnd (L4 + rnd (s4 * L6)))) ≤ 1 / 2 ^ 0 :=
    rnd_le_one_div_two_pow 0 (add_nonneg L2_bounds.1 b4a) (by
      have := L2_bounds.2
      norm_num at b4b ⊢
      linarith)
  obtain ⟨t2a, t2b⟩ := rnd_mul_bounds 8 0 hs4a hs4b a2a a2b
  refine ⟨rnd_nonneg (add_nonneg t1a t2a), ?_⟩
  have := rnd_le_one_div_two_pow 2 (add_nonneg t1a t2a) (by
    norm_num at t1b t2b ⊢
    linarith)
  norm_num at this ⊢
  exact this


theorem rnd_one : rnd 1 = 1 := by
  have := rnd_natCast (n := 1) (by norm_num)
  simpa using this

theorem rnd_abs_le {x B : ℚ} (hB : |x| ≤ B) : |rnd x - x| ≤ B / 2 ^ 53 :=
  le_trans (rnd_err x) (div_le_div_of_nonneg_right hB (by positivity))

theorem logCore_zero_bounds {f : ℚ} (hf1 : -(5 / 16) ≤ f) (hf2 : f ≤ 0) :
    -(5 / 8) ≤ logCore f 0 ∧ logCore f 0 ≤ f * (1 - 1 / 2 ^ 53) ^ 2 := by
  unfold logCore
  simp only [zero_mul, rnd_zero, add_zero, zero_sub]
  -- g = rnd (2 + f)
  have hg : 3 / 2 ≤ rnd (2 + f) := by
    have := (rnd_bounds_of_nonneg (x := 2 + f) (by linarith)).1
    nlinarith
  have hgpos : 0 < rnd (2 + f) := by linarith
  -- s
  have hq1 : f / rnd (2 + f) ≤ 0 := div_nonpos_of_nonpos_of_nonneg hf2 (le_of_lt hgpos)
  have hq2 : -(1 / 2 ^ 2) ≤ f / rnd (2 + f) := by
    rw [le_div_iff₀ hgpos]
    nlinarith
  have hs1 : rnd (f / rnd (2 + f)) ≤ 0 := rnd_nonpos hq1
  have hs2 : -(1 / 2 ^ 2) ≤ rnd (f / rnd (2 + f)) := by
    have := rnd_le_one_div_two_pow 2 (x := -(f / rnd (2 + f))) (by linarith) (by linarith)
    rw [rnd_neg] at this
    linarith
  set s := rnd (f / rnd (2 + f))
  have hss : s * s ≤ 1 / 2 ^ 4 := by nlinarith
  obtain ⟨hR1, hR2⟩ := logPoly_bounds hss
  -- hfsq
  have hh1 : rnd (1 / 2 * f) ≤ 0 := rnd_nonpos (by linarith)
  have hh2 : -(1 / 2 ^ 2) ≤ rnd (1 / 2 * f) := by
    have := rnd_le_one_div_two_pow 2 (x := -(1 / 2 * f)) (by linarith) (by norm_num; linarith)
    rw [rnd_neg] at this
    linarith
  have hp1 : 0 ≤ rnd (1 / 2 * f) * f := mul_nonneg_of_nonpos_of_nonpos hh1 hf2
  have hp2 : rnd (1 / 2 * f) * f ≤ 1 / 2 ^ 3 := by nlinarith
  have hq0 : 0 ≤ rnd (rnd (1 / 2 * f) * f) := rnd_nonneg hp1
  have hq3 : rnd (rnd (1 / 2 * f) * f) ≤ 1 / 2 ^ 3 := rnd_le_one_div_two_pow 3 hp1 hp2
  set hfsq := rnd (rnd (1 / 2 * f) * f)
  -- hR
  have hr1 : 0 ≤ rnd (hfsq + logPoly s) := rnd_nonneg (by linarith)
  have hr2 : rnd (hfsq + logPoly s) ≤ 1 / 2 ^ 1 :=
    rnd_le_one_div_two_pow 1 (by linarith) (by norm_num at hq3 ⊢; linarith)
  -- B
  have hb0 : s * rnd (hfsq + logPoly s) ≤ 0 := mul_nonpos_of_nonpos_of_nonneg hs1 hr1
  have hb1 : -(1 / 2 ^ 3) ≤ s * rnd (hfsq + logPoly s) := by nlinarith
  have hB1 : rnd (s * rnd (hfsq + logPoly s)) ≤ 0 := rnd_nonpos hb0
  have hB2 : -(1 / 2 ^ 3) ≤ rnd (s * rnd (hfsq + logPoly s)) := by
    have := rnd_le_one_div_two_pow 3 (x := -(s * rnd (hfsq + logPoly s))) (by linarith)
      (by linarith)
    rw [rnd_neg] at this
    linarith
  set B := rnd (s * rnd (hfsq + logPoly s))
  -- inner
  have hi1 : rnd B ≤ 0 := rnd_nonpos hB1
  have hi2 : -(1 / 2 ^ 3) ≤ rnd B := by
    have := rnd_le_one_div_two_pow 3 (x := -B) (by linarith) (by linarith)
    rw [rnd_neg] at this
    linarith
  -- X
  have hX1 : 0 ≤ rnd (hfsq - rnd B) := rnd_nonneg (by linarith)
  have hX2 : rnd (hfsq - rnd B) ≤ 1 / 2 ^ 2 :=
    rnd_le_one_div_two_pow 2 (by linarith) (by norm_num at hq3 hi2 ⊢; linarith)
  set X := rnd (hfsq - rnd B)
  -- T
  have hT := rnd_bounds_of_nonneg (x := X - f) (by linarith)
  have hT0 : 0 ≤ rnd (X - f) := rnd_nonneg (by linarith)
  have hy := rnd_bounds_of_nonneg hT0
  rw [rnd_neg]
  have hu1 : (0 : ℚ) ≤ 1 - 1 / 2 ^ 53 := by norm_num
  have hu2 : (0 : ℚ) ≤ 1 + 1 / 2 ^ 53 := by norm_num
  constructor
  · have hXf : X - f ≤ 9 / 16 := by norm_num at hX2; linarith
    have h1 : rnd (X - f) ≤ 9 / 16 * (1 + 1 / 2 ^ 53) :=
      le_trans hT.2 (mul_le_mul_of_nonneg_right hXf hu2)
    have h2 : rnd (rnd (X - f)) ≤ 9 / 16 * (1 + 1 / 2 ^ 53) * (1 + 1 / 2 ^ 53) :=
      le_trans hy.2 (mul_le_mul_of_nonneg_right h1 hu2)
    have h3 : (9 : ℚ) / 16 * (1 + 1 / 2 ^ 53) * (1 + 1 / 2 ^ 53) ≤ 5 / 8 := by norm_num
    linarith
  · have h0 : -f ≤ X - f := by linarith
    have h1 : -f * (1 - 1 / 2 ^ 53) ≤ rnd (X - f) :=
      le_trans (mul_le_mul_of_nonneg_right h0 hu1) hT.1
    have h2 : -f * (1 - 1 / 2 ^ 53) * (1 - 1 / 2 ^ 53) ≤ rnd (rnd (X - f)) :=
      le_trans (mul_le_mul_of_nonneg_right h1 hu1) hy.1
    have h3 : f * (1 - 1 / 2 ^ 53) ^ 2 = -(-f * (1 - 1 / 2 ^ 53) * (1 - 1 / 2 ^ 53)) := by ring
    rw [h3]
    linarith


attribute [local irreducible] rnd logPoly

theorem Ln2Hi_bounds : 69 / 100 ≤ Ln2Hi ∧ Ln2Hi ≤ 6932 / 10000 := by
  have h := rnd_bounds_of_nonneg (x := 693147180369123816490 / 10 ^ 21) (by norm_num)
  constructor
  · exact le_trans (by norm_num) h.1
  · exact le_trans h.2 (by norm_num)

theorem Ln2Lo_bounds : 0 ≤ Ln2Lo ∧ Ln2Lo ≤ 1 / 2 ^ 32 :=
  const_bounds (c := 190821492927058770002 / 10 ^ 30) (by norm_num) 32 (by norm_num)

attribute [local irreducible] Ln2Hi Ln2Lo

theorem logCore_neg_one_bounds {f : ℚ} (hf1 : 0 ≤ f) (hf2 : f ≤ 27 / 64) :
    logCore f (-1) ≤ -(1 / 8) ∧
      -(Ln2Hi + Ln2Lo) + 3 / 4 * f - 6 / 2 ^ 53 ≤ logCore f (-1) := by
  unfold logCore
  simp only [neg_one_mul, rnd_neg]
  have hu1 : (0 : ℚ) ≤ 1 - 1 / 2 ^ 53 := by norm_num
  have hu2 : (0 : ℚ) ≤ 1 + 1 / 2 ^ 53 := by norm_num
  -- g = rnd (2 + f)
  have hg : 2 ≤ rnd (2 + f) := by
    have := pow2_le_rnd (x := 2 + f) (k := 1) (by
      have : pow2 1 = 2 := by norm_num [pow2]
      rw [this]; linarith)
    have e : pow2 1 = 2 := by norm_num [pow2]
    rw [e] at this
    exact this
  have hgpos : 0 < rnd (2 + f) := by linarith
  have hq1 : 0 ≤ f / rnd (2 + f) := div_nonneg hf1 (le_of_lt hgpos)
  have hq2 : f / rnd (2 + f) ≤ 1 / 2 ^ 2 := by
    rw [div_le_iff₀ hgpos]
    norm_num
    linarith
  have hs1 : 0 ≤ rnd (f / rnd (2 + f)) := rnd_nonneg hq1
  have hs2 : rnd (f / rnd (2 + f)) ≤ 1 / 2 ^ 2 := rnd_le_one_div_two_pow 2 hq1 hq2
  set s := rnd (f / rnd (2 + f))
  have hss : s * s ≤ 1 / 2 ^ 4 := by
    have := mul_le_mul hs2 hs2 hs1 (by positivity)
    norm_num at this ⊢
    exact this
  obtain ⟨hR1, hR2⟩ := logPoly_bounds hss
  -- hfsq
  have hh := rnd_bounds_of_nonneg (x := 1 / 2 * f) (by linarith)
  have hh0 : 0 ≤ rnd (1 / 2 * f) := rnd_nonneg (by linarith)
  have hh1 : rnd (1 / 2 * f) ≤ 1 / 4 := by
    have : 1 / 2 * f * (1 + 1 / 2 ^ 53) ≤ 27 / 128 * (1 + 1 / 2 ^ 53) :=
      mul_le_mul_of_nonneg_right (by linarith) hu2
    have h3 : (27 : ℚ) / 128 * (1 + 1 / 2 ^ 53) ≤ 1 / 4 := by norm_num
    linarith [hh.2]
  have hp1 : 0 ≤ rnd (1 / 2 * f) * f := mul_nonneg hh0 hf1
  have hp2 : rnd (1 / 2 * f) * f ≤ 1 / 4 * f := mul_le_mul_of_nonneg_right hh1 hf1
  have hq := rnd_bounds_of_nonneg hp1
  have hq0 : 0 ≤ rnd (rnd (1 / 2 * f) * f) := rnd_nonneg hp1
  -- hfsq ≤ (17/64) f
  have hq3 : rnd (rnd (1 / 2 * f) * f) ≤ 1 / 4 * f := by
    have h1 : rnd (1 / 2 * f) ≤ 27 / 128 * (1 + 1 / 2 ^ 53) := by
      have : 1 / 2 * f * (1 + 1 / 2 ^ 53) ≤ 27 / 128 * (1 + 1 / 2 ^ 53) :=
        mul_le_mul_of_nonneg_right (by linarith) hu2
      linarith [hh.2]
    have h2 : rnd (1 / 2 * f) * f ≤ 27 / 128 * (1 + 1 / 2 ^ 53) * f :=
      mul_le_mul_of_nonneg_right h1 hf1
    have h3 : rnd (rnd (1 / 2 * f) * f) ≤ 27 / 128 * (1 + 1 / 2 ^ 53) * f * (1 + 1 / 2 ^ 53) :=
      le_trans hq.2 (mul_le_mul_of_nonneg_right h2 hu2)
    have h4 : (27 : ℚ) / 128 * (1 + 1 / 2 ^ 53) * f * (1 + 1 / 2 ^ 53) =
        (27 / 128 * (1 + 1 / 2 ^ 53) * (1 + 1 / 2 ^ 53)) * f := by ring
    have h5 : (27 : ℚ) / 128 * (1 + 1 / 2 ^ 53) * (1 + 1 / 2 ^ 53) ≤ 1 / 4 := by norm_num
    have h6 := mul_le_mul_of_nonneg_right h5 hf1
    linarith
  set hfsq := rnd (rnd (1 / 2 * f) * f)
  have hq4 : hfsq ≤ 1 / 8 := by linarith
  -- hR
  have hr1 : 0 ≤ rnd (hfsq + logPoly s) := rnd_nonneg (by linarith)
  have hr2 : rnd (hfsq + logPoly s) ≤ 1 / 2 ^ 1 :=
    rnd_le_one_div_two_pow 1 (by linarith) (by norm_num; linarith)
  -- B
  have hb0 : 0 ≤ s * rnd (hfsq + logPoly s) := mul_nonneg hs1 hr1
  have hb1 : s * rnd (hfsq + logPoly s) ≤ 1 / 2 ^ 3 := by
    have := mul_le_mul hs2 hr2 hr1 (by positivity)
    norm_num at this ⊢
    exact this
  have hB1 : 0 ≤ rnd (s * rnd (hfsq + logPoly s)) := rnd_nonneg hb0
  have hB2 : rnd (s * rnd (hfsq + logPoly s)) ≤ 1 / 2 ^ 3 := rnd_le_one_div_two_pow 3 hb0 hb1
  set B := rnd (s * rnd (hfsq + logPoly s))
  norm_num at hB2
  -- Lo
  have hLo := rnd_bounds_of_nonneg Ln2Lo_bounds.1
  have hLo0 : 0 ≤ rnd Ln2Lo := rnd_nonneg Ln2Lo_bounds.1
  have hLo1 : rnd Ln2Lo ≤ Ln2Lo + 1 / 2 ^ 53 := by
    have := Ln2Lo_bounds.2
    have h2 : Ln2Lo * (1 + 1 / 2 ^ 53) = Ln2Lo + Ln2Lo * (1 / 2 ^ 53) := by ring
    have h3 : Ln2Lo * (1 / 2 ^ 53) ≤ 1 / 2 ^ 32 * (1 / 2 ^ 53) :=
      mul_le_mul_of_nonneg_right this (by norm_num)
    have h4 : (1 : ℚ) / 2 ^ 32 * (1 / 2 ^ 53) ≤ 1 / 2 ^ 53 := by norm_num
    linarith [hLo.2]
  have hLo2 : rnd Ln2Lo ≤ 1 / 8 := by
    have := Ln2Lo_bounds.2
    have h4 : (1 : ℚ) / 2 ^ 32 + 1 / 2 ^ 53 ≤ 1 / 8 := by norm_num
    linarith
  set Lo := rnd Ln2Lo
  -- inner = rnd (B + -Lo)
  have hin := rnd_abs_le (x := B + -Lo) (B := 1 / 8) (by
    rw [abs_le]
    constructor
    · linarith only [hB1, hB2, hLo0, hLo2]
    · linarith only [hB1, hB2, hLo0, hLo2])
  rw [abs_le] at hin
  set inner := rnd (B + -Lo)
  -- X = rnd (hfsq - inner)
  have hXa := rnd_abs_le (x := hfsq - inner) (B := 1 / 2) (by
    rw [abs_le]
    have : (1 : ℚ) / 8 / 2 ^ 53 ≤ 1 / 8 := by norm_num
    constructor
    · linarith only [hin.1, hin.2, this, hq0, hq4, hB1, hB2, hLo0, hLo2]
    · linarith only [hin.1, hin.2, this, hq0, hq4, hB1, hB2, hLo0, hLo2])
  rw [abs_le] at hXa
  set X := rnd (hfsq - inner)
  have e1 : (1 : ℚ) / 8 / 2 ^ 53 ≤ 1 / 2 ^ 53 := by norm_num
  have e2 : (1 : ℚ) / 2 / 2 ^ 53 ≤ 1 / 2 ^ 53 := by norm_num
  have e3 : (1 : ℚ) / 2 ^ 53 ≤ 1 / 1024 := by norm_num
  -- T = rnd (X - f)
  have hTa := rnd_abs_le (x := X - f) (B := 1) (by
    rw [abs_le]
    constructor
    · linarith only [hin.1, hin.2, hXa.1, hXa.2, e1, e2, e3, hq0, hq4, hB1, hB2, hLo0, hLo2, hf1, hf2]
    · linarith only [hin.1, hin.2, hXa.1, hXa.2, e1, e2, e3, hq0, hq4, hB1, hB2, hLo0, hLo2, hf1, hf2])
  rw [abs_le] at hTa
  set T := rnd (X - f)
  -- H
  have hH := rnd_bounds_of_nonneg (x := Ln2Hi) (by linarith [Ln2Hi_bounds.1])
  have hH1 : rnd Ln2Hi ≤ Ln2Hi + 1 / 2 ^ 53 := by
    have := Ln2Hi_bounds.2
    have h2 : Ln2Hi * (1 + 1 / 2 ^ 53) = Ln2Hi + Ln2Hi * (1 / 2 ^ 53) := by ring
    have h3 : Ln2Hi * (1 / 2 ^ 53) ≤ 6932 / 10000 * (1 / 2 ^ 53) :=
      mul_le_mul_of_nonneg_right this (by norm_num)
    have h4 : (6932 : ℚ) / 10000 * (1 / 2 ^ 53) ≤ 1 / 2 ^ 53 := by norm_num
    linarith [hH.2]
  have hH2 : 689 / 1000 ≤ rnd Ln2Hi := by
    have := Ln2Hi_bounds.1
    have h3 : (69 : ℚ) / 100 * (1 - 1 / 2 ^ 53) ≤ Ln2Hi * (1 - 1 / 2 ^ 53) :=
      mul_le_mul_of_nonneg_right this hu1
    have h4 : (689 : ℚ) / 1000 ≤ 69 / 100 * (1 - 1 / 2 ^ 53) := by norm_num
    linarith [hH.1]
  have hH3 : rnd Ln2Hi ≤ 7 / 10 := by
    have := Ln2Hi_bounds.2
    linarith
  set H := rnd Ln2Hi
  -- bounds on T
  have hT_up : T ≤ Ln2Lo - 3 / 4 * f + 4 / 2 ^ 53 := by
    have h1 : (1 : ℚ) / 1 / 2 ^ 53 = 1 / 2 ^ 53 := by norm_num
    linarith only [hin.1, hXa.2, hTa.2, h1, e1, e2, hq3, hB1, hLo1]
  have hT_lo : -(35 / 64) - 3 / 2 ^ 53 ≤ T := by
    have h1 : (1 : ℚ) / 1 / 2 ^ 53 = 1 / 2 ^ 53 := by norm_num
    linarith only [hin.2, hXa.1, hTa.1, h1, e1, e2, hq0, hB2, hLo0, hf2]
  -- y = rnd (-H - T)
  have hneg : -H - T ≤ 0 := by
    have h1 : (3 : ℚ) / 2 ^ 53 ≤ 1 / 1000 := by norm_num
    linarith only [h1, hT_lo, hH2]
  have hya := rnd_abs_le (x := -H - T) (B := 1) (by
    rw [abs_le]
    have := Ln2Lo_bounds.2
    have h1 : (1 : ℚ) / 2 ^ 32 ≤ 1 / 100 := by norm_num
    have h2 : (4 : ℚ) / 2 ^ 53 ≤ 1 / 100 := by norm_num
    constructor
    · linarith only [this, h1, h2, hT_up, hH3, hf1]
    · linarith only [hneg])
  rw [abs_le] at hya
  have hyb := rnd_bounds_of_nonpos hneg
  constructor
  · have h1 : -H - T ≤ -(689 / 1000) + 35 / 64 + 3 / 2 ^ 53 := by
      linarith only [hT_lo, hH2]
    have h2 : (-H - T) * (1 - 1 / 2 ^ 53) ≤
        (-(689 / 1000) + 35 / 64 + 3 / 2 ^ 53) * (1 - 1 / 2 ^ 53) :=
      mul_le_mul_of_nonneg_right h1 hu1
    have h3 : (-(689 / 1000) + 35 / 64 + 3 / 2 ^ 53) * (1 - 1 / 2 ^ 53) ≤ -(1 / 8 : ℚ) := by
      norm_num
    linarith only [hyb.2, h2, h3]
  · have h1 : (1 : ℚ) / 1 / 2 ^ 53 = 1 / 2 ^ 53 := by norm_num
    linarith only [hya.1, h1, hT_up, hH1]


theorem Sqrt2Half_bounds : 7071 / 10000 ≤ Sqrt2Half ∧ Sqrt2Half ≤ 70711 / 100000 := by
  have h := rnd_bounds_of_nonneg
    (x := 141421356237309504880168872420969807856967187537694807317667974 / 10 ^ 62 / 2)
    (by norm_num)
  constructor
  · exact le_trans (by norm_num) h.1
  · exact le_trans h.2 (by norm_num)

theorem pow2_zero : pow2 0 = 1 := by norm_num [pow2]

theorem pow2_neg_one : pow2 (-1) = 1 / 2 := by norm_num [pow2]

theorem Frexp_of_mem {x : ℚ} (hx1 : 1 / 2 ≤ x) (hx2 : x < 1) : Frexp x = (x, 0) := by
  have he : flog2 x = -1 := by
    apply flog2_unique
    · rw [pow2_neg_one]; exact hx1
    · norm_num [pow2_zero]; exact hx2
  simp [Frexp, he, pow2_zero]

theorem rnd_neg_one : rnd (-1) = -1 := by
  rw [rnd_neg, rnd_one]

theorem Log_bounds {x : ℚ} (hx1 : 1 / 2 ≤ x) (hx2 : x < 1) :
    (Log x ≤ -(1 / 8) ∨ Log x ≤ (x - 1) * (1 - 1 / 2 ^ 53) ^ 3) ∧
    (-(5 / 8) ≤ Log x ∨
      -(Ln2Hi + Ln2Lo) + 3 / 4 * (2 * x - 1) - 9 / 2 ^ 53 ≤ Log x) := by
  have hu1 : (0 : ℚ) ≤ 1 - 1 / 2 ^ 53 := by norm_num
  have hu2 : (0 : ℚ) ≤ 1 + 1 / 2 ^ 53 := by norm_num
  unfold Log
  rw [Frexp_of_mem hx1 hx2]
  simp only
  obtain ⟨hS1, hS2⟩ := Sqrt2Half_bounds
  split_ifs with hlt
  · -- k = -1
    have hk : rnd (((0 - 1 : ℤ) : ℚ)) = -1 := by
      have : (((0 - 1 : ℤ) : ℚ)) = -1 := by norm_num
      rw [this, rnd_neg_one]
    rw [hk]
    have h2x0 : (0 : ℚ) ≤ x * 2 := by linarith
    have hr := rnd_bounds_of_nonneg h2x0
    have hr1 : 1 ≤ rnd (x * 2) := by
      have := pow2_le_rnd (x := x * 2) (k := 0) (by rw [pow2_zero]; linarith)
      rw [pow2_zero] at this
      exact this
    have hr2 : rnd (x * 2) ≤ 1414221 / 1000000 := by
      have h1 : x * 2 * (1 + 1 / 2 ^ 53) ≤ 70711 / 100000 * 2 * (1 + 1 / 2 ^ 53) :=
        mul_le_mul_of_nonneg_right (by linarith) hu2
      have h2 : (70711 : ℚ) / 100000 * 2 * (1 + 1 / 2 ^ 53) ≤ 1414221 / 1000000 := by norm_num
      linarith only [hr.2, h1, h2]
    have hr3 : x * 2 - 2 / 2 ^ 53 ≤ rnd (x * 2) := by
      have h1 : x * 2 * (1 - 1 / 2 ^ 53) = x * 2 - x * (2 / 2 ^ 53) := by ring
      have h2 : x * (2 / 2 ^ 53) ≤ 1 * (2 / 2 ^ 53) :=
        mul_le_mul_of_nonneg_right (le_of_lt hx2) (by norm_num)
      linarith only [hr.1, h1, h2]
    have hd0 : (0 : ℚ) ≤ rnd (x * 2) - 1 := by linarith
    have hf := rnd_bounds_of_nonneg hd0
    have hf0 : 0 ≤ rnd (rnd (x * 2) - 1) := rnd_nonneg hd0
    have hf1 : rnd (rnd (x * 2) - 1) ≤ 27 / 64 := by
      have h1 : (rnd (x * 2) - 1) * (1 + 1 / 2 ^ 53) ≤
          (1414221 / 1000000 - 1) * (1 + 1 / 2 ^ 53) :=
        mul_le_mul_of_nonneg_right (by linarith) hu2
      have h2 : ((1414221 : ℚ) / 1000000 - 1) * (1 + 1 / 2 ^ 53) ≤ 27 / 64 := by norm_num
      linarith only [hf.2, h1, h2]
    have hf2 : 2 * x - 1 - 3 / 2 ^ 53 ≤ rnd (rnd (x * 2) - 1) := by
      have h1 : (rnd (x * 2) - 1) * (1 - 1 / 2 ^ 53) =
          (rnd (x * 2) - 1) - (rnd (x * 2) - 1) * (1 / 2 ^ 53) := by ring
      have h2 : (rnd (x * 2) - 1) * (1 / 2 ^ 53) ≤ 1 * (1 / 2 ^ 53) :=
        mul_le_mul_of_nonneg_right (by linarith) (by norm_num)
      linarith only [hf.1, h1, h2, hr3]
    obtain ⟨hc1, hc2⟩ := logCore_neg_one_bounds hf0 hf1
    refine ⟨Or.inl hc1, Or.inr ?_⟩
    linarith only [hc2, hf2]
  · -- k = 0
    have hk : rnd (((0 : ℤ) : ℚ)) = 0 := by
      simp [rnd_zero]
    rw [hk]
    have hge : Sqrt2Half ≤ x := not_lt.mp hlt
    have hd0 : x - 1 ≤ 0 := by linarith
    have hf := rnd_bounds_of_nonpos hd0
    have hf0 : rnd (x - 1) ≤ 0 := rnd_nonpos hd0
    have hf1 : -(5 / 16) ≤ rnd (x - 1) := by
      have h1 : (7071 / 10000 - 1) * (1 + 1 / 2 ^ 53) ≤ (x - 1) * (1 + 1 / 2 ^ 53) :=
        mul_le_mul_of_nonneg_right (by linarith) hu2
      have h2 : -(5 / 16 : ℚ) ≤ (7071 / 10000 - 1) * (1 + 1 / 2 ^ 53) := by norm_num
      linarith only [hf.1, h1, h2]
    obtain ⟨hc1, hc2⟩ := logCore_zero_bounds hf1 hf0
    refine ⟨Or.inr ?_, Or.inl hc1⟩
    have hsq : (0 : ℚ) ≤ (1 - 1 / 2 ^ 53) ^ 2 := by positivity
    have h3 : rnd (x - 1) * (1 - 1 / 2 ^ 53) ^ 2 ≤ (x - 1) * (1 - 1 / 2 ^ 53) * (1 - 1 / 2 ^ 53) ^ 2 :=
      mul_le_mul_of_nonneg_right hf.2 hsq
    have h4 : (x - 1) * (1 - 1 / 2 ^ 53) * (1 - 1 / 2 ^ 53) ^ 2 = (x - 1) * (1 - 1 / 2 ^ 53) ^ 3 := by
      ring
    linarith only [hc2, h3, h4]


theorem InvLn2_bounds : 14426 / 10000 ≤ InvLn2 ∧ InvLn2 ≤ 14427 / 10000 := by
  have h := rnd_bounds_of_nonneg
    (x := 1 / (693147180559945309417232121458176568 / 10 ^ 36)) (by norm_num)
  constructor
  · exact le_trans (by norm_num) h.1
  · exact le_trans h.2 (by norm_num)

theorem Ln2_mul_InvLn2 : (Ln2Hi + Ln2Lo) * InvLn2 ≤ 1 + 3 / 2 ^ 53 := by
  have h1 := (rnd_bounds_of_nonneg (x := 693147180369123816490 / 10 ^ 21) (by norm_num)).2
  have h2 := (rnd_bounds_of_nonneg (x := 190821492927058770002 / 10 ^ 30) (by norm_num)).2
  have h3 := (rnd_bounds_of_nonneg
    (x := 1 / (693147180559945309417232121458176568 / 10 ^ 36)) (by norm_num)).2
  have h4 : Ln2Hi + Ln2Lo ≤ (693147180369123816490 / 10 ^ 21 + 190821492927058770002 / 10 ^ 30) *
      (1 + 1 / 2 ^ 53) := by
    have e : Ln2Hi = rnd (693147180369123816490 / 10 ^ 21) := by unfold Ln2Hi; rfl
    have e' : Ln2Lo = rnd (190821492927058770002 / 10 ^ 30) := by unfold Ln2Lo; rfl
    rw [e, e']
    linarith only [h1, h2]
  have h5 : 0 ≤ InvLn2 := by linarith only [InvLn2_bounds.1]
  have h6 : InvLn2 ≤ 1 / (693147180559945309417232121458176568 / 10 ^ 36) * (1 + 1 / 2 ^ 53) := h3
  calc (Ln2Hi + Ln2Lo) * InvLn2
      ≤ ((693147180369123816490 / 10 ^ 21 + 190821492927058770002 / 10 ^ 30) *
          (1 + 1 / 2 ^ 53)) * InvLn2 := mul_le_mul_of_nonneg_right h4 h5
    _ ≤ ((693147180369123816490 / 10 ^ 21 + 190821492927058770002 / 10 ^ 30) *
          (1 + 1 / 2 ^ 53)) *
          (1 / (693147180559945309417232121458176568 / 10 ^ 36) * (1 + 1 / 2 ^ 53)) :=
        mul_le_mul_of_nonneg_left h6 (by norm_num)
    _ ≤ 1 + 3 / 2 ^ 53 := by norm_num

theorem Ln2_sum_bounds : Ln2Hi + Ln2Lo ≤ 6933 / 10000 := by
  have := Ln2Hi_bounds.2
  have h2 := Ln2Lo_bounds.2
  have h3 : (1 : ℚ) / 2 ^ 32 ≤ 1 / 10000 := by norm_num
  linarith only [this, h2, h3]

attribute [local irreducible] InvLn2 Log

theorem rnd_intCast_small {m : ℤ} (h0 : 0 ≤ m) (h : m < 2 ^ 53) : rnd (m : ℚ) = m := by
  obtain ⟨n, rfl⟩ := Int.eq_ofNat_of_zero_le h0
  have : n < 2 ^ 53 := by exact_mod_cast h
  simpa using rnd_natCast this

theorem Log2_pow2 {e : ℤ} (he0 : 0 ≤ e) (he : e ≤ 63) : Log2 (pow2 e) = e := by
  have hfl : flog2 (pow2 e) = e := flog2_unique (le_refl _) (pow2_lt (by omega))
  have hfrac : pow2 e / pow2 (e + 1) = 1 / 2 := by
    rw [pow2_succ]
    have := pow2_pos e
    field_simp
    ring
  simp only [Log2, Frexp, hfl, hfrac, if_true]
  have : ((e + 1 - 1 : ℤ) : ℚ) = (e : ℚ) := by push_cast; ring
  rw [this]
  exact rnd_intCast_small he0 (by omega)

theorem Log2_of_ne {x : ℚ} {e : ℤ} (h1 : pow2 e < x) (h2 : x < pow2 (e + 1)) (he0 : 0 ≤ e)
    (he : e ≤ 63) :
    Log2 x = rnd (rnd (Log (x / pow2 (e + 1)) * InvLn2) + ((e + 1 : ℤ) : ℚ)) ∧
      1 / 2 < x / pow2 (e + 1) ∧ x / pow2 (e + 1) < 1 := by
  have hfl : flog2 x = e := flog2_unique (le_of_lt h1) h2
  have hp := pow2_pos (e + 1)
  have hfrac1 : 1 / 2 < x / pow2 (e + 1) := by
    rw [lt_div_iff₀ hp, pow2_succ]
    linarith
  have hfrac2 : x / pow2 (e + 1) < 1 := by
    rw [div_lt_iff₀ hp]
    linarith
  refine ⟨?_, hfrac1, hfrac2⟩
  simp only [Log2, Frexp, hfl, if_neg (ne_of_gt hfrac1)]
  rw [rnd_intCast_small (by omega) (by omega)]

/-- Rounding of the sum `w + E` in `Log2`. -/
theorem sum_round {w : ℚ} {E : ℤ} (hE1 : 2 ≤ E) (hE2 : E ≤ 63) (hw1 : -(3 / 2) ≤ w)
    (hw2 : w ≤ 0) :
    w + E - 1 / 2 ^ 48 ≤ rnd (w + E) ∧ rnd (w + E) ≤ w + E + 1 / 2 ^ 48 := by
  have hE1' : (2 : ℚ) ≤ E := by exact_mod_cast hE1
  have hE2' : (E : ℚ) ≤ 63 := by exact_mod_cast hE2
  have hpos : 0 < w + E := by linarith
  have hlt : w + E < pow2 6 := by
    have : pow2 6 = 64 := by rw [pow2_eq]; norm_num
    rw [this]
    linarith
  have h := rnd_err_of_lt hpos hlt
  have e : pow2 (6 - 54) = 1 / 2 ^ 48 := by rw [pow2_eq]; norm_num
  rw [e, abs_le] at h
  constructor <;> linarith only [h.1, h.2]

/-- The rounded product `Log(frac) * (1/Ln2)` from bounds on `Log(frac)`. -/
theorem prod_round {y : ℚ} (hy1 : -(7 / 10) ≤ y) (hy2 : y ≤ 0) :
    y * InvLn2 * (1 + 1 / 2 ^ 53) ≤ rnd (y * InvLn2) ∧
      rnd (y * InvLn2) ≤ y * InvLn2 * (1 - 1 / 2 ^ 53) ∧
      -(102 / 100) ≤ rnd (y * InvLn2) ∧ rnd (y * InvLn2) ≤ 0 ∧ -(101 / 100) ≤ y * InvLn2 := by
  obtain ⟨hC1, hC2⟩ := InvLn2_bounds
  have hC0 : 0 ≤ InvLn2 := by linarith only [hC1]
  have hp : y * InvLn2 ≤ 0 := mul_nonpos_of_nonpos_of_nonneg hy2 hC0
  have hb := rnd_bounds_of_nonpos hp
  have hlow : -(101 / 100) ≤ y * InvLn2 := by
    have h1 : -(7 / 10) * InvLn2 ≤ y * InvLn2 := mul_le_mul_of_nonneg_right hy1 hC0
    linarith only [h1, hC2]
  refine ⟨hb.1, hb.2, ?_, rnd_nonpos hp, hlow⟩
  have h2 : -(101 / 100) * (1 + 1 / 2 ^ 53) ≤ y * InvLn2 * (1 + 1 / 2 ^ 53) :=
    mul_le_mul_of_nonneg_right hlow (by norm_num)
  have h3 : -(102 / 100 : ℚ) ≤ -(101 / 100) * (1 + 1 / 2 ^ 53) := by norm_num
  linarith only [hb.1, h2, h3]

/-- Coarse bounds of `Log(frac)`. -/
theorem Log_coarse {x : ℚ} (hx1 : 1 / 2 ≤ x) (hx2 : x < 1) :
    -(7 / 10) ≤ Log x ∧ Log x ≤ 0 := by
  obtain ⟨hA, hB⟩ := Log_bounds hx1 hx2
  constructor
  · rcases hB with h | h
    · linarith only [h]
    · have h1 := Ln2_sum_bounds
      have h2 : (9 : ℚ) / 2 ^ 53 ≤ 1 / 10000 := by norm_num
      linarith only [h, h1, h2, hx1]
  · rcases hA with h | h
    · linarith only [h]
    · have h1 : (0 : ℚ) ≤ (1 - 1 / 2 ^ 53) ^ 3 := by positivity
      have h2 : (x - 1) * (1 - 1 / 2 ^ 53) ^ 3 ≤ 0 :=
        mul_nonpos_of_nonpos_of_nonneg (by linarith only [hx2]) h1
      linarith only [h, h2]

attribute [local irreducible] Log2

theorem truncInt_of_nonneg {x : ℚ} (h : 0 ≤ x) : truncInt x = ⌊x⌋ := by
  simp [truncInt, h]

theorem pow2_63 : pow2 63 = 2 ^ 63 := pow2_natCast 63

theorem log2Index_spec {d : ℤ} (h0 : 0 < d) (h : d < 2 ^ 63) :
    ∃ e : ℤ, 0 ≤ e ∧ e ≤ 63 ∧ pow2 e ≤ rnd (d : ℚ) ∧ rnd (d : ℚ) < pow2 (e + 1) ∧
      ((rnd (d : ℚ) = pow2 e ∧ log2Index d = e) ∨
       (pow2 e < rnd (d : ℚ) ∧ 1 ≤ e ∧ e ≤ 62 ∧
          1 / 2 < rnd (d : ℚ) / pow2 (e + 1) ∧ rnd (d : ℚ) / pow2 (e + 1) < 1 ∧
          ∃ y w L : ℚ, y = Log (rnd (d : ℚ) / pow2 (e + 1)) ∧ w = rnd (y * InvLn2) ∧
            log2Index d = ⌊L⌋ ∧ -(7 / 10) ≤ y ∧ y ≤ 0 ∧
            y * InvLn2 * (1 + 1 / 2 ^ 53) ≤ w ∧ w ≤ y * InvLn2 * (1 - 1 / 2 ^ 53) ∧
            -(102 / 100) ≤ w ∧ w ≤ 0 ∧
            w + ((e + 1 : ℤ) : ℚ) - 1 / 2 ^ 48 ≤ L ∧ L ≤ w + ((e + 1 : ℤ) : ℚ) + 1 / 2 ^ 48)) := by
  have hd1 : (1 : ℚ) ≤ d := by exact_mod_cast h0
  have hd2 : (d : ℚ) ≤ pow2 63 := by
    rw [pow2_63]
    have : d ≤ 2 ^ 63 := le_of_lt h
    exact_mod_cast this
  have hdpos : (0 : ℚ) < d := by linarith
  have hx1 : pow2 0 ≤ rnd (d : ℚ) := pow2_le_rnd (by rw [pow2_zero]; exact hd1)
  have hx2 : rnd (d : ℚ) ≤ pow2 63 := rnd_le_pow2 hdpos hd2
  have hxpos : 0 < rnd (d : ℚ) := lt_of_lt_of_le (pow2_pos 0) hx1
  obtain ⟨hs1, hs2⟩ := flog2_spec hxpos
  set e := flog2 (rnd (d : ℚ)) with he
  have he0 : 0 ≤ e := by
    have := pow2_lt_iff.mp (lt_of_le_of_lt hx1 hs2)
    omega
  have he63 : e ≤ 63 := by
    have := pow2_lt_iff.mp (lt_of_le_of_lt hs1 (lt_of_le_of_lt hx2 (pow2_lt (show (63 : ℤ) < 64 by norm_num))))
    omega
  refine ⟨e, he0, he63, hs1, hs2, ?_⟩
  rcases eq_or_lt_of_le hs1 with heq | hlt
  · left
    refine ⟨heq.symm, ?_⟩
    unfold log2Index
    rw [← heq, Log2_pow2 he0 he63]
    have : (0 : ℚ) ≤ (e : ℚ) := by exact_mod_cast he0
    rw [truncInt_of_nonneg this]
    exact Int.floor_intCast e
  · right
    have he62 : e ≤ 62 := by
      by_contra hc
      have e63 : e = 63 := by omega
      rw [e63] at hlt
      exact absurd hx2 (not_le.mpr hlt)
    have he1 : 1 ≤ e := by
      by_contra hc
      have e0 : e = 0 := by omega
      rw [e0] at hlt hs2
      rw [pow2_zero] at hlt
      have hp1 : pow2 (0 + 1) = 2 := by rw [pow2_eq]; norm_num
      rw [hp1] at hs2
      rcases eq_or_lt_of_le (show (1 : ℤ) ≤ d by omega) with h1 | h1
      · rw [← h1] at hlt
        simp only [Int.cast_one] at hlt
        rw [rnd_one] at hlt
        exact absurd hlt (lt_irrefl _)
      · have hd2' : (2 : ℚ) ≤ d := by exact_mod_cast (show (2 : ℤ) ≤ d by omega)
        have := pow2_le_rnd (x := (d : ℚ)) (k := 1) (by
          have : pow2 1 = 2 := by rw [pow2_eq]; norm_num
          rw [this]; exact hd2')
        have hp : pow2 1 = 2 := by rw [pow2_eq]; norm_num
        rw [hp] at this
        linarith
    obtain ⟨hL, hf1, hf2⟩ := Log2_of_ne hlt hs2 he0 he63
    obtain ⟨hy1, hy2⟩ := Log_coarse (le_of_lt hf1) hf2
    obtain ⟨hw1, hw2, hw3, hw4, _⟩ := prod_round hy1 hy2
    obtain ⟨hz1, hz2⟩ := sum_round (w := rnd (Log (rnd (d : ℚ) / pow2 (e + 1)) * InvLn2))
      (E := e + 1) (by omega) (by omega) (by linarith only [hw3]) hw4
    refine ⟨hlt, he1, he62, hf1, hf2, _, _, _, rfl, rfl, ?_, hy1, hy2, hw1, hw2, hw3, hw4,
      hz1, hz2⟩
    unfold log2Index
    rw [hL]
    apply truncInt_of_nonneg
    have hE : (2 : ℚ) ≤ ((e + 1 : ℤ) : ℚ) := by exact_mod_cast (show (2 : ℤ) ≤ e + 1 by omega)
    have h48 : (1 : ℚ) / 2 ^ 48 ≤ 1 / 100 := by norm_num
    linarith only [hz1, hw3, hE, h48]

theorem log2Index_range {d : ℤ} (h0 : 0 < d) (h : d < 2 ^ 63) :
    0 ≤ log2Index d ∧ log2Index d ≤ 63 := by
  obtain ⟨e, he0, he63, _, _, hc⟩ := log2Index_spec h0 h
  rcases hc with ⟨_, hi⟩ | ⟨_, he1, he62, _, _, y, w, L, _, _, hi, _, _, _, _, hw3, hw4, hz1, hz2⟩
  · rw [hi]
    exact ⟨he0, he63⟩
  · rw [hi]
    have hE1 : (2 : ℚ) ≤ ((e + 1 : ℤ) : ℚ) := by exact_mod_cast (show (2 : ℤ) ≤ e + 1 by omega)
    have hE2 : ((e + 1 : ℤ) : ℚ) ≤ 63 := by exact_mod_cast (show e + 1 ≤ (63 : ℤ) by omega)
    have h48 : (1 : ℚ) / 2 ^ 48 ≤ 1 / 100 := by norm_num
    constructor
    · apply Int.floor_nonneg.mpr
      linarith only [hz1, hw3, hE1, h48]
    · have : L < ((64 : ℤ) : ℚ) := by
        push_cast
        linarith only [hz2, hw4, hE2, h48]
      have := Int.floor_lt.mpr this
      omega

theorem log2Index_two_pow (k : ℕ) (hk : k ≤ 62) : log2Index (2 ^ k) = k := by
  unfold log2Index
  have : (((2 ^ k : ℤ)) : ℚ) = pow2 (k : ℤ) := by
    rw [pow2_natCast]
    push_cast
    rfl
  rw [this, rnd_pow2, Log2_pow2 (by omega) (by omega)]
  have h0 : (0 : ℚ) ≤ ((k : ℤ) : ℚ) := by exact_mod_cast Int.natCast_nonneg k
  rw [truncInt_of_nonneg h0]
  exact Int.floor_intCast _


theorem flog2_intCast {d : ℤ} (h0 : 0 < d) : flog2 (d : ℚ) = (ilog2 d.toNat : ℤ) := by
  obtain ⟨n, rfl⟩ := Int.eq_ofNat_of_zero_le (le_of_lt h0)
  have hn : n ≠ 0 := by
    rintro rfl
    exact absurd h0 (lt_irrefl _)
  obtain ⟨h1, h2⟩ := ilog2_spec hn
  simp only [Int.toNat_ofNat, Int.cast_natCast]
  apply flog2_unique
  · rw [pow2_natCast]
    exact_mod_cast h1
  · have : ((ilog2 n : ℕ) : ℤ) + 1 = ((ilog2 n + 1 : ℕ) : ℤ) := by push_cast; rfl
    rw [this, pow2_natCast]
    exact_mod_cast h2

theorem log2Index_le_succ {d : ℤ} (h0 : 0 < d) (h : d < 2 ^ 63) :
    log2Index d ≤ (ilog2 d.toNat : ℤ) + 1 := by
  have hdpos : (0 : ℚ) < d := by exact_mod_cast h0
  obtain ⟨hk1, hk2⟩ := flog2_spec hdpos
  rw [flog2_intCast h0] at hk1 hk2
  have hr1 := pow2_le_rnd hk1
  have hr2 := rnd_le_pow2 hdpos (le_of_lt hk2)
  obtain ⟨e, he0, he63, hs1, hs2, hc⟩ := log2Index_spec h0 h
  have hek : e ≤ (ilog2 d.toNat : ℤ) + 1 := by
    have := pow2_lt_iff.mp (lt_of_le_of_lt hs1
      (lt_of_le_of_lt hr2 (pow2_lt (show (ilog2 d.toNat : ℤ) + 1 < (ilog2 d.toNat : ℤ) + 1 + 1 by omega))))
    omega
  rcases hc with ⟨_, hi⟩ | ⟨hlt, he1, he62, _, _, y, w, L, _, _, hi, _, _, _, _, hw3, hw4, hz1, hz2⟩
  · rw [hi]
    exact hek
  · have hek2 : e ≤ (ilog2 d.toNat : ℤ) := by
      by_contra hc
      have : e = (ilog2 d.toNat : ℤ) + 1 := by omega
      rw [this] at hlt
      exact absurd hr2 (not_le.mpr hlt)
    rw [hi]
    have hE2 : ((e + 1 : ℤ) : ℚ) + 1 = ((e + 2 : ℤ) : ℚ) := by push_cast; ring
    have h48 : (1 : ℚ) / 2 ^ 48 < 1 := by norm_num
    have : L < ((e + 2 : ℤ) : ℚ) := by
      rw [← hE2]
      linarith only [hz2, hw4, h48]
    have := Int.floor_lt.mpr this
    omega

theorem log2Index_exact {d : ℤ} (h0 : 0 < d) (h : d < 2 ^ 48) :
    log2Index d = (ilog2 d.toNat : ℤ) := by
  have hdpos : (0 : ℚ) < d := by exact_mod_cast h0
  have hx : rnd (d : ℚ) = d := rnd_intCast_small (le_of_lt h0) (lt_trans h (by norm_num))
  obtain ⟨e, he0, he63, hs1, hs2, hc⟩ := log2Index_spec h0 (lt_trans h (by norm_num))
  rw [hx] at hs1 hs2 hc
  have hfe : (ilog2 d.toNat : ℤ) = e := by
    rw [← flog2_intCast h0]
    exact flog2_unique hs1 hs2
  rw [hfe]
  rcases hc with ⟨_, hi⟩ |
    ⟨hlt, he1, he62, hf1, hf2, y, w, L, hy, hw, hi, hy1, hy2, hw1, hw2, hw3, hw4, hz1, hz2⟩
  · exact hi
  obtain ⟨m, rfl⟩ := Int.eq_ofNat_of_zero_le he0
  have hd48 : (d : ℚ) < 2 ^ 48 := by exact_mod_cast h
  have hm : m ≤ 47 := by
    have h1 : pow2 (m : ℤ) < pow2 48 := by
      have : pow2 48 = 2 ^ 48 := pow2_natCast 48
      rw [this]
      exact lt_trans hlt hd48
    have := pow2_lt_iff.mp h1
    omega
  have hp1 : pow2 ((m : ℤ) + 1) = 2 * (2 : ℚ) ^ m := by
    have : (m : ℤ) + 1 = ((m + 1 : ℕ) : ℤ) := by push_cast; rfl
    rw [this, pow2_natCast, pow_succ]
    ring
  rw [pow2_natCast] at hlt
  rw [hp1] at hs2 hf1 hf2 hy
  have hP : (0 : ℚ) < (2 : ℚ) ^ m := by positivity
  have hP47 : (2 : ℚ) ^ m ≤ 2 ^ 47 := pow_le_pow_right₀ (by norm_num) hm
  have hdl : (2 : ℚ) ^ m + 1 ≤ d := by
    have : (2 : ℤ) ^ m < d := by exact_mod_cast hlt
    have : (2 : ℤ) ^ m + 1 ≤ d := this
    exact_mod_cast this
  have hdu : (d : ℚ) + 1 ≤ 2 * (2 : ℚ) ^ m := by
    have : d < 2 * (2 : ℤ) ^ m := by exact_mod_cast hs2
    have : d + 1 ≤ 2 * (2 : ℤ) ^ m := this
    exact_mod_cast this
  set P : ℚ := (2 : ℚ) ^ m with hPdef
  set F : ℚ := (d : ℚ) / (2 * P) with hF
  have hFd : (d : ℚ) = F * (2 * P) := by
    rw [hF]
    field_simp
  have hF1 : 1 / 2 ^ 47 ≤ 2 * F - 1 := by
    have h1 : 1 / 2 ^ 47 ≤ 1 / P := one_div_le_one_div_of_le hP hP47
    have h2 : 2 * F - 1 = (d - P) / P := by
      rw [hF]
      field_simp
      ring
    rw [h2]
    refine le_trans h1 ?_
    exact div_le_div_of_nonneg_right (by linarith only [hdl]) (le_of_lt hP)
  have hF2 : F - 1 ≤ -(1 / 2 ^ 48) := by
    have h1 : 1 / 2 ^ 48 ≤ 1 / (2 * P) :=
      one_div_le_one_div_of_le (by linarith only [hP]) (by linarith only [hP47])
    have h2 : F - 1 = -((2 * P - d) / (2 * P)) := by
      rw [hF]
      field_simp
    rw [h2]
    apply neg_le_neg
    refine le_trans h1 ?_
    exact div_le_div_of_nonneg_right (by linarith only [hdu]) (by linarith only [hP])
  obtain ⟨hC1, hC2⟩ := InvLn2_bounds
  have hC0 : 0 ≤ InvLn2 := by linarith only [hC1]
  obtain ⟨hub, hlb⟩ := Log_bounds (le_of_lt hf1) hf2
  rw [← hy] at hub hlb
  have hE : ((((m : ℤ) + 1 : ℤ)) : ℚ) = (m : ℚ) + 1 := by push_cast; rfl
  rw [hE] at hz1 hz2
  rw [hi]
  rw [Int.floor_eq_iff]
  have hmc : (((m : ℤ)) : ℚ) = (m : ℚ) := by push_cast; rfl
  rw [hmc]
  constructor
  · -- lower bound
    have hwl : -1 + 1 / 2 ^ 48 ≤ w := by
      rcases hlb with hA | hB
      · have h1 : -(5 / 8) * InvLn2 ≤ y * InvLn2 := mul_le_mul_of_nonneg_right hA hC0
        have h2 : (y * InvLn2) * (1 + 1 / 2 ^ 53) ≥ (-(5 / 8) * InvLn2) * (1 + 1 / 2 ^ 53) :=
          mul_le_mul_of_nonneg_right h1 (by norm_num)
        have h3 : (-(5 / 8) * InvLn2) * (1 + 1 / 2 ^ 53) ≥
            (-(5 / 8) * (14427 / 10000)) * (1 + 1 / 2 ^ 53) := by
          apply mul_le_mul_of_nonneg_right _ (by norm_num)
          linarith only [hC2]
        have h4 : (-1 : ℚ) + 1 / 2 ^ 48 ≤ (-(5 / 8) * (14427 / 10000)) * (1 + 1 / 2 ^ 53) := by
          norm_num
        linarith only [h2, h3, h4, hw1]
      · have hB0 : 3 / 4 * (1 / 2 ^ 47) - 9 / 2 ^ 53 ≤ 3 / 4 * (2 * F - 1) - 9 / 2 ^ 53 := by
          linarith only [hF1]
        have hB0pos : (0 : ℚ) ≤ 3 / 4 * (1 / 2 ^ 47) - 9 / 2 ^ 53 := by norm_num
        have h1 : (-(Ln2Hi + Ln2Lo) + 3 / 4 * (2 * F - 1) - 9 / 2 ^ 53) * InvLn2 ≤ y * InvLn2 :=
          mul_le_mul_of_nonneg_right hB hC0
        have h2 : (3 / 4 * (1 / 2 ^ 47) - 9 / 2 ^ 53) * (14426 / 10000) ≤
            (3 / 4 * (2 * F - 1) - 9 / 2 ^ 53) * InvLn2 :=
          mul_le_mul hB0 hC1 (by norm_num) (le_trans hB0pos hB0)
        have h3 := Ln2_mul_InvLn2
        have h4 : (-(Ln2Hi + Ln2Lo) + 3 / 4 * (2 * F - 1) - 9 / 2 ^ 53) * InvLn2 =
            -((Ln2Hi + Ln2Lo) * InvLn2) + (3 / 4 * (2 * F - 1) - 9 / 2 ^ 53) * InvLn2 := by
          ring
        have h5 : -(1 + 3 / 2 ^ 53) + (3 / 4 * (1 / 2 ^ 47) - 9 / 2 ^ 53) * (14426 / 10000) ≤
            y * InvLn2 := by
          linarith only [h1, h2, h3, h4]
        have h6 : (-(1 + 3 / 2 ^ 53) + (3 / 4 * (1 / 2 ^ 47) - 9 / 2 ^ 53) * (14426 / 10000)) *
            (1 + 1 / 2 ^ 53) ≤ (y * InvLn2) * (1 + 1 / 2 ^ 53) :=
          mul_le_mul_of_nonneg_right h5 (by norm_num)
        have h7 : (-1 : ℚ) + 1 / 2 ^ 48 ≤
            (-(1 + 3 / 2 ^ 53) + (3 / 4 * (1 / 2 ^ 47) - 9 / 2 ^ 53) * (14426 / 10000)) *
            (1 + 1 / 2 ^ 53) := by
          norm_num
        linarith only [h6, h7, hw1]
    linarith only [hwl, hz1]
  · -- upper bound
    have hy0 : y ≤ -(1 / 2 ^ 48 * (1 - 3 / 2 ^ 53)) := by
      rcases hub with hA | hB
      · refine le_trans hA ?_
        norm_num
      · have h1 : (F - 1) * (1 - 1 / 2 ^ 53) ^ 3 ≤ -(1 / 2 ^ 48) * (1 - 1 / 2 ^ 53) ^ 3 :=
          mul_le_mul_of_nonneg_right hF2 (by norm_num)
        have h2 : -(1 / 2 ^ 48) * (1 - 1 / 2 ^ 53) ^ 3 ≤ -((1 : ℚ) / 2 ^ 48 * (1 - 3 / 2 ^ 53)) := by
          norm_num
        linarith only [hB, h1, h2]
    have h1 : y * InvLn2 ≤ -(1 / 2 ^ 48 * (1 - 3 / 2 ^ 53)) * InvLn2 :=
      mul_le_mul_of_nonneg_right hy0 hC0
    have h2 : -(1 / 2 ^ 48 * (1 - 3 / 2 ^ 53)) * InvLn2 ≤
        -(1 / 2 ^ 48 * (1 - 3 / 2 ^ 53)) * (14426 / 10000) :=
      mul_le_mul_of_nonpos_left hC1 (by norm_num)
    have h3 : (y * InvLn2) * (1 - 1 / 2 ^ 53) ≤
        (-(1 / 2 ^ 48 * (1 - 3 / 2 ^ 53)) * (14426 / 10000)) * (1 - 1 / 2 ^ 53) :=
      mul_le_mul_of_nonneg_right (le_trans h1 h2) (by norm_num)
    have h4 : (-((1 : ℚ) / 2 ^ 48 * (1 - 3 / 2 ^ 53)) * (14426 / 10000)) * (1 - 1 / 2 ^ 53) +
        1 / 2 ^ 48 < 0 := by
      norm_num
    linarith only [h3, h4, hw2, hz2]

theorem log2Index_le_62 {d : ℤ} (h0 : 0 < d) (h : d < 3 * 2 ^ 61) : log2Index d ≤ 62 := by
  have hdpos : (0 : ℚ) < d := by exact_mod_cast h0
  have hd : (d : ℚ) ≤ 3 * 2 ^ 61 := by
    have : d ≤ 3 * 2 ^ 61 := le_of_lt h
    exact_mod_cast this
  have hx : rnd (d : ℚ) ≤ 3 * 2 ^ 61 * (1 + 1 / 2 ^ 53) := by
    have h1 := (rnd_bounds_of_nonneg (le_of_lt hdpos)).2
    have h2 : (d : ℚ) * (1 + 1 / 2 ^ 53) ≤ 3 * 2 ^ 61 * (1 + 1 / 2 ^ 53) :=
      mul_le_mul_of_nonneg_right hd (by norm_num)
    exact le_trans h1 h2
  obtain ⟨e, he0, he63, hs1, hs2, hc⟩ := log2Index_spec h0 (lt_trans h (by norm_num))
  have he62' : e ≤ 62 := by
    have h1 : pow2 e < pow2 63 := by
      rw [pow2_63]
      refine lt_of_le_of_lt hs1 (lt_of_le_of_lt hx ?_)
      norm_num
    have := pow2_lt_iff.mp h1
    omega
  rcases hc with ⟨_, hi⟩ |
    ⟨hlt, he1, he62, hf1, hf2, y, w, L, hy, hw, hi, hy1, hy2, hw1, hw2, hw3, hw4, hz1, hz2⟩
  · rw [hi]
    exact he62'
  rw [hi]
  have h48 : (1 : ℚ) / 2 ^ 48 < 1 := by norm_num
  rcases lt_or_eq_of_le he62 with hlt62 | heq
  · have hE2 : ((e + 1 : ℤ) : ℚ) ≤ 62 := by exact_mod_cast (show e + 1 ≤ (62 : ℤ) by omega)
    have : L < ((63 : ℤ) : ℚ) := by
      push_cast
      linarith only [hz2, hw4, h48, hE2]
    have := Int.floor_lt.mpr this
    omega
  · subst heq
    have hp : pow2 (62 + 1) = 2 ^ 63 := pow2_natCast 63
    rw [hp] at hy hf1 hf2
    obtain ⟨hC1, hC2⟩ := InvLn2_bounds
    have hC0 : 0 ≤ InvLn2 := by linarith only [hC1]
    obtain ⟨hub, _⟩ := Log_bounds (le_of_lt hf1) hf2
    rw [← hy] at hub
    have hF : rnd (d : ℚ) / 2 ^ 63 - 1 ≤ -(1 / 4) + 3 / 4 * (1 / 2 ^ 53) := by
      have : rnd (d : ℚ) / 2 ^ 63 ≤ 3 * 2 ^ 61 * (1 + 1 / 2 ^ 53) / 2 ^ 63 :=
        div_le_div_of_nonneg_right hx (by norm_num)
      have h2 : (3 * 2 ^ 61 * (1 + 1 / 2 ^ 53) / 2 ^ 63 : ℚ) = 3 / 4 * (1 + 1 / 2 ^ 53) := by
        norm_num
      linarith only [this, h2]
    have hy0 : y ≤ -(1 / 8) := by
      rcases hub with hA | hB
      · exact hA
      · have h1 : (rnd (d : ℚ) / 2 ^ 63 - 1) * (1 - 1 / 2 ^ 53) ^ 3 ≤
            (-(1 / 4) + 3 / 4 * (1 / 2 ^ 53)) * (1 - 1 / 2 ^ 53) ^ 3 :=
          mul_le_mul_of_nonneg_right hF (by norm_num)
        have h2 : (-(1 / 4) + 3 / 4 * (1 / 2 ^ 53)) * (1 - 1 / 2 ^ 53) ^ 3 ≤ -((1 : ℚ) / 8) := by
          norm_num
        linarith only [hB, h1, h2]
    have h1 : y * InvLn2 ≤ -(1 / 8) * InvLn2 := mul_le_mul_of_nonneg_right hy0 hC0
    have h2 : -(1 / 8) * InvLn2 ≤ -(1 / 8) * (14426 / 10000) :=
      mul_le_mul_of_nonpos_left hC1 (by norm_num)
    have h3 : (y * InvLn2) * (1 - 1 / 2 ^ 53) ≤ (-(1 / 8) * (14426 / 10000)) * (1 - 1 / 2 ^ 53) :=
      mul_le_mul_of_nonneg_right (le_trans h1 h2) (by norm_num)
    have h4 : (-((1 : ℚ) / 8) * (14426 / 10000)) * (1 - 1 / 2 ^ 53) + 1 / 2 ^ 48 < 0 := by
      norm_num
    have hE : (((62 + 1 : ℤ)) : ℚ) = 63 := by norm_num
    rw [hE] at hz2
    have : L < ((63 : ℤ) : ℚ) := by
      push_cast
      linarith only [h3, h4, hw2, hz2]
    have := Int.floor_lt.mpr this
    omega

end Float64

theorem bucketIndex_of_pos {d : Int} (h0 : 0 < d) (h : d < 2 ^ 63) :
    ∃ i : Fin 160, bucketIndex d = some i ∧ (i.val : Int) = log2Index d := by
  obtain ⟨h1, h2⟩ := log2Index_range h0 h
  have hr : 0 ≤ log2Index d ∧ log2Index d < 160 := ⟨h1, by omega⟩
  refine ⟨⟨(log2Index d).toNat, by omega⟩, ?_, ?_⟩
  · unfold bucketIndex
    rw [if_pos h0, dif_pos hr]
  · exact Int.toNat_of_nonneg h1

theorem InsertNode_of_index {seed : Nat} {p : Peer} {nodeID : Str} {i : Fin 160}
    (hi : bucketIndex (Distance p.ID nodeID) = some i) :
    InsertNode seed p nodeID = some { p with
      KBuckets := Function.update p.KBuckets i ⟨insertNodes seed (p.KBuckets i).Nodes nodeID⟩ } := by
  simp [InsertNode, hi]

theorem InsertNode_some {seed : Nat} {p q : Peer} {nodeID : Str}
    (h : InsertNode seed p nodeID = some q) :
    ∃ i, bucketIndex (Distance p.ID nodeID) = some i ∧ q = { p with
      KBuckets := Function.update p.KBuckets i ⟨insertNodes seed (p.KBuckets i).Nodes nodeID⟩ } := by
  cases hi : bucketIndex (Distance p.ID nodeID) with
  | none => simp [InsertNode, hi] at h
  | some i =>
    rw [InsertNode_of_index hi] at h
    exact ⟨i, rfl, (Option.some.inj h).symm⟩

theorem mem_insertNodes_ids_imp {seed : Nat} {nodes : List Node} {nodeID x : Str}
    (h : x ∈ (insertNodes seed nodes nodeID).map Node.ID) :
    x = nodeID ∨ x ∈ nodes.map Node.ID := by
  rw [insertNodes_ids] at h
  split_ifs at h with h1 h2
  · rcases List.mem_cons.mp h with h | h
    · exact Or.inl h
    · exact Or.inr (List.mem_of_mem_erase h)
  · rcases List.mem_or_eq_of_mem_set h with h | h
    · exact Or.inr h
    · exact Or.inl h
  · rcases List.mem_append.mp h with h | h
    · exact Or.inr h
    · exact Or.inl (by simpa using h)

/-! ## Lemmas on the big-endian reading of identifiers -/

theorem foldl_setBytes (acc : Nat) (l : List Byte) :
    l.foldl (fun acc x => acc * 256 + x.val) acc = acc * 256 ^ l.length + setBytes l := by
  unfold setBytes
  induction l generalizing acc with
  | nil => simp
  | cons x xs ih =>
    simp only [List.foldl_cons, List.length_cons]
    rw [ih (acc * 256 + x.val), ih (0 * 256 + x.val)]
    ring

theorem setBytes_append (l₁ l₂ : List Byte) :
    setBytes (l₁ ++ l₂) = setBytes l₁ * 256 ^ l₂.length + setBytes l₂ := by
  rw [setBytes, List.foldl_append, foldl_setBytes]
  rfl

theorem setBytes_lt (l : List Byte) : setBytes l < 256 ^ l.length := by
  induction l using List.reverseRecOn with
  | nil => simp [setBytes]
  | append_singleton xs x ih =>
    rw [setBytes_append]
    have hx : setBytes [x] = x.val := by simp [setBytes]
    have := x.isLt
    simp only [List.length_append, List.length_singleton, hx, pow_one, pow_succ]
    nlinarith

theorem setBytes_mod (a : Str) : setBytes a % 2 ^ 64 = setBytes (a.drop (a.length - 8)) := by
  have hsplit : a = a.take (a.length - 8) ++ a.drop (a.length - 8) :=
    (List.take_append_drop _ _).symm
  have hlt := setBytes_lt (a.drop (a.length - 8))
  have hlen : (a.drop (a.length - 8)).length ≤ 8 := by
    rw [List.length_drop]
    omega
  have hpow : 256 ^ (a.drop (a.length - 8)).length ≤ 2 ^ 64 :=
    le_trans (Nat.pow_le_pow_right (by norm_num) hlen) (by norm_num)
  by_cases h8 : 8 ≤ a.length
  · have hl8 : (a.drop (a.length - 8)).length = 8 := by
      rw [List.length_drop]
      omega
    conv_lhs => rw [hsplit, setBytes_append, hl8]
    have e : (256 : Nat) ^ 8 = 2 ^ 64 := by norm_num
    rw [e, Nat.mul_add_mod_of_lt (lt_of_lt_of_le hlt hpow)]
  · have h0 : a.length - 8 = 0 := by omega
    rw [h0, List.drop_zero] at hlt hpow ⊢
    exact Nat.mod_eq_of_lt (lt_of_lt_of_le hlt hpow)

theorem foldl_setBytes_inj (l₁ l₂ : List Byte) (acc₁ acc₂ : Nat)
    (hlen : l₁.length = l₂.length)
    (h : l₁.foldl (fun acc x => acc * 256 + x.val) acc₁ =
      l₂.foldl (fun acc x => acc * 256 + x.val) acc₂) : acc₁ = acc₂ ∧ l₁ = l₂ := by
  induction l₁ generalizing l₂ acc₁ acc₂ with
  | nil =>
    cases l₂ with
    | nil => exact ⟨by simpa using h, rfl⟩
    | cons _ _ => simp at hlen
  | cons x xs ih =>
    cases l₂ with
    | nil => simp at hlen
    | cons y ys =>
      simp only [List.length_cons, Nat.add_right_cancel_iff] at hlen
      simp only [List.foldl_cons] at h
      obtain ⟨hacc, hxs⟩ := ih ys _ _ hlen h
      have hx := x.isLt
      have hy := y.isLt
      have hxy : x.val = y.val := by omega
      exact ⟨by omega, by rw [Fin.ext hxy, hxs]⟩

theorem setBytes_inj {l₁ l₂ : List Byte} (hlen : l₁.length = l₂.length)
    (h : setBytes l₁ = setBytes l₂) : l₁ = l₂ :=
  (foldl_setBytes_inj l₁ l₂ 0 0 hlen h).2

theorem xor_mod_two_pow (x y n : Nat) : (x ^^^ y) % 2 ^ n = (x % 2 ^ n) ^^^ (y % 2 ^ n) := by
  apply Nat.eq_of_testBit_eq
  intro i
  simp only [Nat.testBit_mod_two_pow, Nat.testBit_xor]
  by_cases h : i < n <;> simp [h]

theorem xor_shift_add (a b x y : Nat) (hx : x < 256) (hy : y < 256) :
    (a * 256 + x) ^^^ (b * 256 + y) = (a ^^^ b) * 256 + (x ^^^ y) := by
  have hxy : x ^^^ y < 2 ^ 8 := Nat.xor_lt_two_pow (n := 8) hx hy
  have e : ∀ c d : Nat, c * 256 + d = 2 ^ 8 * c + d := fun c d => by ring
  rw [e, e, e]
  apply Nat.eq_of_testBit_eq
  intro i
  rw [Nat.testBit_xor, Nat.testBit_mul_pow_two_add _ (by simpa using hx),
    Nat.testBit_mul_pow_two_add _ (by simpa using hy), Nat.testBit_mul_pow_two_add _ hxy]
  by_cases h : i < 8 <;> simp [h]

theorem foldl_xorByte (a b : Str) (acc₁ acc₂ : Nat) (hlen : a.length = b.length) :
    (List.zipWith xorByte a b).foldl (fun acc x => acc * 256 + x.val) (acc₁ ^^^ acc₂) =
      a.foldl (fun acc x => acc * 256 + x.val) acc₁ ^^^
        b.foldl (fun acc x => acc * 256 + x.val) acc₂ := by
  induction a generalizing b acc₁ acc₂ with
  | nil =>
    cases b with
    | nil => simp
    | cons _ _ => simp at hlen
  | cons x xs ih =>
    cases b with
    | nil => simp at hlen
    | cons y ys =>
      simp only [List.length_cons, Nat.add_right_cancel_iff] at hlen
      simp only [List.zipWith_cons_cons, List.foldl_cons]
      rw [← ih ys _ _ hlen, xor_shift_add _ _ _ _ x.isLt y.isLt]
      rfl

theorem xorValue_eq (a b : Str) (hlen : a.length = b.length) :
    xorValue a b = setBytes a ^^^ setBytes b := by
  have := foldl_xorByte a b 0 0 hlen
  simpa [xorValue, setBytes] using this

theorem toInt64_eq_zero {u : Nat} (h : u < 2 ^ 64) : toInt64 u = 0 ↔ u = 0 := by
  unfold toInt64
  split_ifs with h1
  · exact_mod_cast Iff.rfl
  · have : (u : Int) < 2 ^ 64 := by exact_mod_cast h
    constructor
    · intro h2; omega
    · intro h2; omega

theorem Distance_eq (a b : Str) : Distance a b = toInt64 ((setBytes a ^^^ setBytes b) % 2 ^ 64) :=
  rfl

/-! ## Lemmas on the store -/

theorem SetValue_eq (p : Peer) (key : Str) (value : Bytes) :
    SetValue p key value =
      if key = hashStr value then
        if mapGet p.keys key = none then ({ p with keys := mapSet p.keys key value }, true)
        else (p, true)
      else (p, false) := by
  unfold SetValue
  by_cases h1 : key = hashStr value
  · by_cases h2 : mapGet p.keys key = none
    · simp [h1, h2]
    · have h2' : ¬ mapGet p.keys (hashStr value) = none := h1 ▸ h2
      simp [h1, h2']
  · simp [h1]

theorem setValue_eq_false_of_ne (p : Peer) {key : Str} (value : Bytes)
    (h : key ≠ hashStr value) : (SetValue p key value).2 = false := by
  rw [SetValue_eq, if_neg h]

theorem SetValue_frame (p : Peer) (key : Str) (value : Bytes) :
    (SetValue p key value).1.ID = p.ID ∧ (SetValue p key value).1.KBuckets = p.KBuckets := by
  rw [SetValue_eq]
  split_ifs <;> exact ⟨rfl, rfl⟩

theorem mapGet_filter_ne (m : List (Str × Bytes)) {key k : Str} (h : k ≠ key) :
    mapGet (m.filter (fun e => e.1 ≠ key)) k = mapGet m k := by
  induction m with
  | nil => rfl
  | cons e es ih =>
    obtain ⟨a, v⟩ := e
    by_cases ha : a = key
    · have hak : ¬ a = k := fun e => h (e.symm.trans ha)
      rw [List.filter_cons_of_neg (by simp [ha]), ih]
      simp [mapGet, hak]
    · rw [List.filter_cons_of_pos (by simp [ha])]
      by_cases hak : a = k
      · simp [mapGet, hak]
      · simp only [mapGet, hak, if_false]
        exact ih

theorem mapGet_mapSet (m : List (Str × Bytes)) (key k : Str) (value : Bytes) :
    mapGet (mapSet m key value) k = if key = k then value else mapGet m k := by
  unfold mapSet
  by_cases h : key = k
  · simp [mapGet, h]
  · simp only [mapGet, h, if_false]
    exact mapGet_filter_ne m (fun e => h e.symm)

theorem GetValue_eq (s : Peer) (key : Str) :
    GetValue s key =
      if mapGet s.keys key = none then (s, none)
      else if key = hashStr (mapGet s.keys key) then (s, mapGet s.keys key)
      else (s, none) := by
  unfold GetValue
  by_cases h1 : mapGet s.keys key = none
  · simp [h1]
  · by_cases h2 : key = hashStr (mapGet s.keys key)
    · simp only [h1, ne_eq, not_false_eq_true, if_true, if_false]
      rw [if_neg (not_not.mpr h2), if_pos h2]
    · simp only [h1, ne_eq, not_false_eq_true, if_true, if_false, h2]

theorem StoreInv_setValue {p : Peer} (key : Str) (value : Bytes) (hp : StoreInv p) :
    StoreInv (SetValue p key value).1 := by
  rw [SetValue_eq]
  split_ifs with h1 h2
  · intro k v hk
    simp only [mapGet_mapSet] at hk
    split_ifs at hk with h3
    · rw [← h3, h1, hk]
    · exact hp k v hk
  · exact hp
  · exact hp

/-! ## Invariants of reachable peers -/

theorem TableInv_insertNode {id : Str} {p q : Peer} {seed : Nat} {nodeID : Str}
    (hp : TableInv id p) (h : InsertNode seed p nodeID = some q) : TableInv id q := by
  obtain ⟨i, hi, rfl⟩ := InsertNode_some h
  obtain ⟨hid, hb⟩ := hp
  refine ⟨hid, fun j => ?_⟩
  by_cases hj : j = i
  · subst hj
    simp only [Function.update_same, Bucket.ids]
    refine ⟨insertNodes_length_le _ _ _ (hb j).1, insertNodes_nodup _ _ _ (hb j).2.1, ?_⟩
    intro x hx
    rcases mem_insertNodes_ids_imp hx with rfl | hx
    · rw [← hid]; exact hi
    · exact (hb j).2.2 x hx
  · simp only [Function.update_noteq hj]
    exact hb j

theorem Reachable.tableInv {id : Str} {p : Peer} (h : Reachable id p) : TableInv id p := by
  induction h with
  | newPeer => exact ⟨rfl, fun j => by simp [NewPeer, Bucket.ids]⟩
  | insertNode seed nodeID _ hq ih => exact TableInv_insertNode ih hq
  | @setValue p key value _ ih =>
    obtain ⟨h1, h2⟩ := SetValue_frame p key value
    exact ⟨h1.trans ih.1, fun j => by rw [h2]; exact ih.2 j⟩

theorem Reachable.storeInv {id : Str} {p : Peer} (h : Reachable id p) : StoreInv p := by
  induction h with
  | newPeer =>
    intro k v hk
    simp [NewPeer, mapGet] at hk
  | insertNode seed nodeID _ hq ih =>
    obtain ⟨i, _, rfl⟩ := InsertNode_some hq
    exact ih
  | setValue key value _ ih => exact StoreInv_setValue key value ih

theorem insertAll_reachable {id : Str} {p q : Peer} (calls : List (Nat × Str))
    (hp : Reachable id p) (h : insertAll p calls = some q) : Reachable id q := by
  induction calls generalizing p with
  | nil =>
    simp only [insertAll, Option.some.injEq] at h
    exact h ▸ hp
  | cons c cs ih =>
    obtain ⟨seed, nodeID⟩ := c
    simp only [insertAll, Option.bind_eq_some] at h
    obtain ⟨r, hr, hq⟩ := h
    exact ih (Reachable.insertNode seed nodeID hp hr) hq

theorem runInserts_reachable (id : Str) (calls : List (Nat × Str)) :
    Reachable id (runInserts id calls) := by
  unfold runInserts
  cases h : insertAll (NewPeer id) calls with
  | none => exact Reachable.newPeer
  | some q => exact insertAll_reachable calls Reachable.newPeer h

/-! ## Routing table: the claims -/

set_option maxRecDepth 100000 in
/-- C1 (counterexample). The peer `00..00` inserts an id whose full-width XOR
with its own has its highest set bit at position 152: the id is stored in
bucket 0, the bucket of the low 64 bits of the XOR, and bucket 152 stays
empty. And the peer with the id of eight zero bytes inserts an id at distance
`2 ^ 49 - 1`, whose highest set bit is at position 48: the floating-point
logarithm is rounded up to 49 and the id is stored in bucket 49, bucket 48
staying empty. -/
theorem insertNode_ignores_high_bits :
    zeroID ≠ farID ∧
    ilog2 (Nat.xor (setBytes zeroID) (setBytes farID)) = 152 ∧
    bucketIds (InsertNode 0 (NewPeer zeroID) farID) 152 = some [] ∧
    bucketIds (InsertNode 0 (NewPeer zeroID) farID) 0 = some [farID] ∧
    zero8 ≠ nearID ∧
    Distance zero8 nearID = 2 ^ 49 - 1 ∧
    ilog2 (Nat.xor (setBytes zero8) (setBytes nearID)) = 48 ∧
    bucketIds (InsertNode 0 (NewPeer zero8) nearID) 48 = some [] ∧
    bucketIds (InsertNode 0 (NewPeer zero8) nearID) 49 = some [nearID] := by
  refine ⟨by decide, by decide, by decide!, by decide!, by decide, by decide, by decide,
    by decide!, by decide!⟩

/-- C1 (amended). When `Distance`, the low 64 bits of the XOR read as an
`int`, is positive, `InsertNode b` returns and `b` is held in the bucket whose
index is `int(math.Log2(float64(distance)))`; every other bucket is unchanged
and, on a table that satisfies the routing-table invariant, holds no copy of
`b`. The index is at most 63 and at most one above the position of the highest
set bit of the distance; it is that position when the distance is below
`2 ^ 48` or a power of two, and it is the position of the highest set bit of
the full-width XOR when that XOR is below `2 ^ 48`. -/
theorem insertNode_places_by_distance (seed : Nat) (p : Peer) (b : Str)
    (hd : 0 < Distance p.ID b) :
    ∃ (i : Fin 160) (q : Peer), InsertNode seed p b = some q ∧
      bucketIndex (Distance p.ID b) = some i ∧
      i.val ≤ 63 ∧ i.val ≤ ilog2 (Distance p.ID b).toNat + 1 ∧
      (Distance p.ID b < 2 ^ 48 → i.val = ilog2 (Distance p.ID b).toNat) ∧
      (∀ k : Nat, Distance p.ID b = 2 ^ k → i.val = k) ∧
      (Nat.xor (setBytes p.ID) (setBytes b) < 2 ^ 48 →
        i.val = ilog2 (Nat.xor (setBytes p.ID) (setBytes b))) ∧
      b ∈ (q.KBuckets i).ids ∧
      (∀ j, j ≠ i → q.KBuckets j = p.KBuckets j) ∧
      (TableInv p.ID p → ∀ j, j ≠ i → b ∉ (q.KBuckets j).ids) := by
  have hlt := Distance_lt p.ID b
  obtain ⟨i, hi, hv⟩ := bucketIndex_of_pos hd hlt
  have hr := log2Index_range hd hlt
  have hs := log2Index_le_succ hd hlt
  refine ⟨i, _, InsertNode_of_index hi, hi, by omega, by omega, ?_, ?_, ?_, ?_, ?_, ?_⟩
  · intro h48
    have := log2Index_exact hd h48
    omega
  · intro k hk
    have hk62 : k ≤ 62 := by
      by_contra hc
      have h63 : (2 : Int) ^ 63 ≤ 2 ^ k := pow_le_pow_right₀ (by norm_num) (by omega)
      rw [← hk] at h63
      exact absurd hlt (not_lt.mpr h63)
    have := log2Index_two_pow k hk62
    rw [← hk] at this
    omega
  · intro hx
    have hD := Distance_of_xor_lt (lt_trans hx (by norm_num))
    have h48 : Distance p.ID b < 2 ^ 48 := by
      rw [hD]
      exact_mod_cast hx
    have := log2Index_exact hd h48
    rw [hD, Int.toNat_ofNat] at this
    have hv' : (i.val : Int) = log2Index ((Nat.xor (setBytes p.ID) (setBytes b) : Nat) : Int) := by
      rw [← hD]
      exact hv
    omega
  · simp only [Function.update_same, Bucket.ids]
    exact mem_insertNodes_ids _ _ _
  · intro j hj
    simp only [Function.update_noteq hj]
  · intro hr j hj hmem
    simp only [Function.update_noteq hj] at hmem
    have := (hr.2 j).2.2 b hmem
    rw [hi] at this
    exact hj (Option.some.inj this).symm

/-- C1 (witness). The peer `00..00` inserts `00..01`: the distance is 1, the
index 0 and bucket 0 holds the new id. -/
theorem insertNode_places_by_distance_witness :
    Distance (NewPeer zeroID).ID oneID = 1 ∧
    bucketIds (InsertNode 0 (NewPeer zeroID) oneID) 0 = some [oneID] ∧
    ∃ (i : Fin 160) (q : Peer), InsertNode 0 (NewPeer zeroID) oneID = some q ∧
      bucketIndex (Distance (NewPeer zeroID).ID oneID) = some i ∧
      i.val ≤ 63 ∧ i.val ≤ ilog2 (Distance (NewPeer zeroID).ID oneID).toNat + 1 ∧
      (Distance (NewPeer zeroID).ID oneID < 2 ^ 48 →
        i.val = ilog2 (Distance (NewPeer zeroID).ID oneID).toNat) ∧
      (∀ k : Nat, Distance (NewPeer zeroID).ID oneID = 2 ^ k → i.val = k) ∧
      (Nat.xor (setBytes (NewPeer zeroID).ID) (setBytes oneID) < 2 ^ 48 →
        i.val = ilog2 (Nat.xor (setBytes (NewPeer zeroID).ID) (setBytes oneID))) ∧
      oneID ∈ (q.KBuckets i).ids ∧
      (∀ j, j ≠ i → q.KBuckets j = (NewPeer zeroID).KBuckets j) ∧
      (TableInv (NewPeer zeroID).ID (NewPeer zeroID) →
        ∀ j, j ≠ i → oneID ∉ (q.KBuckets j).ids) :=
  ⟨by decide, by decide!, insertNode_places_by_distance 0 (NewPeer zeroID) oneID (by decide)⟩

/-- C2. Bucket invariant: in every peer reachable from `NewPeer` by calls of
`InsertNode`, whatever the random choices, each of the 160 buckets holds at
most three contacts and no two of them have the same id. -/
theorem bucket_invariant (id : Str) (p : Peer) (h : Reachable id p) (j : Fin 160) :
    (p.KBuckets j).Nodes.length ≤ 3 ∧ (p.KBuckets j).ids.Nodup :=
  ⟨(h.tableInv.2 j).1, (h.tableInv.2 j).2.1⟩

/-- C2 (witness). The invariant at the full bucket 2 of the peer `0` after it
inserted the ids `4`, `5` and `6`. -/
theorem bucket_invariant_witness :
    (fullPeer.KBuckets 2).ids = [ascii "4", ascii "5", ascii "6"] ∧
    (fullPeer.KBuckets 2).Nodes.length ≤ 3 ∧ (fullPeer.KBuckets 2).ids.Nodup :=
  ⟨by decide!, bucket_invariant (ascii "0") fullPeer (runInserts_reachable _ _) 2⟩

/-- C3 (counterexample). Bucket 2 of the peer `0` is full with `4`, `5`, `6`
(in slice order, which here is also the order of arrival). Inserting `7` when
the random choice is 1 removes the middle contact `5`: both the last contact
of the slice and the oldest contact survive. -/
theorem insertNode_full_bucket_evicts_middle :
    (fullPeer.KBuckets 2).ids = [ascii "4", ascii "5", ascii "6"] ∧
    bucketIds (InsertNode 1 fullPeer (ascii "7")) 2 = some [ascii "4", ascii "7", ascii "6"] := by
  refine ⟨by decide!, by decide!⟩

/-- C3 (amended). When the bucket of `nodeID` is full and does not hold it,
`InsertNode` overwrites the contact at the randomly chosen position `r` with
the new contact: the length is unchanged, the new id is at position `r`, the
contacts at the other positions stay where they are, and (the ids of the
bucket being pairwise different) the contact that was at position `r` is the
only one removed. -/
theorem insertNode_full_bucket_replaces_chosen (seed : Nat) (p : Peer) (nodeID : Str)
    (i : Fin 160) (hi : bucketIndex (Distance p.ID nodeID) = some i)
    (hfull : 3 ≤ (p.KBuckets i).Nodes.length) (hnew : nodeID ∉ (p.KBuckets i).ids) :
    ∃ q, InsertNode seed p nodeID = some q ∧
      randIntn seed (p.KBuckets i).Nodes.length < (p.KBuckets i).Nodes.length ∧
      (q.KBuckets i).Nodes =
        (p.KBuckets i).Nodes.set (randIntn seed (p.KBuckets i).Nodes.length) (mkNode nodeID) ∧
      (q.KBuckets i).Nodes.length = (p.KBuckets i).Nodes.length ∧
      (q.KBuckets i).ids[randIntn seed (p.KBuckets i).Nodes.length]? = some nodeID ∧
      (∀ k, k ≠ randIntn seed (p.KBuckets i).Nodes.length →
        (q.KBuckets i).Nodes[k]? = (p.KBuckets i).Nodes[k]?) ∧
      ((p.KBuckets i).ids.Nodup → ∀ x, x ∈ (p.KBuckets i).ids →
        (x ∈ (q.KBuckets i).ids ↔
          (p.KBuckets i).ids[randIntn seed (p.KBuckets i).Nodes.length]? ≠ some x)) := by
  have hr : randIntn seed (p.KBuckets i).Nodes.length < (p.KBuckets i).Nodes.length :=
    Nat.mod_lt _ (by omega)
  have hne : (p.KBuckets i).Nodes.length ≠ 0 := by omega
  have hidx : indexOfID nodeID (p.KBuckets i).Nodes = none := indexOfID_eq_none.mpr hnew
  have hnodes : insertNodes seed (p.KBuckets i).Nodes nodeID =
      (p.KBuckets i).Nodes.set (randIntn seed (p.KBuckets i).Nodes.length) (mkNode nodeID) := by
    simp [insertNodes, hne, hidx, hfull]
  refine ⟨_, InsertNode_of_index hi, hr, ?_, ?_, ?_, ?_, ?_⟩
  · simp only [Function.update_same, hnodes]
  · simp only [Function.update_same, hnodes, List.length_set]
  · simp only [Function.update_same, hnodes, Bucket.ids, List.map_set]
    rw [List.getElem?_set_self (by simpa using hr)]
    rfl
  · intro k hk
    simp only [Function.update_same, hnodes]
    exact List.getElem?_set_ne (Ne.symm hk)
  · intro hnd x hx
    simp only [Function.update_same, hnodes, Bucket.ids, List.map_set]
    have hmk : (mkNode nodeID).ID = nodeID := rfl
    rw [hmk]
    constructor
    · intro hmem hget
      obtain ⟨k, hk⟩ := List.mem_iff_getElem?.mp hmem
      rw [List.getElem?_set] at hk
      split_ifs at hk with h1 h2
      · exact hnew (by rw [Option.some.inj hk]; exact hx)
      · have hklt : k < (List.map Node.ID (p.KBuckets i).Nodes).length := by
          by_contra hc
          rw [List.getElem?_eq_none (by omega)] at hk
          exact Option.noConfusion hk
        exact h1 (List.getElem?_inj hklt hnd (hk.trans hget.symm)).symm
    · intro hget
      obtain ⟨k, hk⟩ := List.mem_iff_getElem?.mp hx
      have hkr : randIntn seed (p.KBuckets i).Nodes.length ≠ k := by
        intro e
        rw [e] at hget
        exact hget hk
      exact List.mem_iff_getElem?.mpr ⟨k, by rw [List.getElem?_set_ne hkr]; exact hk⟩

/-- C3 (witness). The full bucket 2 of the peer `0`, the new id `7` and the
random choice 1. -/
theorem insertNode_full_bucket_replaces_chosen_witness :
    bucketIndex (Distance fullPeer.ID (ascii "7")) = some 2 ∧
    3 ≤ (fullPeer.KBuckets 2).Nodes.length ∧ ascii "7" ∉ (fullPeer.KBuckets 2).ids ∧
    ∃ q, InsertNode 1 fullPeer (ascii "7") = some q ∧
      randIntn 1 (fullPeer.KBuckets 2).Nodes.length < (fullPeer.KBuckets 2).Nodes.length ∧
      (q.KBuckets 2).Nodes =
        (fullPeer.KBuckets 2).Nodes.set (randIntn 1 (fullPeer.KBuckets 2).Nodes.length)
          (mkNode (ascii "7")) ∧
      (q.KBuckets 2).Nodes.length = (fullPeer.KBuckets 2).Nodes.length ∧
      (q.KBuckets 2).ids[randIntn 1 (fullPeer.KBuckets 2).Nodes.length]? = some (ascii "7") ∧
      (∀ k, k ≠ randIntn 1 (fullPeer.KBuckets 2).Nodes.length →
        (q.KBuckets 2).Nodes[k]? = (fullPeer.KBuckets 2).Nodes[k]?) ∧
      ((fullPeer.KBuckets 2).ids.Nodup → ∀ x, x ∈ (fullPeer.KBuckets 2).ids →
        (x ∈ (q.KBuckets 2).ids ↔
          (fullPeer.KBuckets 2).ids[randIntn 1 (fullPeer.KBuckets 2).Nodes.length]? ≠ some x)) :=
  ⟨by decide!, by decide!, by decide!,
    insertNode_full_bucket_replaces_chosen 1 fullPeer (ascii "7") 2
      (by decide!) (by decide!) (by decide!)⟩

/-- C4 (failing input). Bucket 2 of the peer `0` holds `4`; inserting the new
id `5` appends it, so that it sits at index 1 and not at index 0, whereas
inserting `5` once more moves it to index 0. -/
theorem insertNode_appends_new_contact :
    (onePeer.KBuckets 2).ids = [ascii "4"] ∧
    bucketIds (InsertNode 0 onePeer (ascii "5")) 2 = some [ascii "4", ascii "5"] ∧
    bucketIds ((InsertNode 0 onePeer (ascii "5")).bind (fun q => InsertNode 0 q (ascii "5"))) 2
      = some [ascii "5", ascii "4"] := by
  refine ⟨by decide!, by decide!, by decide!⟩

/-- C5. When `nodeID` is already in its bucket (full or not), `InsertNode`
moves it to index 0: the new slice is the new contact followed by the old
slice without the first occurrence of `nodeID`, so the other contacts keep
their relative order, and the length and the set of ids are unchanged. -/
theorem insertNode_present_moves_to_front (seed : Nat) (p : Peer) (nodeID : Str) (i : Fin 160)
    (hi : bucketIndex (Distance p.ID nodeID) = some i) (hmem : nodeID ∈ (p.KBuckets i).ids) :
    ∃ q k, InsertNode seed p nodeID = some q ∧
      indexOfID nodeID (p.KBuckets i).Nodes = some k ∧
      (q.KBuckets i).Nodes = mkNode nodeID :: (p.KBuckets i).Nodes.eraseIdx k ∧
      (q.KBuckets i).ids = nodeID :: (p.KBuckets i).ids.erase nodeID ∧
      (q.KBuckets i).ids.tail.Sublist (p.KBuckets i).ids ∧
      (q.KBuckets i).Nodes.length = (p.KBuckets i).Nodes.length ∧
      (∀ x, x ∈ (q.KBuckets i).ids ↔ x ∈ (p.KBuckets i).ids) := by
  have hne : (p.KBuckets i).Nodes.length ≠ 0 := by
    intro h0
    rw [List.length_eq_zero] at h0
    simp [Bucket.ids, h0] at hmem
  cases hk : indexOfID nodeID (p.KBuckets i).Nodes with
  | none => exact absurd hmem (indexOfID_eq_none.mp hk)
  | some k =>
    obtain ⟨hlt, _, herase⟩ := indexOfID_some hk
    have hnodes : insertNodes seed (p.KBuckets i).Nodes nodeID =
        mkNode nodeID :: (p.KBuckets i).Nodes.eraseIdx k := by
      simp [insertNodes, hne, hk]
    have hids : (List.map Node.ID (mkNode nodeID :: (p.KBuckets i).Nodes.eraseIdx k)) =
        nodeID :: (p.KBuckets i).ids.erase nodeID := by
      simp only [List.map_cons, herase, Bucket.ids]
      rfl
    refine ⟨_, k, InsertNode_of_index hi, rfl, ?_, ?_, ?_, ?_, ?_⟩
    · simp only [Function.update_same, hnodes]
    · simp only [Function.update_same, hnodes, Bucket.ids, hids]
    · simp only [Function.update_same, hnodes, Bucket.ids, hids, List.tail_cons]
      exact List.erase_sublist _ _
    · simp only [Function.update_same, hnodes, List.length_cons, List.length_eraseIdx, hlt,
        if_true]
      omega
    · intro x
      simp only [Function.update_same, hnodes, Bucket.ids, hids, List.mem_cons]
      constructor
      · rintro (rfl | h)
        · exact hmem
        · exact List.mem_of_mem_erase h
      · intro h
        by_cases hx : x = nodeID
        · exact Or.inl hx
        · exact Or.inr ((List.mem_erase_of_ne hx).mpr h)

/-- C5 (witness). The peer `0` with the full bucket `4`, `5`, `6` sees `6`
again: the bucket becomes `6`, `4`, `5`. -/
theorem insertNode_present_moves_to_front_witness :
    bucketIndex (Distance fullPeer.ID (ascii "6")) = some 2 ∧
    ascii "6" ∈ (fullPeer.KBuckets 2).ids ∧
    bucketIds (InsertNode 0 fullPeer (ascii "6")) 2 = some [ascii "6", ascii "4", ascii "5"] ∧
    ∃ q k, InsertNode 0 fullPeer (ascii "6") = some q ∧
      indexOfID (ascii "6") (fullPeer.KBuckets 2).Nodes = some k ∧
      (q.KBuckets 2).Nodes = mkNode (ascii "6") :: (fullPeer.KBuckets 2).Nodes.eraseIdx k ∧
      (q.KBuckets 2).ids = ascii "6" :: (fullPeer.KBuckets 2).ids.erase (ascii "6") ∧
      (q.KBuckets 2).ids.tail.Sublist (fullPeer.KBuckets 2).ids ∧
      (q.KBuckets 2).Nodes.length = (fullPeer.KBuckets 2).Nodes.length ∧
      (∀ x, x ∈ (q.KBuckets 2).ids ↔ x ∈ (fullPeer.KBuckets 2).ids) :=
  ⟨by decide!, by decide!, by decide!,
    insertNode_present_moves_to_front 0 fullPeer (ascii "6") 2 (by decide!) (by decide!)⟩

/-! ## Distance: the claims -/

/-- C6. For all identifiers, `Distance a a` is 0 and `Distance` is symmetric. -/
theorem distance_self_and_symm (a b : Str) :
    Distance a a = 0 ∧ Distance a b = Distance b a := by
  constructor
  · rw [Distance_eq, Nat.xor_self]
    rfl
  · rw [Distance_eq, Distance_eq, Nat.xor_comm]

/-- C7 (counterexample). Two different ids of forty characters that differ
only in their first character have distance 0. -/
theorem distance_zero_of_different_ids :
    zeroID.length = 40 ∧ highID.length = 40 ∧ highID ≠ zeroID ∧ Distance highID zeroID = 0 := by
  refine ⟨by decide, by decide, by decide, by decide⟩

/-- C7 (amended). For identifiers of the same length, `Distance a b` is 0
exactly when `a` and `b` have the same last eight bytes; for identifiers of at
most eight bytes, exactly when `a = b`. -/
theorem distance_eq_zero_iff (a b : Str) (hlen : a.length = b.length) :
    (Distance a b = 0 ↔ a.drop (a.length - 8) = b.drop (b.length - 8)) ∧
    (a.length ≤ 8 → (Distance a b = 0 ↔ a = b)) := by
  have main : Distance a b = 0 ↔ a.drop (a.length - 8) = b.drop (b.length - 8) := by
    rw [Distance_eq, toInt64_eq_zero (Nat.mod_lt _ (by norm_num)), xor_mod_two_pow,
      Nat.xor_eq_zero, setBytes_mod, setBytes_mod]
    constructor
    · intro h
      exact setBytes_inj (by simp [List.length_drop, hlen]) h
    · intro h
      rw [h]
  refine ⟨main, fun h8 => ?_⟩
  have ha : a.length - 8 = 0 := by omega
  have hb : b.length - 8 = 0 := by omega
  rw [main, ha, hb, List.drop_zero, List.drop_zero]

/-- C7 (witness). Two ids of eight characters. -/
theorem distance_eq_zero_iff_witness :
    (ascii "0000000a").length = (ascii "0000000b").length ∧
    Distance (ascii "0000000a") (ascii "0000000b") = 3 ∧
    (Distance (ascii "0000000a") (ascii "0000000b") = 0 ↔
      (ascii "0000000a").drop ((ascii "0000000a").length - 8) =
        (ascii "0000000b").drop ((ascii "0000000b").length - 8)) ∧
    ((ascii "0000000a").length ≤ 8 →
      (Distance (ascii "0000000a") (ascii "0000000b") = 0 ↔ ascii "0000000a" = ascii "0000000b")) :=
  ⟨by decide, by decide, distance_eq_zero_iff (ascii "0000000a") (ascii "0000000b") (by decide)⟩

/-- C8 (counterexample). For the ids `100000000` and `000000000` of nine
characters the bytewise XOR is `2 ^ 64` but `Distance` is 0; and for two ids
of eight bytes whose XOR has its top bit set `Distance` is negative. -/
theorem distance_truncates :
    (ascii "100000000").length = (ascii "000000000").length ∧
    xorValue (ascii "100000000") (ascii "000000000") = 2 ^ 64 ∧
    Distance (ascii "100000000") (ascii "000000000") = 0 ∧
    Distance [128, 0, 0, 0, 0, 0, 0, 0] [0, 0, 0, 0, 0, 0, 0, 0] = -2 ^ 63 := by
  refine ⟨by decide, by decide, by decide, by decide⟩

/-- C8 (amended). For identifiers of the same length, `Distance a b` is the
bytewise XOR read as a big-endian integer, reduced modulo `2 ^ 64` and read as
a signed 64-bit integer: it lies in `[-2 ^ 63, 2 ^ 63)` and equals the XOR
integer itself whenever that integer is below `2 ^ 63`. -/
theorem distance_eq_truncated_xor (a b : Str) (hlen : a.length = b.length) :
    Distance a b = toInt64 (xorValue a b % 2 ^ 64) ∧
    (xorValue a b < 2 ^ 63 → Distance a b = (xorValue a b : Int)) ∧
    -2 ^ 63 ≤ Distance a b ∧ Distance a b < 2 ^ 63 := by
  have hx := xorValue_eq a b hlen
  refine ⟨by rw [Distance_eq, hx], fun h => ?_, ?_, Distance_lt a b⟩
  · rw [hx] at h ⊢
    exact Distance_of_xor_lt h
  · rw [Distance_eq]
    unfold toInt64
    split_ifs <;> omega

/-- C8 (witness). Two ids of eight characters whose XOR is 3. -/
theorem distance_eq_truncated_xor_witness :
    (ascii "0000000a").length = (ascii "0000000b").length ∧
    xorValue (ascii "0000000a") (ascii "0000000b") = 3 ∧
    Distance (ascii "0000000a") (ascii "0000000b") =
      toInt64 (xorValue (ascii "0000000a") (ascii "0000000b") % 2 ^ 64) ∧
    (xorValue (ascii "0000000a") (ascii "0000000b") < 2 ^ 63 →
      Distance (ascii "0000000a") (ascii "0000000b") =
        (xorValue (ascii "0000000a") (ascii "0000000b") : Int)) ∧
    -2 ^ 63 ≤ Distance (ascii "0000000a") (ascii "0000000b") ∧
    Distance (ascii "0000000a") (ascii "0000000b") < 2 ^ 63 :=
  ⟨by decide, by decide,
    distance_eq_truncated_xor (ascii "0000000a") (ascii "0000000b") (by decide)⟩

/-! ## Store: the claims -/

/-- C9. `SetValue` returns false exactly when the key differs from the
hexadecimal SHA-1 digest of the value, and then the peer, its store included,
is unchanged. -/
theorem setValue_false_iff (p : Peer) (key : Str) (value : Bytes) :
    ((SetValue p key value).2 = false ↔ key ≠ hashStr value) ∧
    ((SetValue p key value).2 = false → (SetValue p key value).1 = p) := by
  rw [SetValue_eq]
  split_ifs with h1 h2 <;> simp [h1]

set_option maxRecDepth 100000 in
/-- C9 (witness). With the key of `hello`, storing `hello` succeeds and
storing `world` is rejected. -/
theorem setValue_false_iff_witness :
    hashStr (some (ascii "hello")) = ascii "aaf4c61ddcc5e8a2dabede0f3b482cd9aea9434d" ∧
    (SetValue (NewPeer zeroID) (hashStr (some (ascii "hello"))) (some (ascii "hello"))).2 = true ∧
    (SetValue (NewPeer zeroID) (hashStr (some (ascii "hello"))) (some (ascii "world"))).2
      = false :=
  ⟨by decide,
    (Bool.not_eq_false _).mp (fun h =>
      (setValue_false_iff (NewPeer zeroID) (hashStr (some (ascii "hello")))
        (some (ascii "hello"))).1.mp h rfl),
    (setValue_false_iff (NewPeer zeroID) (hashStr (some (ascii "hello")))
      (some (ascii "world"))).1.mpr (by decide)⟩

/-- C10 (counterexample). Storing the nil slice under its key succeeds, and
`GetValue` on that key then returns nil, the result for an absent key. -/
theorem getValue_nil_after_setValue_nil :
    (SetValue (NewPeer zeroID) (hashStr none) none).2 = true ∧
    (GetValue (SetValue (NewPeer zeroID) (hashStr none) none).1 (hashStr none)).2 = none := by
  constructor
  · simp [SetValue_eq, NewPeer, mapGet]
  · simp [SetValue_eq, GetValue_eq, NewPeer, mapGet, mapSet]

/-- C10 (amended). On a reachable peer, if `SetValue key value` returns true
for a non-nil `value` (the empty slice included), `GetValue key` called right
afterwards returns a non-nil slice with the same SHA-1 digest as `value` and
leaves the peer unchanged; the slice is `value` itself when the key held no
non-nil value before, and the value already stored under the key otherwise. -/
theorem getValue_after_setValue (id : Str) (p : Peer) (key : Str) (value : List Byte)
    (hr : Reachable id p) (hset : (SetValue p key (some value)).2 = true) :
    ∃ w, (GetValue (SetValue p key (some value)).1 key).2 = some w ∧
      (GetValue (SetValue p key (some value)).1 key).1 = (SetValue p key (some value)).1 ∧
      hashStr (some w) = hashStr (some value) ∧
      (mapGet p.keys key = none → w = value) ∧
      (∀ u, mapGet p.keys key = some u → w = u) := by
  have hkey : key = hashStr (some value) := by
    by_contra hne
    have := (setValue_eq_false_of_ne p (some value) hne)
    rw [this] at hset
    exact Bool.noConfusion hset
  cases hold : mapGet p.keys key with
  | none =>
    have hS : SetValue p key (some value) =
        ({ p with keys := mapSet p.keys key (some value) }, true) := by
      rw [SetValue_eq, if_pos hkey, if_pos hold]
    have hget : mapGet (mapSet p.keys key (some value)) key = some value := by
      rw [mapGet_mapSet, if_pos rfl]
    refine ⟨value, ?_, ?_, rfl, fun _ => rfl, fun u hu => Option.noConfusion hu⟩
    · rw [hS, GetValue_eq]
      simp only [hget]
      rw [if_neg (by simp), if_pos hkey]
    · rw [hS, GetValue_eq]
      simp only [hget]
      rw [if_neg (by simp), if_pos hkey]
  | some u =>
    have hS : SetValue p key (some value) = (p, true) := by
      rw [SetValue_eq, if_pos hkey, if_neg (by simp [hold])]
    have hu : key = hashStr (some u) := hr.storeInv key u hold
    refine ⟨u, ?_, ?_, hu.symm.trans hkey, fun h => Option.noConfusion h,
      fun u' hu' => (Option.some.inj hu').symm ▸ rfl⟩
    · rw [hS, GetValue_eq]
      simp only [hold]
      rw [if_neg (by simp), if_pos hu]
    · rw [hS, GetValue_eq]
      simp only [hold]
      rw [if_neg (by simp), if_pos hu]

/-- C10 (witness). A fresh peer stores `hello` under its key and reads it
back. -/
theorem getValue_after_setValue_witness :
    Reachable zeroID (NewPeer zeroID) ∧
    (SetValue (NewPeer zeroID) (hashStr (some (ascii "hello"))) (some (ascii "hello"))).2 = true ∧
    ∃ w, (GetValue (SetValue (NewPeer zeroID) (hashStr (some (ascii "hello")))
        (some (ascii "hello"))).1 (hashStr (some (ascii "hello")))).2 = some w ∧
      (GetValue (SetValue (NewPeer zeroID) (hashStr (some (ascii "hello")))
        (some (ascii "hello"))).1 (hashStr (some (ascii "hello")))).1 =
        (SetValue (NewPeer zeroID) (hashStr (some (ascii "hello"))) (some (ascii "hello"))).1 ∧
      hashStr (some w) = hashStr (some (ascii "hello")) ∧
      (mapGet (NewPeer zeroID).keys (hashStr (some (ascii "hello"))) = none → w = ascii "hello") ∧
      (∀ u, mapGet (NewPeer zeroID).keys (hashStr (some (ascii "hello"))) = some u → w = u) :=
  ⟨Reachable.newPeer, by simp [SetValue_eq, NewPeer, mapGet],
    getValue_after_setValue zeroID (NewPeer zeroID) (hashStr (some (ascii "hello")))
      (ascii "hello") Reachable.newPeer (by simp [SetValue_eq, NewPeer, mapGet])⟩

/-! ## Lemmas on lookups -/

theorem holdsID_iff (p : Peer) (nodeID : Str) :
    holdsID p nodeID = true ↔ ∃ i, nodeID ∈ (p.KBuckets i).ids := by
  simp [holdsID, List.any_eq_true, List.mem_finRange]

theorem InsertNode_self (seed : Nat) (p : Peer) : InsertNode seed p p.ID = none := by
  have h : Distance p.ID p.ID = 0 := by
    rw [Distance_eq, Nat.xor_self]
    rfl
  simp [InsertNode, h, bucketIndex]

theorem InsertNode_holds {seed : Nat} {p q : Peer} {nodeID : Str}
    (h : InsertNode seed p nodeID = some q) : holdsID q nodeID = true := by
  obtain ⟨i, _, rfl⟩ := InsertNode_some h
  rw [holdsID_iff]
  exact ⟨i, by
    simp only [Function.update_same, Bucket.ids]
    exact mem_insertNodes_ids _ _ _⟩

theorem FindNode_of_insert {fuel : Nat} {seeds : Nat → Nat} {n : Nat} {net : Network}
    {self : Nat} {nodeID : Str} {p q : Peer} (hp : net[self]? = some p)
    (hq : InsertNode (seeds n) p nodeID = some q) :
    FindNode (fuel + 1) seeds n net self nodeID = Result.ok (net.set self q, n + 1, true) := by
  simp [FindNode, hp, hq, InsertNode_holds hq]

theorem FindNode_of_panic {fuel : Nat} {seeds : Nat → Nat} {n : Nat} {net : Network}
    {self : Nat} {nodeID : Str} {p : Peer} (hp : net[self]? = some p)
    (hq : InsertNode (seeds n) p nodeID = none) :
    FindNode (fuel + 1) seeds n net self nodeID = Result.panic := by
  simp [FindNode, hp, hq]

theorem FindNode_never_false (fuel : Nat) (seeds : Nat → Nat) (n : Nat) (net : Network)
    (self : Nat) (nodeID : Str) (net' : Network) (n' : Nat) :
    FindNode fuel seeds n net self nodeID ≠ Result.ok (net', n', false) := by
  cases fuel with
  | zero => simp [FindNode]
  | succ k =>
    cases hp : net[self]? with
    | none => simp [FindNode, hp]
    | some p =>
      cases hq : InsertNode (seeds n) p nodeID with
      | none => rw [FindNode_of_panic hp hq]; simp
      | some q => rw [FindNode_of_insert hp hq]; simp

/-! ## Lookups and frames: the claims -/

/-- C14 (failing input). A network of one fresh peer `0`: the target `4` is
the id of no peer and is held in no routing table, yet `FindNode` returns
true, having inserted the target into the peer's own bucket 2. -/
theorem findNode_absent_target_found :
    (∀ p ∈ loneNet, p.ID ≠ ascii "4" ∧ holdsID p (ascii "4") = false) ∧
    (FindNode 1 (fun _ => 0) 0 loneNet 0 (ascii "4")).value (fun r => r.2) = Result.ok true ∧
    (FindNode 5 (fun _ => 0) 0 loneNet 0 (ascii "4")).value (fun r => r.2) = Result.ok true := by
  refine ⟨by simp [loneNet]; decide, by decide!, by decide!⟩

/-- C15 (counterexample). The peer `00..00` knows the peer `00..01`, whose
routing table holds `10..00`; this target differs from `00..00` but has
distance 0 to it, and `FindNode` panics on the bucket access. -/
theorem findNode_reachable_target_panics :
    highID ≠ zeroID ∧
    bucketIds (pairNet[1]?) 0 = some [highID] ∧
    (pairNet[0]?).map (fun p => (p.ID, p.KnownPeers)) = some (zeroID, [(oneID, 1)]) ∧
    (FindNode 5 (fun _ => 0) 0 pairNet 0 highID).value (fun r => r.2) = Result.panic := by
  refine ⟨by decide, by decide!, by decide, by decide⟩

/-- C15 (amended). In every network, cyclic or not, for every peer `p` and
every target whose distance to `p` is positive and which is held in the
routing table of `p` or of a peer reachable from `p` through `KnownPeers`,
`FindNode` returns true, whatever the fuel and the random choices. -/
theorem findNode_returns_true (fuel : Nat) (seeds : Nat → Nat) (n : Nat) (net : Network)
    (self : Nat) (p : Peer) (target : Str) (hp : net[self]? = some p)
    (hd : 0 < Distance p.ID target)
    (hheld : ∃ r holder, KnownReach net self r ∧ net[r]? = some holder ∧
      holdsID holder target = true) :
    ∃ net' n', FindNode (fuel + 1) seeds n net self target = Result.ok (net', n', true) := by
  obtain ⟨_, _, _, _, _⟩ := hheld
  obtain ⟨i, hi, _⟩ := bucketIndex_of_pos hd (Distance_lt _ _)
  exact ⟨_, _, FindNode_of_insert hp (InsertNode_of_index hi)⟩

/-- C15 (witness). The peer `0` knows the peer `4`, whose routing table holds
`5`; the table of `0` does not hold it. The peer `0` looks up `5`. -/
theorem findNode_returns_true_witness :
    heldNet[0]? = some { NewPeer (ascii "0") with KnownPeers := [(ascii "4", 1)] } ∧
    0 < Distance ({ NewPeer (ascii "0") with KnownPeers := [(ascii "4", 1)] } : Peer).ID
      (ascii "5") ∧
    holdsID { NewPeer (ascii "0") with KnownPeers := [(ascii "4", 1)] } (ascii "5") = false ∧
    (∃ r holder, KnownReach heldNet 0 r ∧ heldNet[r]? = some holder ∧
      holdsID holder (ascii "5") = true) ∧
    ∃ net' n', FindNode (3 + 1) (fun _ => 0) 0 heldNet 0 (ascii "5") =
      Result.ok (net', n', true) :=
  ⟨rfl, by decide, by decide,
    ⟨1, runInserts (ascii "4") [(0, ascii "5")],
      KnownReach.step (ascii "4") KnownReach.self rfl (by decide), rfl, by decide!⟩,
    findNode_returns_true 3 (fun _ => 0) 0 heldNet 0
      { NewPeer (ascii "0") with KnownPeers := [(ascii "4", 1)] } (ascii "5") rfl (by decide)
      ⟨1, runInserts (ascii "4") [(0, ascii "5")],
        KnownReach.step (ascii "4") KnownReach.self rfl (by decide), rfl, by decide!⟩⟩

/-- C16 (failing input). For the fresh peer `00..00`, `InsertNode` called
with the peer's own id panics, and so does `FindNode`: the distance is 0, the
index computed from it is out of range, and there is no special case. -/
theorem self_reference_panics :
    Distance (NewPeer zeroID).ID zeroID = 0 ∧
    bucketIndex (Distance (NewPeer zeroID).ID zeroID) = none ∧
    (InsertNode 0 (NewPeer zeroID) (NewPeer zeroID).ID).isSome = false ∧
    (FindNode 5 (fun _ => 0) 0 [NewPeer zeroID] 0 (NewPeer zeroID).ID).value (fun r => r.2)
      = Result.panic := by
  refine ⟨by decide, by decide, ?_, ?_⟩
  · rw [InsertNode_self]
    rfl
  · rw [FindNode_of_panic (p := NewPeer zeroID) rfl (InsertNode_self _ _)]
    rfl

/-- C18. For every peer `p` and target with a valid bucket index, `FindNode`
returns (true) after the single call of `InsertNode` on `p`, with fuel for no
nested call, so no known peer is queried; afterwards the target is held in the
bucket of `p` with that index, the other buckets, the known peers and the
store of `p` are unchanged, and so is every other peer of the network. -/
theorem findNode_writes_initiator_only (seeds : Nat → Nat) (n : Nat) (net : Network)
    (self : Nat) (p : Peer) (target : Str) (i : Fin 160) (hp : net[self]? = some p)
    (hi : bucketIndex (Distance p.ID target) = some i) :
    ∃ q, FindNode 1 seeds n net self target = Result.ok (net.set self q, n + 1, true) ∧
      (∀ fuel, FindNode (fuel + 1) seeds n net self target =
        Result.ok (net.set self q, n + 1, true)) ∧
      (net.set self q)[self]? = some q ∧
      target ∈ (q.KBuckets i).ids ∧
      (∀ j, j ≠ i → q.KBuckets j = p.KBuckets j) ∧
      q.ID = p.ID ∧ q.KnownPeers = p.KnownPeers ∧ q.keys = p.keys ∧
      (∀ a, a ≠ self → (net.set self q)[a]? = net[a]?) := by
  have hlt : self < net.length := by
    by_contra hc
    rw [List.getElem?_eq_none (by omega)] at hp
    exact Option.noConfusion hp
  refine ⟨_, FindNode_of_insert hp (InsertNode_of_index hi),
    fun fuel => FindNode_of_insert hp (InsertNode_of_index hi), ?_, ?_, ?_, rfl, rfl, rfl, ?_⟩
  · exact List.getElem?_set_self hlt
  · simp only [Function.update_same, Bucket.ids]
    exact mem_insertNodes_ids _ _ _
  · intro j hj
    simp only [Function.update_noteq hj]
  · intro a ha
    exact List.getElem?_set_ne (Ne.symm ha)

/-- C18 (witness). The first peer of the three-peer network looks up `5`. -/
theorem findNode_writes_initiator_only_witness :
    smallNet[0]? = some { NewPeer (ascii "0") with KnownPeers := [(ascii "4", 1)] } ∧
    bucketIndex (Distance
      ({ NewPeer (ascii "0") with KnownPeers := [(ascii "4", 1)] } : Peer).ID (ascii "5"))
      = some 2 ∧
    ∃ q, FindNode 1 (fun _ => 0) 0 smallNet 0 (ascii "5")
        = Result.ok (smallNet.set 0 q, 0 + 1, true) ∧
      (∀ fuel, FindNode (fuel + 1) (fun _ => 0) 0 smallNet 0 (ascii "5") =
        Result.ok (smallNet.set 0 q, 0 + 1, true)) ∧
      (smallNet.set 0 q)[0]? = some q ∧
      ascii "5" ∈ (q.KBuckets 2).ids ∧
      (∀ j, j ≠ 2 → q.KBuckets j =
        ({ NewPeer (ascii "0") with KnownPeers := [(ascii "4", 1)] } : Peer).KBuckets j) ∧
      q.ID = ({ NewPeer (ascii "0") with KnownPeers := [(ascii "4", 1)] } : Peer).ID ∧
      q.KnownPeers = ({ NewPeer (ascii "0") with KnownPeers := [(ascii "4", 1)] } : Peer).KnownPeers ∧
      q.keys = ({ NewPeer (ascii "0") with KnownPeers := [(ascii "4", 1)] } : Peer).keys ∧
      (∀ a, a ≠ 0 → (smallNet.set 0 q)[a]? = smallNet[a]?) :=
  ⟨rfl, by decide!,
    findNode_writes_initiator_only (fun _ => 0) 0 smallNet 0
      { NewPeer (ascii "0") with KnownPeers := [(ascii "4", 1)] } (ascii "5") 2 rfl (by decide!)⟩

/-- C20. For every peer and id with a valid bucket index `i`, `InsertNode`
returns and leaves the other 159 buckets, the id, the known peers and the
store of the peer unchanged, whatever the random choice. -/
theorem insertNode_touches_one_bucket (seed : Nat) (p : Peer) (nodeID : Str) (i : Fin 160)
    (hi : bucketIndex (Distance p.ID nodeID) = some i) :
    ∃ q, InsertNode seed p nodeID = some q ∧
      (∀ j, j ≠ i → q.KBuckets j = p.KBuckets j) ∧
      q.ID = p.ID ∧ q.KnownPeers = p.KnownPeers ∧ q.keys = p.keys := by
  refine ⟨_, InsertNode_of_index hi, ?_, rfl, rfl, rfl⟩
  intro j hj
  simp only [Function.update_noteq hj]

/-- C20 (witness). The full bucket 2 of the peer `0`, the new id `7` and the
random choice 1. -/
theorem insertNode_touches_one_bucket_witness :
    bucketIndex (Distance fullPeer.ID (ascii "7")) = some 2 ∧
    ∃ q, InsertNode 1 fullPeer (ascii "7") = some q ∧
      (∀ j, j ≠ 2 → q.KBuckets j = fullPeer.KBuckets j) ∧
      q.ID = fullPeer.ID ∧ q.KnownPeers = fullPeer.KnownPeers ∧ q.keys = fullPeer.keys :=
  ⟨by decide!, insertNode_touches_one_bucket 1 fullPeer (ascii "7") 2 (by decide!)⟩

/-! ## Lemmas on sequences of store calls -/

theorem SetValue_false_state {p : Peer} {key : Str} {value : Bytes}
    (h : (SetValue p key value).2 = false) : (SetValue p key value).1 = p := by
  rw [SetValue_eq] at h ⊢
  split_ifs at h ⊢ with h1 h2
  rfl

theorem SetValue_true_key {p : Peer} {key : Str} {value : Bytes}
    (h : (SetValue p key value).2 = true) : key = hashStr value := by
  by_contra hne
  rw [setValue_eq_false_of_ne p value hne] at h
  exact Bool.noConfusion h

theorem SetValue_mapGet_other (p : Peer) {k key : Str} (value : Bytes) (h : k ≠ key) :
    mapGet (SetValue p k value).1.keys key = mapGet p.keys key := by
  rw [SetValue_eq]
  split_ifs with h1 h2
  · simp only [mapGet_mapSet, if_neg h]
  · rfl
  · rfl

theorem mapSet_idem (m : List (Str × Bytes)) (key : Str) (value : Bytes) :
    mapSet (mapSet m key value) key value = mapSet m key value := by
  simp [mapSet, List.filter_cons, List.filter_filter]

theorem mem_mapSet {m : List (Str × Bytes)} {key : Str} {value : Bytes} {e : Str × Bytes}
    (h : e ∈ mapSet m key value) : e = (key, value) ∨ e ∈ m := by
  rcases List.mem_cons.mp h with h | h
  · exact Or.inl h
  · exact Or.inr (List.mem_of_mem_filter h)

theorem setAll_mapGet_none (key : Str) (calls : List (Str × Bytes)) :
    ∀ p : Peer, mapGet p.keys key = none →
      (∀ c ∈ calls.zip (setAll p calls).2, c.1.1 = key → c.2 = false) →
      mapGet (setAll p calls).1.keys key = none := by
  induction calls with
  | nil => intro p hp _; exact hp
  | cons c cs ih =>
    obtain ⟨k, v⟩ := c
    intro p hp hall
    simp only [setAll, List.zip_cons_cons, List.mem_cons, forall_eq_or_imp] at hall ⊢
    refine ih _ ?_ hall.2
    by_cases hk : k = key
    · rw [SetValue_false_state (hall.1 hk)]
      exact hp
    · rw [SetValue_mapGet_other p v hk]
      exact hp

theorem Reachable.entries {id : Str} {p : Peer} (h : Reachable id p) :
    ∀ k v, (k, v) ∈ p.keys → k = hashStr v := by
  induction h with
  | newPeer =>
    intro k v hk
    simp [NewPeer] at hk
  | insertNode seed nodeID _ hq ih =>
    obtain ⟨i, _, rfl⟩ := InsertNode_some hq
    exact ih
  | @setValue p key value _ ih =>
    intro k v hk
    rw [SetValue_eq] at hk
    split_ifs at hk with h1 h2
    · rcases mem_mapSet hk with h | h
      · obtain ⟨rfl, rfl⟩ := Prod.mk.inj h
        exact h1
      · exact ih k v h
    · exact ih k v hk
    · exact ih k v hk

/-! ## Store lookups: the claims -/

/-- C11. After any sequence of `SetValue` calls on a fresh peer, `GetValue`
returns nil for every key for which no call returned true; and `GetValue`
never changes the peer, its store included. -/
theorem getValue_never_stored (id : Str) (calls : List (Str × Bytes)) (key : Str)
    (hkey : ∀ c ∈ calls.zip (setAll (NewPeer id) calls).2, c.1.1 = key → c.2 = false) :
    (GetValue (setAll (NewPeer id) calls).1 key).2 = none ∧
    ∀ (s : Peer) (k : Str), (GetValue s k).1 = s := by
  constructor
  · have h := setAll_mapGet_none key calls (NewPeer id) rfl hkey
    rw [GetValue_eq, if_pos h]
  · intro s k
    rw [GetValue_eq]
    split_ifs <;> rfl

set_option maxRecDepth 100000 in
/-- C11 (witness). A fresh peer stores `hello` under its key and is refused
`world` under the key `00..00`: that key reads as absent. -/
theorem getValue_never_stored_witness :
    (setAll (NewPeer zeroID)
      [(hashStr (some (ascii "hello")), some (ascii "hello")), (zeroID, some (ascii "world"))]).2
      = [true, false] ∧
    (GetValue (setAll (NewPeer zeroID)
      [(hashStr (some (ascii "hello")), some (ascii "hello")), (zeroID, some (ascii "world"))]).1
      zeroID).2 = none ∧
    ∀ (s : Peer) (k : Str), (GetValue s k).1 = s :=
  ⟨by decide,
    getValue_never_stored zeroID
      [(hashStr (some (ascii "hello")), some (ascii "hello")), (zeroID, some (ascii "world"))]
      zeroID (by decide)⟩

/-- C12. `SetValue` is idempotent: if `SetValue key value` returns true, a
second call with the same arguments returns true as well and leaves the peer,
its store included, as the first call left it. -/
theorem setValue_idempotent (p : Peer) (key : Str) (value : Bytes)
    (h : (SetValue p key value).2 = true) :
    (SetValue (SetValue p key value).1 key value).2 = true ∧
    (SetValue (SetValue p key value).1 key value).1 = (SetValue p key value).1 := by
  have hkey := SetValue_true_key h
  by_cases hold : mapGet p.keys key = none
  · have hS : SetValue p key value = ({ p with keys := mapSet p.keys key value }, true) := by
      rw [SetValue_eq, if_pos hkey, if_pos hold]
    rw [hS, SetValue_eq, if_pos hkey]
    simp only [mapGet_mapSet, if_true]
    split_ifs with hv
    · exact ⟨rfl, by simp only [mapSet_idem]⟩
    · exact ⟨rfl, rfl⟩
  · have hS : SetValue p key value = (p, true) := by
      rw [SetValue_eq, if_pos hkey, if_neg hold]
    rw [hS]
    exact ⟨by rw [hS], by rw [hS]⟩

/-- C12 (witness). A fresh peer stores the nil slice under its key twice. -/
theorem setValue_idempotent_witness :
    (SetValue (NewPeer zeroID) (hashStr none) none).2 = true ∧
    (SetValue (SetValue (NewPeer zeroID) (hashStr none) none).1 (hashStr none) none).2 = true ∧
    (SetValue (SetValue (NewPeer zeroID) (hashStr none) none).1 (hashStr none) none).1 =
      (SetValue (NewPeer zeroID) (hashStr none) none).1 :=
  ⟨by simp [SetValue_eq, NewPeer, mapGet],
    setValue_idempotent (NewPeer zeroID) (hashStr none) none
      (by simp [SetValue_eq, NewPeer, mapGet])⟩

/-- C13. Store invariant: in every peer reachable from `NewPeer`, every entry
of the store has the hexadecimal SHA-1 digest of its value as its key; so the
branch of `GetValue` that returns nil for a key holding a non-nil value is
never taken, and `GetValue` returns what the store holds. -/
theorem store_invariant (id : Str) (p : Peer) (h : Reachable id p) :
    (∀ k v, (k, v) ∈ p.keys → k = hashStr v) ∧
    (∀ key, mapGet p.keys key ≠ none → key = hashStr (mapGet p.keys key)) ∧
    (∀ key, GetValue p key = (p, mapGet p.keys key)) := by
  have hinv : ∀ key, mapGet p.keys key ≠ none → key = hashStr (mapGet p.keys key) := by
    intro key hne
    cases hv : mapGet p.keys key with
    | none => exact absurd hv hne
    | some v => exact h.storeInv key v hv
  refine ⟨h.entries, hinv, fun key => ?_⟩
  rw [GetValue_eq]
  split_ifs with h1 h2
  · rw [h1]
  · rfl
  · exact absurd (hinv key h1) h2

/-- C13 (witness). The fresh peer `00..00` after storing `hello`. -/
theorem store_invariant_witness :
    Reachable zeroID
      (SetValue (NewPeer zeroID) (hashStr (some (ascii "hello"))) (some (ascii "hello"))).1 ∧
    (SetValue (NewPeer zeroID) (hashStr (some (ascii "hello"))) (some (ascii "hello"))).1.keys
      = [(hashStr (some (ascii "hello")), some (ascii "hello"))] ∧
    ((∀ k v, (k, v) ∈ (SetValue (NewPeer zeroID) (hashStr (some (ascii "hello")))
        (some (ascii "hello"))).1.keys → k = hashStr v) ∧
    (∀ key, mapGet (SetValue (NewPeer zeroID) (hashStr (some (ascii "hello")))
        (some (ascii "hello"))).1.keys key ≠ none →
      key = hashStr (mapGet (SetValue (NewPeer zeroID) (hashStr (some (ascii "hello")))
        (some (ascii "hello"))).1.keys key)) ∧
    (∀ key, GetValue (SetValue (NewPeer zeroID) (hashStr (some (ascii "hello")))
        (some (ascii "hello"))).1 key =
      ((SetValue (NewPeer zeroID) (hashStr (some (ascii "hello"))) (some (ascii "hello"))).1,
        mapGet (SetValue (NewPeer zeroID) (hashStr (some (ascii "hello")))
          (some (ascii "hello"))).1.keys key))) :=
  ⟨Reachable.setValue _ _ Reachable.newPeer,
    by simp [SetValue_eq, NewPeer, mapGet, mapSet],
    store_invariant zeroID _ (Reachable.setValue _ _ Reachable.newPeer)⟩

/-! ## Lemmas on broadcasts -/

theorem getElem?_set_same_ID {net : Network} {a : Nat} {pa q : Peer}
    (ha : net[a]? = some pa) (hq : q.ID = pa.ID) (b : Nat) (x : Peer) (hx : net[b]? = some x) :
    ∃ y, (net.set a q)[b]? = some y ∧ y.ID = x.ID := by
  by_cases hab : a = b
  · subst hab
    have hlt : a < net.length := by
      by_contra hc
      rw [List.getElem?_eq_none (by omega)] at ha
      exact Option.noConfusion ha
    rw [ha] at hx
    exact ⟨q, List.getElem?_set_self hlt, by rw [hq, Option.some.inj hx]⟩
  · exact ⟨x, by rw [List.getElem?_set_ne hab]; exact hx, rfl⟩

theorem InsertNode_frame (seed : Nat) {p : Peer} {nodeID : Str} {i : Fin 160}
    (hi : bucketIndex (Distance p.ID nodeID) = some i) :
    ∃ q, InsertNode seed p nodeID = some q ∧ q.ID = p.ID ∧ q.KnownPeers = p.KnownPeers ∧
      q.keys = p.keys ∧ nodeID ∈ (q.KBuckets i).ids ∧
      ∀ j, j ≠ i → q.KBuckets j = p.KBuckets j := by
  refine ⟨_, InsertNode_of_index hi, rfl, rfl, rfl, ?_, ?_⟩
  · simp only [Function.update_same, Bucket.ids]
    exact mem_insertNodes_ids _ _ _
  · intro j hj
    simp only [Function.update_noteq hj]

theorem broadcastLoop_spec (seeds : Nat → Nat) (newPeer : Nat) (id : Str) :
    ∀ (l : List (Str × Nat)) (n : Nat) (net : Network),
      (∃ np, net[newPeer]? = some np ∧ np.ID = id) →
      (∀ e ∈ l, ∃ peer, net[e.2]? = some peer ∧ 0 < Distance peer.ID id) →
      ∃ net', broadcastLoop seeds newPeer l n net = Result.ok (net', n + l.length) ∧
        net'.length = net.length ∧
        ∀ a peer, net[a]? = some peer → ∃ peer', net'[a]? = some peer' ∧
          peer'.ID = peer.ID ∧ peer'.KnownPeers = peer.KnownPeers ∧ peer'.keys = peer.keys ∧
          (a ∈ l.map Prod.snd → ∃ i, bucketIndex (Distance peer.ID id) = some i ∧
            id ∈ (peer'.KBuckets i).ids ∧ ∀ j, j ≠ i → peer'.KBuckets j = peer.KBuckets j) ∧
          (a ∉ l.map Prod.snd → peer' = peer) := by
  intro l
  induction l with
  | nil =>
    intro n net _ _
    exact ⟨net, rfl, rfl, fun a peer h => ⟨peer, h, rfl, rfl, rfl, by simp, fun _ => rfl⟩⟩
  | cons e rest ih =>
    obtain ⟨k, a⟩ := e
    intro n net hnp hall
    obtain ⟨np, hnp1, hnp2⟩ := hnp
    obtain ⟨pa, hpa, hd⟩ := hall (k, a) (List.mem_cons_self _ _)
    simp only at hpa
    obtain ⟨i, hi, _⟩ := bucketIndex_of_pos hd (Distance_lt _ _)
    have hlt : a < net.length := by
      by_contra hc
      rw [List.getElem?_eq_none (by omega)] at hpa
      exact Option.noConfusion hpa
    obtain ⟨q, hins, hqid, hqkp, hqkeys, hqmem, hqout⟩ := InsertNode_frame (seeds n) hi
    obtain ⟨net', hrun, hlen, hrel⟩ := ih (n + 1) (net.set a q)
      (by
        obtain ⟨y, hy, hyid⟩ := getElem?_set_same_ID hpa hqid newPeer np hnp1
        exact ⟨y, hy, hyid.trans hnp2⟩)
      (by
        intro e he
        obtain ⟨x, hx, hxd⟩ := hall e (List.mem_cons_of_mem _ he)
        obtain ⟨y, hy, hyid⟩ := getElem?_set_same_ID hpa hqid e.2 x hx
        exact ⟨y, hy, by rw [hyid]; exact hxd⟩)
    refine ⟨net', ?_, by rw [hlen, List.length_set], ?_⟩
    · simp only [broadcastLoop, hpa, hnp1, hnp2, hins, List.length_cons]
      rw [hrun]
      congr 2
      omega
    · intro b peer hb
      by_cases hab : b = a
      · subst hab
        rw [hpa] at hb
        have hpeer : pa = peer := Option.some.inj hb
        subst hpeer
        obtain ⟨peer', h1, h2, h3, h4, h5, h6⟩ := hrel b q (List.getElem?_set_self hlt)
        refine ⟨peer', h1, h2.trans hqid, h3.trans hqkp, h4.trans hqkeys, fun _ => ?_,
          fun hn => ?_⟩
        · by_cases hmem : b ∈ rest.map Prod.snd
          · obtain ⟨i', hi', hin, hout⟩ := h5 hmem
            have hii : i' = i := by
              rw [hqid, hi] at hi'
              exact (Option.some.inj hi').symm
            subst hii
            exact ⟨i', hi, hin, fun j hj => (hout j hj).trans (hqout j hj)⟩
          · rw [h6 hmem]
            exact ⟨i, hi, hqmem, hqout⟩
        · exact absurd (List.mem_cons_self _ _) hn
      · have hb1 : (net.set a q)[b]? = some peer := by
          rw [List.getElem?_set_ne (Ne.symm hab)]
          exact hb
        obtain ⟨peer', h1, h2, h3, h4, h5, h6⟩ := hrel b peer hb1
        refine ⟨peer', h1, h2, h3, h4, fun hm => h5 ?_, fun hn => h6 ?_⟩
        · simpa [hab] using hm
        · simpa [hab] using hn

/-! ## Broadcast: the claims -/

/-- C17 (counterexample). The first peer of the network knows a peer whose id
has its top bit set; the id of the new peer has a non-zero (negative) distance
to it, and `Broadcast` panics on the bucket access. -/
theorem broadcast_negative_distance_panics :
    (signNet[0]?).map (fun p => p.KnownPeers) = some [([128, 0, 0, 0, 0, 0, 0, 0], 1)] ∧
    (signNet[1]?).map (fun p => p.ID) = some [128, 0, 0, 0, 0, 0, 0, 0] ∧
    (signNet[2]?).map (fun p => p.ID) = some [0, 0, 0, 0, 0, 0, 0, 0] ∧
    Distance [128, 0, 0, 0, 0, 0, 0, 0] [0, 0, 0, 0, 0, 0, 0, 0] = -2 ^ 63 ∧
    Distance [128, 0, 0, 0, 0, 0, 0, 0] [0, 0, 0, 0, 0, 0, 0, 0] ≠ 0 ∧
    (Broadcast (fun _ => 0) 0 signNet 0 2).value id = Result.panic := by
  refine ⟨by decide, by decide, by decide, by decide, by decide, by decide⟩

/-- C17 (amended). When the new peer's id has a positive distance to every
peer in `p.KnownPeers`, `Broadcast` returns after one `InsertNode` per entry;
afterwards every peer in `p.KnownPeers` holds the new id in the bucket that
`InsertNode` selects for it and its other buckets are unchanged, every peer
not in `p.KnownPeers` is unchanged, and the id, the known peers and the store
of every peer are unchanged. -/
theorem broadcast_inserts_into_known_peers (seeds : Nat → Nat) (n : Nat) (net : Network)
    (self newPeer : Nat) (p np : Peer) (hp : net[self]? = some p)
    (hnp : net[newPeer]? = some np)
    (hall : ∀ e ∈ p.KnownPeers, ∃ peer, net[e.2]? = some peer ∧ 0 < Distance peer.ID np.ID) :
    ∃ net', Broadcast seeds n net self newPeer = Result.ok (net', n + p.KnownPeers.length) ∧
      net'.length = net.length ∧
      ∀ a peer, net[a]? = some peer → ∃ peer', net'[a]? = some peer' ∧
        peer'.ID = peer.ID ∧ peer'.KnownPeers = peer.KnownPeers ∧ peer'.keys = peer.keys ∧
        (a ∈ p.KnownPeers.map Prod.snd → ∃ i, bucketIndex (Distance peer.ID np.ID) = some i ∧
          np.ID ∈ (peer'.KBuckets i).ids ∧ ∀ j, j ≠ i → peer'.KBuckets j = peer.KBuckets j) ∧
        (a ∉ p.KnownPeers.map Prod.snd → peer' = peer) := by
  obtain ⟨net', h1, h2, h3⟩ :=
    broadcastLoop_spec seeds newPeer np.ID p.KnownPeers n net ⟨np, hnp, rfl⟩ hall
  exact ⟨net', by simp only [Broadcast, hp]; exact h1, h2, h3⟩

/-- C17 (witness). The first peer `0` of the three-peer network, which knows
the peer `4`, announces the peer `5`. -/
theorem broadcast_inserts_into_known_peers_witness :
    bucketIds ((Broadcast (fun _ => 0) 0 smallNet 0 2).peerAt 1) 0 = some [ascii "5"] ∧
    ∃ net', Broadcast (fun _ => 0) 0 smallNet 0 2 = Result.ok (net', 0 +
        ({ NewPeer (ascii "0") with KnownPeers := [(ascii "4", 1)] } : Peer).KnownPeers.length) ∧
      net'.length = smallNet.length ∧
      ∀ a peer, smallNet[a]? = some peer → ∃ peer', net'[a]? = some peer' ∧
        peer'.ID = peer.ID ∧ peer'.KnownPeers = peer.KnownPeers ∧ peer'.keys = peer.keys ∧
        (a ∈ ({ NewPeer (ascii "0") with KnownPeers := [(ascii "4", 1)] } : Peer).KnownPeers.map
            Prod.snd →
          ∃ i, bucketIndex (Distance peer.ID (NewPeer (ascii "5")).ID) = some i ∧
            (NewPeer (ascii "5")).ID ∈ (peer'.KBuckets i).ids ∧
            ∀ j, j ≠ i → peer'.KBuckets j = peer.KBuckets j) ∧
        (a ∉ ({ NewPeer (ascii "0") with KnownPeers := [(ascii "4", 1)] } : Peer).KnownPeers.map
            Prod.snd → peer' = peer) :=
  ⟨by decide!,
    broadcast_inserts_into_known_peers (fun _ => 0) 0 smallNet 0 2
      { NewPeer (ascii "0") with KnownPeers := [(ascii "4", 1)] } (NewPeer (ascii "5")) rfl rfl
      (by
        intro e he
        simp only [List.mem_singleton] at he
        subst he
        exact ⟨NewPeer (ascii "4"), rfl, by decide⟩)⟩

/-! ## Identifiers in the format of `GenerateID` -/

theorem isHexChar_hexDigit : ∀ d, d < 16 → isHexChar (hexDigit d) = true := by
  decide

theorem hexEncodeToString_length (src : List Nat) :
    (hexEncodeToString src).length = 2 * src.length := by
  induction src with
  | nil => rfl
  | cons x xs ih =>
    simp only [hexEncodeToString, List.flatMap_cons, List.length_append, List.length_cons,
      List.length_nil] at ih ⊢
    omega

theorem hexEncodeToString_all (src : List Nat) :
    (hexEncodeToString src).all isHexChar = true := by
  induction src with
  | nil => rfl
  | cons x xs ih =>
    simp only [hexEncodeToString, List.flatMap_cons, List.all_append, Bool.and_eq_true] at ih ⊢
    refine ⟨?_, ih⟩
    simp [isHexChar_hexDigit (x / 16 % 16) (Nat.mod_lt _ (by norm_num)),
      isHexChar_hexDigit (x % 16) (Nat.mod_lt _ (by norm_num))]

theorem GenerateID_isHexID (b : List Byte) (hb : b.length = 20) :
    isHexID (GenerateID b) = true := by
  simp [isHexID, GenerateID, hexEncodeToString_length, hexEncodeToString_all, hb]

theorem isHexID_chars {s : Str} (h : isHexID s = true) :
    s.length = 40 ∧ ∀ c ∈ s, isHexChar c = true := by
  simp only [isHexID, Bool.and_eq_true, beq_iff_eq, List.all_eq_true] at h
  exact h

theorem setBytes_cons (c : Byte) (cs : List Byte) :
    setBytes (c :: cs) = c.val * 256 ^ cs.length + setBytes cs := by
  have h := foldl_setBytes (0 * 256 + c.val) cs
  simp only [Nat.zero_mul, Nat.zero_add] at h
  simpa [setBytes] using h

theorem isHexChar_div {c : Byte} (h : isHexChar c = true) :
    c.val / 16 = 3 ∨ c.val / 16 = 6 := by
  simp only [isHexChar, Bool.or_eq_true, Bool.and_eq_true, decide_eq_true_eq] at h
  omega

theorem xorByte_hex_lt (x y : Byte) (hx : isHexChar x = true) (hy : isHexChar y = true) :
    (xorByte x y).val < 96 := by
  have h : (x.val ^^^ y.val) / 16 = (x.val / 16) ^^^ (y.val / 16) := by
    have e : ∀ n : Nat, n / 16 = n / 2 / 2 / 2 / 2 := fun n => by omega
    rw [e (x.val ^^^ y.val), e x.val, e y.val]
    simp only [Nat.xor_div_two]
  have h5 : (x.val ^^^ y.val) / 16 ≤ 5 := by
    rw [h]
    rcases isHexChar_div hx with h1 | h1 <;> rcases isHexChar_div hy with h2 | h2 <;>
      rw [h1, h2] <;> decide
  show x.val ^^^ y.val < 96
  omega

theorem xor_low_bytes_lt {a b : Str} (ha : a.length = 8) (hb : b.length = 8)
    (hal : ∀ c ∈ a, isHexChar c = true) (hbl : ∀ c ∈ b, isHexChar c = true) :
    setBytes a ^^^ setBytes b < 3 * 2 ^ 61 := by
  rw [← xorValue_eq a b (ha.trans hb.symm)]
  cases a with
  | nil => simp at ha
  | cons x xs =>
    cases b with
    | nil => simp at hb
    | cons y ys =>
      simp only [List.length_cons] at ha hb
      have hxy : (xorByte x y).val < 96 :=
        xorByte_hex_lt x y (hal x (List.mem_cons_self _ _)) (hbl y (List.mem_cons_self _ _))
      have hlen : (List.zipWith xorByte xs ys).length = 7 := by
        simp only [List.length_zipWith]
        omega
      have hlt := setBytes_lt (List.zipWith xorByte xs ys)
      rw [hlen] at hlt
      simp only [xorValue, List.zipWith_cons_cons]
      rw [setBytes_cons, hlen]
      have e : (256 : Nat) ^ 7 = 2 ^ 56 := by norm_num
      rw [e] at hlt ⊢
      have : (xorByte x y).val * 2 ^ 56 ≤ 95 * 2 ^ 56 :=
        Nat.mul_le_mul_right _ (by omega)
      omega

theorem hexID_index {a b : Str} (ha : isHexID a = true) (hb : isHexID b = true)
    (hdiff : a.drop 32 ≠ b.drop 32) :
    0 < Distance a b ∧ Distance a b < 2 ^ 63 ∧
      ∃ i : Fin 160, bucketIndex (Distance a b) = some i ∧ i.val ≤ 62 := by
  obtain ⟨hla, hca⟩ := isHexID_chars ha
  obtain ⟨hlb, hcb⟩ := isHexID_chars hb
  have hda : (a.drop 32).length = 8 := by rw [List.length_drop]; omega
  have hdb : (b.drop 32).length = 8 := by rw [List.length_drop]; omega
  have hlow := xor_low_bytes_lt hda hdb (fun c hc => hca c (List.mem_of_mem_drop hc))
    (fun c hc => hcb c (List.mem_of_mem_drop hc))
  have hne : setBytes (a.drop 32) ^^^ setBytes (b.drop 32) ≠ 0 := by
    intro h0
    exact hdiff (setBytes_inj (hda.trans hdb.symm) (Nat.xor_eq_zero.mp h0))
  have hD : Distance a b = ((setBytes (a.drop 32) ^^^ setBytes (b.drop 32) : Nat) : Int) := by
    have e1 : a.length - 8 = 32 := by omega
    have e2 : b.length - 8 = 32 := by omega
    rw [Distance_eq, xor_mod_two_pow, setBytes_mod, setBytes_mod, e1, e2]
    unfold toInt64
    rw [if_pos (lt_trans hlow (by norm_num))]
  have hpos : 0 < Distance a b := by
    rw [hD]
    exact_mod_cast Nat.pos_of_ne_zero hne
  have hlt : Distance a b < 3 * 2 ^ 61 := by
    rw [hD]
    exact_mod_cast hlow
  obtain ⟨i, hi, hv⟩ := bucketIndex_of_pos hpos (Distance_lt a b)
  have h62 := log2Index_le_62 hpos hlt
  exact ⟨hpos, Distance_lt a b, i, hi, by omega⟩

theorem insertAll_hex {a : Str} (ha : isHexID a = true) :
    ∀ (calls : List (Nat × Str)) (p : Peer), p.ID = a →
      (∀ j : Fin 160, 63 ≤ j.val → (p.KBuckets j).Nodes = []) →
      (∀ c ∈ calls, isHexID c.2 = true ∧ a.drop 32 ≠ c.2.drop 32) →
      ∃ q, insertAll p calls = some q ∧
        ∀ j : Fin 160, 63 ≤ j.val → (q.KBuckets j).Nodes = [] := by
  intro calls
  induction calls with
  | nil =>
    intro p _ hp _
    exact ⟨p, rfl, hp⟩
  | cons c cs ih =>
    intro p hid hp hc
    obtain ⟨seed, b⟩ := c
    have hb := hc (seed, b) (List.mem_cons_self _ _)
    obtain ⟨_, _, i, hi, hi62⟩ := hexID_index ha hb.1 hb.2
    rw [← hid] at hi
    obtain ⟨q, hq, hqid, _, _, _, hout⟩ := InsertNode_frame seed hi
    have hq63 : ∀ j : Fin 160, 63 ≤ j.val → (q.KBuckets j).Nodes = [] := by
      intro j hj
      rw [hout j (fun e => by rw [e] at hj; omega)]
      exact hp j hj
    obtain ⟨r, hr, hre⟩ := ih q (hqid.trans hid) hq63
      (fun c hcm => hc c (List.mem_cons_of_mem _ hcm))
    exact ⟨r, by simp [insertAll, hq, hr], hre⟩

/-- C19. For every pair of ids in the format of `GenerateID` that differ in
one of their last eight characters, `Distance` lies strictly between 0 and
`2 ^ 63` and the bucket index lies in `[0, 62]`; `InsertNode` returns on such
ids and leaves the buckets 63 to 159 as they are, so that a peer which starts
from `NewPeer` and inserts only such ids never panics and keeps these buckets
empty. -/
theorem hexID_distance_and_index (a b : Str) (ha : isHexID a = true) (hb : isHexID b = true)
    (hdiff : a.drop 32 ≠ b.drop 32) :
    0 < Distance a b ∧ Distance a b < 2 ^ 63 ∧
    (∃ i : Fin 160, bucketIndex (Distance a b) = some i ∧ i.val ≤ 62 ∧
      ∀ (seed : Nat) (p : Peer), p.ID = a → ∃ q, InsertNode seed p b = some q ∧
        ∀ j : Fin 160, 63 ≤ j.val → q.KBuckets j = p.KBuckets j) ∧
    (∀ calls : List (Nat × Str),
      (∀ c ∈ calls, isHexID c.2 = true ∧ a.drop 32 ≠ c.2.drop 32) →
      ∃ q, insertAll (NewPeer a) calls = some q ∧
        ∀ j : Fin 160, 63 ≤ j.val → (q.KBuckets j).Nodes = []) := by
  obtain ⟨hpos, hlt, i, hi, hi62⟩ := hexID_index ha hb hdiff
  refine ⟨hpos, hlt, ⟨i, hi, hi62, ?_⟩, ?_⟩
  · intro seed p hp
    subst hp
    obtain ⟨q, hq, _, _, _, _, hout⟩ := InsertNode_frame seed hi
    exact ⟨q, hq, fun j hj => hout j (fun e => by rw [e] at hj; omega)⟩
  · intro calls hc
    exact insertAll_hex ha calls (NewPeer a) rfl (fun _ _ => rfl) hc

/-- C19 (witness). The ids `00..00` and `00..01`. -/
theorem hexID_distance_and_index_witness :
    isHexID zeroID = true ∧ isHexID oneID = true ∧ zeroID.drop 32 ≠ oneID.drop 32 ∧
    0 < Distance zeroID oneID ∧ Distance zeroID oneID < 2 ^ 63 ∧
    (∃ i : Fin 160, bucketIndex (Distance zeroID oneID) = some i ∧ i.val ≤ 62 ∧
      ∀ (seed : Nat) (p : Peer), p.ID = zeroID → ∃ q, InsertNode seed p oneID = some q ∧
        ∀ j : Fin 160, 63 ≤ j.val → q.KBuckets j = p.KBuckets j) ∧
    (∀ calls : List (Nat × Str),
      (∀ c ∈ calls, isHexID c.2 = true ∧ zeroID.drop 32 ≠ c.2.drop 32) →
      ∃ q, insertAll (NewPeer zeroID) calls = some q ∧
        ∀ j : Fin 160, 63 ≤ j.val → (q.KBuckets j).Nodes = []) :=
  ⟨by decide, by decide, by decide,
    hexID_distance_and_index zeroID oneID (by decide) (by decide) (by decide)⟩

end KBucket
